import Mathlib

/-!
Brainfuck interpreter: translator and execution engine.

A shallow embedding of `bf_interpreter.hpp` / `bf_interpreter.cpp`.

* `std::vector<bf_instr_t> code_` is a `List bf_instr_t` (`push_back` appends at the end,
  `back()` is the last element, `code_[k] = ...` is `List.set`).
* `std::stack<std::uint32_t> jmp_stack` is a `List Nat` whose head is the top.
* Machine integers are `Nat` / `Int` with the wrap written out: `std::uint8_t` values are
  reduced `% 256`, `std::int16_t` offsets go through `wrap_int16`, `std::uint16_t` values are
  reduced `% 65536` and `std::uint32_t` values `% 4294967296`.
* An access outside `bf_.cells` is undefined behaviour in the source; the execution model
  reports it as a separate outcome instead of inventing a result.
-/

namespace BF

/-! ## Data model (`bf_interpreter.hpp`) -/

/-- The opcode tag `enum struct BF_Opcode : std::uint8_t`. -/
inductive BF_Opcode
  | INVALID
  | INC_CELL
  | JMP_FWD
  | JMP_BWD
  | PUT
  | GET
  | ZERO
  deriving DecidableEq

/-- The union `bf_instr_t`.  Every variant starts with the tag `op`; `inc_cell_t` adds
`val` and `cell`, `jmp_fwd_t` / `jmp_bwd_t` add `cell` and `dest`, `zero_t` / `put_t` / `get_t`
add `cell`.  The record holds all of them side by side; a field that the variant written
by the translator does not have stays at the zero the `bf_instr_t instr{}` initialiser
gives it. -/
structure bf_instr_t where
  op : BF_Opcode
  val : Nat
  cell : Int
  dest : Nat
  deriving DecidableEq

/-- The constant `BF_Interpreter::NUM_CELLS`. -/
def NUM_CELLS : Nat := 3000

/-- The anonymous member struct `bf_`: cell pointer (`std::uint16_t`), program counter
(`std::uint32_t`) and the tape (`std::vector<char>`, every cell kept as its byte value). -/
structure bf_t where
  cp : Nat
  pc : Nat
  cells : List Nat
  deriving DecidableEq

/-- The object `BF_Interpreter`: the instruction sequence `code_` and the machine state `bf_`. -/
structure BF_Interpreter where
  code_ : List bf_instr_t
  bf_ : bf_t
  deriving DecidableEq

/-- A freshly constructed interpreter: `code_` empty, `cp` and `pc` zero, no cells yet. -/
def BF_Interpreter.fresh : BF_Interpreter :=
  { code_ := [], bf_ := { cp := 0, pc := 0, cells := [] } }

/-- Conversion of an `int` result to `std::int16_t` (two's complement wrap). -/
def wrap_int16 (x : Int) : Int := (x + 32768) % 65536 - 32768

/-- The call `std::vector<char>::resize(n)`: cut to `n` cells or pad with zero cells. -/
def resize (cells : List Nat) (n : Nat) : List Nat :=
  cells.take n ++ List.replicate (n - cells.length) 0

/-! ## Translator (`load_code`, `generate_code`) -/

/-- The two messages `generate_code` writes to `std::clog`, with the number printed after
"Cleaned position: ". -/
inductive Diag
  | unmatched_close (pos : Nat)
  | unmatched_open (pos : Nat)
  deriving DecidableEq

/-- What `generate_code` leaves behind: its return value, the member `code_`, and the
message written to `std::clog` (if any). -/
structure GenResult where
  ok : Bool
  code_ : List bf_instr_t
  clog : Option Diag
  deriving DecidableEq

/-- The predicate handed to `std::remove_copy_if` in `load_code`, negated: the eight
characters that are kept. -/
def is_operator (c : Char) : Bool :=
  c = '+' || c = '-' || c = '<' || c = '>' || c = '[' || c = ']' || c = '.' || c = ','

/-- The instruction pushed for `.`: `instr.put = {BF_Opcode::PUT, cell_offset}`. -/
def mk_put (cell_offset : Int) : bf_instr_t :=
  { op := .PUT, val := 0, cell := cell_offset, dest := 0 }

/-- The instruction pushed for `,`: `instr.get = {BF_Opcode::GET, cell_offset}`. -/
def mk_get (cell_offset : Int) : bf_instr_t :=
  { op := .GET, val := 0, cell := cell_offset, dest := 0 }

/-- The instruction pushed for a fresh `+` / `-`:
`instr.inc_cell = {BF_Opcode::INC_CELL, val, cell_offset}`. -/
def mk_inc_cell (val : Nat) (cell_offset : Int) : bf_instr_t :=
  { op := .INC_CELL, val := val, cell := cell_offset, dest := 0 }

/-- The instruction pushed for a recognised zero loop:
`instr.zero = {BF_Opcode::ZERO, cell_offset}`. -/
def mk_zero (cell_offset : Int) : bf_instr_t :=
  { op := .ZERO, val := 0, cell := cell_offset, dest := 0 }

/-- The instruction pushed for `[`: `instr.jmp_fwd = {BF_Opcode::JMP_FWD, cell_offset, 0}`. -/
def mk_jmp_fwd (cell_offset : Int) : bf_instr_t :=
  { op := .JMP_FWD, val := 0, cell := cell_offset, dest := 0 }

/-- The instruction pushed for `]`:
`instr.jmp_bwd = {BF_Opcode::JMP_BWD, cell_offset, jmp_stack.top() + 1}`. -/
def mk_jmp_bwd (cell_offset : Int) (dest : Nat) : bf_instr_t :=
  { op := .JMP_BWD, val := 0, cell := cell_offset, dest := dest }

/-- The byte `val` of line 162: `1` for `+`, `static_cast<std::uint8_t>(-1)` otherwise. -/
def delta_of (c : Char) : Nat := if c = '+' then 1 else 255

/-- The test of line 164: `code_` is not empty, its last instruction is an `INC_CELL`
and that instruction's `cell` equals the running offset. -/
def can_fold (code_ : List bf_instr_t) (cell_offset : Int) : Bool :=
  match code_.getLast? with
  | some b => b.op = .INC_CELL && b.cell = cell_offset
  | none => false

/-- The statement `code_.back().inc_cell.val += val` (a `std::uint8_t` addition). -/
def fold_back (code_ : List bf_instr_t) (val : Nat) : List bf_instr_t :=
  match code_.getLast? with
  | some b => code_.set (code_.length - 1) { b with val := (b.val + val) % 256 }
  | none => code_

/-- The statement `code_[top].jmp_fwd.dest = code_.size()` (a `std::uint32_t` store). -/
def patch_dest (code_ : List bf_instr_t) (top : Nat) : List bf_instr_t :=
  match code_[top]? with
  | some f => code_.set top { f with dest := code_.length % 4294967296 }
  | none => code_

/-- The loop of `generate_code`, started at index `i` of the cleaned source with the
characters `code[i..]` still to read.  `code_` is the member vector, `jmp_stack` the stack
of pending `[` (top first) and `cell_offset` the `std::int16_t` accumulator.  The recursion
follows the `for` loop: one character per round, three for a recognised `[-]` / `[+]`
(`i += 2; continue`).  The counter `i` is a `std::uint32_t` in the source and is compared
with the `size_t` value `code.size()`: for a cleaned source shorter than `2^32` characters it
stays below `code.size()` and never wraps, and the recursion is the loop exactly.  For a
longer text the counter of the source wraps to zero and its loop does not end, which the
recursion does not follow; every theorem about the result of the loop is therefore stated
for texts shorter than `2^32` characters. -/
def generate_loop : List Char → Nat → List bf_instr_t → List Nat → Int → GenResult
  | [], _, code_, jmp_stack, _ =>
    match jmp_stack with
    | [] => { ok := true, code_ := code_, clog := none }
    | top :: _ => { ok := false, code_ := code_, clog := some (.unmatched_open top) }
  | c :: rest, i, code_, jmp_stack, cell_offset =>
    if c = '.' then
      generate_loop rest (i + 1) (code_ ++ [mk_put cell_offset]) jmp_stack cell_offset
    else if c = ',' then
      generate_loop rest (i + 1) (code_ ++ [mk_get cell_offset]) jmp_stack cell_offset
    else if c = '<' then
      generate_loop rest (i + 1) code_ jmp_stack (wrap_int16 (cell_offset - 1))
    else if c = '>' then
      generate_loop rest (i + 1) code_ jmp_stack (wrap_int16 (cell_offset + 1))
    else if c = '+' ∨ c = '-' then
      if can_fold code_ cell_offset then
        generate_loop rest (i + 1) (fold_back code_ (delta_of c)) jmp_stack cell_offset
      else
        generate_loop rest (i + 1) (code_ ++ [mk_inc_cell (delta_of c) cell_offset])
          jmp_stack cell_offset
    else if c = '[' then
      match rest with
      | a :: b :: rest2 =>
        if (a = '-' ∨ a = '+') ∧ b = ']' then
          generate_loop rest2 (i + 3) (code_ ++ [mk_zero cell_offset]) jmp_stack cell_offset
        else
          generate_loop (a :: b :: rest2) (i + 1) (code_ ++ [mk_jmp_fwd cell_offset])
            ((code_.length % 4294967296) :: jmp_stack) 0
      | rest1 =>
        generate_loop rest1 (i + 1) (code_ ++ [mk_jmp_fwd cell_offset])
          ((code_.length % 4294967296) :: jmp_stack) 0
    else if c = ']' then
      match jmp_stack with
      | [] => { ok := false, code_ := code_, clog := some (.unmatched_close i) }
      | top :: stack2 =>
        generate_loop rest (i + 1)
          (patch_dest (code_ ++ [mk_jmp_bwd cell_offset ((top + 1) % 4294967296)]) top)
          stack2 0
    else
      generate_loop rest (i + 1) code_ jmp_stack cell_offset

/-- The member function `generate_code(code)`, run on an interpreter whose instruction
sequence is `code_`: empty stack, offset zero, index zero. -/
def generate_code (code_ : List bf_instr_t) (code : List Char) : GenResult :=
  generate_loop code 0 code_ [] 0

/-- The member function `load_code(code, len)`: resize the tape to `NUM_CELLS`, drop every
character that is not an operator, translate.  Returns the return value, the interpreter
afterwards and the message written to `std::clog`. -/
def load_code (self : BF_Interpreter) (code : List Char) :
    Bool × BF_Interpreter × Option Diag :=
  let r := generate_code self.code_ (code.filter is_operator)
  (r.ok, { code_ := r.code_, bf_ := { self.bf_ with cells := resize self.bf_.cells NUM_CELLS } },
    r.clog)

/-! ## Bracket structure of a source text (reference definitions) -/

/-- Reference scan for "balanced and well nested": read the text left to right with `depth`
brackets open; a `]` at depth zero is unmatched, and at the end no `[` may be left open. -/
def balanced_from : List Char → Nat → Bool
  | [], depth => depth = 0
  | c :: rest, depth =>
    if c = '[' then balanced_from rest (depth + 1)
    else if c = ']' then
      match depth with
      | 0 => false
      | d + 1 => balanced_from rest d
    else balanced_from rest depth

/-- The `[` and `]` of a text are balanced and well nested. -/
def balanced (code : List Char) : Bool := balanced_from code 0

/-- Reference scan for the first unmatched `]`: its index in the text, counted from `i`,
with `depth` brackets open at the start; `none` when every `]` has a partner. -/
def first_unmatched_close : List Char → Nat → Nat → Option Nat
  | [], _, _ => none
  | c :: rest, depth, i =>
    if c = '[' then first_unmatched_close rest (depth + 1) (i + 1)
    else if c = ']' then
      match depth with
      | 0 => some i
      | d + 1 => first_unmatched_close rest d (i + 1)
    else first_unmatched_close rest depth (i + 1)

/-! ## Execution engine (`execute<EXECUTE_ALL>`, `execute_all`, `execute`, `finished`, `reset`) -/

/-- The standard streams of the process as `std::getchar` and `std::putchar` use them: the
bytes still to be read and the bytes written so far. -/
structure Console where
  stdin : List Nat
  stdout : List Nat
  deriving DecidableEq

/-- What one pass through the `switch` of the interpreter loop does. -/
inductive Dispatch
  | next (bf_ : bf_t) (con : Console)
  | ret_false
  | undefined_behaviour
  deriving DecidableEq

/-- How a call of `execute<EXECUTE_ALL>` ends: it returns `ret` with the loop counter at `i`
and the machine and streams as given; or it has indexed `bf_.cells` outside the tape, which
the source leaves undefined; or the model was given too little fuel to follow the loop to
its end (the loop itself has no such limit). -/
inductive Outcome
  | returned (ret : Bool) (i : Nat) (bf_ : bf_t) (con : Console)
  | undefined_behaviour
  | out_of_fuel
  deriving DecidableEq

/-- The index `bf_.cp + cell` of a tape access.  Both operands are promoted to `int`, so the
sum does not wrap; the access is defined only when the sum is inside `bf_.cells`. -/
def cell_index (bf_ : bf_t) (cell : Int) : Option Nat :=
  if 0 ≤ (bf_.cp : Int) + cell ∧ (bf_.cp : Int) + cell < (bf_.cells.length : Int) then
    some ((bf_.cp : Int) + cell).toNat
  else none

/-- The statement `bf_.cp += cell`: the `int` sum stored back into a `std::uint16_t`. -/
def move_cp (bf_ : bf_t) (cell : Int) : Nat := (((bf_.cp : Int) + cell) % 65536).toNat

/-- The expression `static_cast<char>(std::getchar())` as a byte: the next byte of the input,
or `EOF` (that is `-1`, the byte 255) when the input is used up. -/
def read_char (con : Console) : Nat × Console :=
  match con.stdin with
  | [] => (255, con)
  | b :: rest => (b % 256, { con with stdin := rest })

/-- The `switch (instr.check.op)` of the interpreter loop, for the instruction `instr`
fetched from `code_[bf_.pc]`. -/
def dispatch (instr : bf_instr_t) (bf_ : bf_t) (con : Console) : Dispatch :=
  match instr.op with
  | .INC_CELL =>
    match cell_index bf_ instr.cell with
    | some k =>
      .next { bf_ with cells := bf_.cells.set k ((bf_.cells.getD k 0 + instr.val) % 256),
                       pc := (bf_.pc + 1) % 4294967296 } con
    | none => .undefined_behaviour
  | .JMP_FWD =>
    if move_cp bf_ instr.cell < bf_.cells.length then
      if bf_.cells.getD (move_cp bf_ instr.cell) 0 ≠ 0 then
        .next { bf_ with cp := move_cp bf_ instr.cell, pc := (bf_.pc + 1) % 4294967296 } con
      else
        .next { bf_ with cp := move_cp bf_ instr.cell, pc := instr.dest } con
    else .undefined_behaviour
  | .JMP_BWD =>
    if move_cp bf_ instr.cell < bf_.cells.length then
      if bf_.cells.getD (move_cp bf_ instr.cell) 0 = 0 then
        .next { bf_ with cp := move_cp bf_ instr.cell, pc := (bf_.pc + 1) % 4294967296 } con
      else
        .next { bf_ with cp := move_cp bf_ instr.cell, pc := instr.dest } con
    else .undefined_behaviour
  | .ZERO =>
    match cell_index bf_ instr.cell with
    | some k =>
      .next { bf_ with cells := bf_.cells.set k 0, pc := (bf_.pc + 1) % 4294967296 } con
    | none => .undefined_behaviour
  | .PUT =>
    match cell_index bf_ instr.cell with
    | some k =>
      .next { bf_ with pc := (bf_.pc + 1) % 4294967296 }
        { con with stdout := con.stdout ++ [bf_.cells.getD k 0] }
    | none => .undefined_behaviour
  | .GET =>
    match cell_index bf_ instr.cell with
    | some k =>
      .next { bf_ with cells := bf_.cells.set k (read_char con).1,
                       pc := (bf_.pc + 1) % 4294967296 } (read_char con).2
    | none => .undefined_behaviour
  | .INVALID => .ret_false

/-- The lambda `cond` of `execute<EXECUTE_ALL>`. -/
def cond (EXECUTE_ALL : Bool) (code_ : List bf_instr_t) (num_instr : Nat) (cur : Nat)
    (bf_ : bf_t) : Bool :=
  if EXECUTE_ALL then bf_.pc < code_.length
  else cur < num_instr && bf_.pc < code_.length

/-- The lambda `inc` of `execute<EXECUTE_ALL>`, as the new value of the counter: untouched
when `EXECUTE_ALL`, otherwise `++cur` on a `std::uint32_t`. -/
def inc (EXECUTE_ALL : Bool) (cur : Nat) : Nat :=
  if EXECUTE_ALL then cur else (cur + 1) % 4294967296

/-- The template `execute<EXECUTE_ALL>(num_instr)`, from the point where the `for` loop is
about to test `cond(i)`.  `fuel` bounds the number of such tests the model follows. -/
def execute_tmpl (EXECUTE_ALL : Bool) (code_ : List bf_instr_t) (num_instr : Nat) :
    Nat → Nat → bf_t → Console → Outcome
  | 0, _, _, _ => .out_of_fuel
  | fuel + 1, i, bf_, con =>
    if cond EXECUTE_ALL code_ num_instr i bf_ then
      match code_[bf_.pc]? with
      | some instr =>
        match dispatch instr bf_ con with
        | .next bf2 con2 => execute_tmpl EXECUTE_ALL code_ num_instr fuel (inc EXECUTE_ALL i) bf2 con2
        | .ret_false => .returned false i bf_ con
        | .undefined_behaviour => .undefined_behaviour
      | none => .undefined_behaviour
    else .returned true i bf_ con

/-- The member function `execute_all()`, that is `execute<true>(0)`.  The loop has no bound of
its own, so the model takes the fuel as an argument. -/
def execute_all (code_ : List bf_instr_t) (fuel : Nat) (bf_ : bf_t) (con : Console) : Outcome :=
  execute_tmpl true code_ 0 fuel 0 bf_ con

/-- The member function `execute(num_instr)`, that is `execute<false>(num_instr)`.  The loop
tests `cond` at most `num_instr + 1` times, which is the fuel it is given. -/
def execute (code_ : List bf_instr_t) (num_instr : Nat) (bf_ : bf_t) (con : Console) : Outcome :=
  execute_tmpl false code_ num_instr (num_instr + 1) 0 bf_ con

/-- The member function `finished()`. -/
def finished (self : BF_Interpreter) : Bool := self.bf_.pc ≥ self.code_.length

/-- The member function `reset()`. -/
def reset (self : BF_Interpreter) : BF_Interpreter :=
  let cells := resize self.bf_.cells NUM_CELLS
  { code_ := [], bf_ := { cp := 0, pc := 0, cells := List.replicate cells.length 0 } }

/-- Two calls in a row, `execute(a)` and then `execute(b)` on the machine and streams the
first call left behind.  The result has the conjunction of the two return values and the sum
of the two loop counters, that is the number of instructions executed by both calls. -/
def execute_twice (code_ : List bf_instr_t) (a b : Nat) (bf_ : bf_t) (con : Console) :
    Outcome :=
  match execute code_ a bf_ con with
  | .returned r1 i1 bf1 con1 =>
    match execute code_ b bf1 con1 with
    | .returned r2 i2 bf2 con2 => .returned (r1 && r2) (i1 + i2) bf2 con2
    | .undefined_behaviour => .undefined_behaviour
    | .out_of_fuel => .out_of_fuel
  | .undefined_behaviour => .undefined_behaviour
  | .out_of_fuel => .out_of_fuel

/-! ## Traces of the interpreter loop (reference definitions) -/

/-- One executed instruction: fetch `code_[bf_.pc]` and go through the `switch`; `none`
when the program counter is outside `code_`, the instruction is `INVALID`, or the tape
access is outside the tape. -/
def exec_one (code_ : List bf_instr_t) (bf_ : bf_t) (con : Console) : Option (bf_t × Console) :=
  match code_[bf_.pc]? with
  | some instr =>
    match dispatch instr bf_ con with
    | .next bf2 con2 => some (bf2, con2)
    | _ => none
  | none => none

/-- The machine after exactly `k` executed instructions, when there are that many. -/
def run_steps (code_ : List bf_instr_t) : Nat → bf_t → Console → Option (bf_t × Console)
  | 0, bf_, con => some (bf_, con)
  | k + 1, bf_, con =>
    match exec_one code_ bf_ con with
    | some (bf2, con2) => run_steps code_ k bf2 con2
    | none => none

/-- The program counter points inside `code_` at an instruction with opcode `INVALID`. -/
def at_invalid (code_ : List bf_instr_t) (bf_ : bf_t) : Prop :=
  ∃ instr, code_[bf_.pc]? = some instr ∧ instr.op = .INVALID

/-! ## Peephole rules (reference definitions) -/

/-- The unfolded instruction sequence of a text over `+ - < >`: one `INC_CELL` per `+` or
`-` character, with `val` 1 or 255 and `cell` the net count of `>` minus `<` before that
character (`net` is the count before the first character of the text). -/
def unfolded_from : List Char → Int → List bf_instr_t
  | [], _ => []
  | c :: rest, net =>
    if c = '>' then unfolded_from rest (net + 1)
    else if c = '<' then unfolded_from rest (net - 1)
    else if c = '+' then mk_inc_cell 1 net :: unfolded_from rest net
    else if c = '-' then mk_inc_cell 255 net :: unfolded_from rest net
    else unfolded_from rest net

/-- The unfolded instruction sequence of a whole text. -/
def unfolded (code : List Char) : List bf_instr_t := unfolded_from code 0

/-- The effect of one `INC_CELL` on the tape when the cell pointer is `cp`: the addition of
line 34, when the cell `cp + cell` is inside the tape. -/
def inc_tape (cp : Nat) (x : bf_instr_t) (cells : List Nat) : Option (List Nat) :=
  if 0 ≤ (cp : Int) + x.cell ∧ (cp : Int) + x.cell < (cells.length : Int) then
    some (cells.set ((cp : Int) + x.cell).toNat
      ((cells.getD ((cp : Int) + x.cell).toNat 0 + x.val) % 256))
  else none

/-- The effect on the tape of a run of `INC_CELL` instructions, one after the other. -/
def inc_tape_all (cp : Nat) : List bf_instr_t → List Nat → Option (List Nat)
  | [], cells => some cells
  | x :: rest, cells => (inc_tape cp x cells).bind (inc_tape_all cp rest)

/-- The three instructions the translator would emit for `[-]` or `[+]` after `k` times `>`
without the zero-loop rule, placed at index 0: `JMP_FWD` with `cell = k`, `INC_CELL` with
`val` and `JMP_BWD`. -/
def unrecognised_loop (k : Int) (val : Nat) : List bf_instr_t :=
  [{ op := .JMP_FWD, val := 0, cell := k, dest := 3 }, mk_inc_cell val 0,
   { op := .JMP_BWD, val := 0, cell := 0, dest := 1 }]

/-! ## Loop structure of an instruction sequence -/

/-- The opcode of `code_[i]`, when `i` is inside the sequence. -/
def op_at (code_ : List bf_instr_t) (i : Nat) : Option BF_Opcode :=
  code_[i]?.map (fun x => x.op)

/-- The `dest` field of `code_[i]`, when `i` is inside the sequence. -/
def dest_at (code_ : List bf_instr_t) (i : Nat) : Option Nat :=
  code_[i]?.map (fun x => x.dest)

/-- The instructions at `i` and `j` form a loop: a `JMP_FWD` at `i` and a `JMP_BWD` at a
later index `j`, with `jmp_bwd.dest = i + 1` and `jmp_fwd.dest = j + 1`. -/
def is_pair (code_ : List bf_instr_t) (i j : Nat) : Prop :=
  i < j ∧ op_at code_ i = some .JMP_FWD ∧ dest_at code_ i = some (j + 1) ∧
    op_at code_ j = some .JMP_BWD ∧ dest_at code_ j = some (i + 1)

/-- The state of the translator between two rounds of its loop is consistent: the pending
`[` on the stack are `JMP_FWD` instructions, listed innermost first; every other `JMP_FWD`
and every `JMP_BWD` belongs to a loop pair; no pending `[` sits inside a finished pair;
finished pairs are nested or disjoint; and no instruction is `INVALID`. -/
structure gen_inv (code_ : List bf_instr_t) (jmp_stack : List Nat) : Prop where
  sorted : jmp_stack.Pairwise (fun a b => b < a)
  pending : ∀ s ∈ jmp_stack, op_at code_ s = some .JMP_FWD
  fwd : ∀ i, op_at code_ i = some .JMP_FWD → i ∈ jmp_stack ∨ ∃ j, is_pair code_ i j
  bwd : ∀ j, op_at code_ j = some .JMP_BWD → ∃ i, is_pair code_ i j
  closed : ∀ i j, is_pair code_ i j → i ∉ jmp_stack ∧ ∀ s ∈ jmp_stack, s < i ∨ j < s
  nested : ∀ i j i2 j2, is_pair code_ i j → is_pair code_ i2 j2 → i < i2 → j < i2 ∨ j2 < j
  valid : ∀ i, op_at code_ i ≠ some .INVALID

/-! ## Meaning of a source text (reference definitions)

These definitions follow the language description, not the translator: the program text is
read one character at a time, with no instruction sequence in between. -/

/-- The state of the reference machine: the pointer, the tape of byte cells, the input bytes
still to be read and the output bytes written so far. -/
structure RefState where
  ptr : Nat
  tape : List Nat
  input : List Nat
  output : List Nat
  deriving DecidableEq

/-- The text after the `]` that closes the loop entered last: `rest` is the text behind a
`[`, and `depth` counts the loops opened since then that are still open. -/
def skip_loop : List Char → Nat → List Char
  | [], _ => []
  | c :: rest, depth =>
    if c = '[' then skip_loop rest (depth + 1)
    else if c = ']' then
      match depth with
      | 0 => rest
      | d + 1 => skip_loop rest d
    else skip_loop rest depth

/-- One character of the program, with `rest` the text behind it and `loops` the bodies of
the loops entered and not yet left (innermost first).  `+` and `-` change the current cell
by one modulo 256; `>` and `<` move the pointer and fail when it would leave the tape; `.`
writes the current cell; `,` stores the next input byte, or 255 at the end of the input;
`[` jumps behind the matching `]` when the current cell is zero and enters the loop
otherwise; `]` jumps back to the start of the loop body when the current cell is not zero
and leaves the loop otherwise; every other character is a comment. -/
def ref_step (c : Char) (rest : List Char) (loops : List (List Char)) (s : RefState) :
    Option (List Char × List (List Char) × RefState) :=
  if c = '+' then
    some (rest, loops, { s with tape := s.tape.set s.ptr ((s.tape.getD s.ptr 0 + 1) % 256) })
  else if c = '-' then
    some (rest, loops, { s with tape := s.tape.set s.ptr ((s.tape.getD s.ptr 0 + 255) % 256) })
  else if c = '>' then
    if s.ptr + 1 < s.tape.length then some (rest, loops, { s with ptr := s.ptr + 1 }) else none
  else if c = '<' then
    if 0 < s.ptr then some (rest, loops, { s with ptr := s.ptr - 1 }) else none
  else if c = '.' then
    some (rest, loops, { s with output := s.output ++ [s.tape.getD s.ptr 0] })
  else if c = ',' then
    match s.input with
    | [] => some (rest, loops, { s with tape := s.tape.set s.ptr 255 })
    | b :: more =>
      some (rest, loops, { s with tape := s.tape.set s.ptr (b % 256), input := more })
  else if c = '[' then
    if s.tape.getD s.ptr 0 = 0 then some (skip_loop rest 0, loops, s)
    else some (rest, rest :: loops, s)
  else if c = ']' then
    match loops with
    | [] => none
    | body :: outer =>
      if s.tape.getD s.ptr 0 = 0 then some (rest, outer, s) else some (body, loops, s)
  else some (rest, loops, s)

/-- The reference run of a program text for at most `steps` characters: `some s` when the
end of the text is reached in state `s`, `none` when the pointer would leave the tape, a
`]` has no loop to close, or the steps are used up before the end of the text. -/
def ref_run : Nat → List Char → List (List Char) → RefState → Option RefState
  | _, [], _, s => some s
  | 0, _ :: _, _, _ => none
  | steps + 1, c :: rest, loops, s =>
    match ref_step c rest loops s with
    | some (rest2, loops2, s2) => ref_run steps rest2 loops2 s2
    | none => none

/-- The reference machine before the first character: pointer at cell 0 of a zeroed tape of
`NUM_CELLS` cells, nothing written yet. -/
def ref_init (input : List Nat) : RefState :=
  { ptr := 0, tape := List.replicate NUM_CELLS 0, input := input, output := [] }

/-! ## Simulation of the reference run by the instruction sequence -/

/-- The text behind a `[` starts with `-]` or `+]`: the zero-loop rule applies. -/
def zero_ahead (rest : List Char) : Prop :=
  ∃ a rest2, (a = '-' ∨ a = '+') ∧ rest = a :: ']' :: rest2

/-- The `cell` field of `code_[i]`, when `i` is inside the sequence. -/
def cell_at (code_ : List bf_instr_t) (i : Nat) : Option Int :=
  code_[i]?.map (fun x => x.cell)

/-- A state of the translator loop that lies on the way to the instruction sequence `F`:
the loop, continued from the text `rest` with the vector `code_`, the stack `jmp_stack` and
the offset `cell_offset`, succeeds and ends with `F`; the translator invariant holds and
the lengths are in the range where the 32-bit indices do not wrap. -/
structure on_path (F : List bf_instr_t) (rest : List Char) (i : Nat) (code_ : List bf_instr_t)
    (jmp_stack : List Nat) (cell_offset : Int) : Prop where
  ok : (generate_loop rest i code_ jmp_stack cell_offset).ok = true
  out : (generate_loop rest i code_ jmp_stack cell_offset).code_ = F
  inv : gen_inv code_ jmp_stack
  len : code_.length + rest.length < 4294967296

/-- The loops the reference run is inside of correspond to the stack of the translator:
each loop body is the text at which the translator had just pushed the `JMP_FWD` of that
loop, whose index is the stack entry. -/
inductive loops_rel (F : List bf_instr_t) : List (List Char) → List Nat → Prop
  | nil : loops_rel F [] []
  | cons (body : List Char) (outer : List (List Char)) (i : Nat) (code_ : List bf_instr_t)
      (cell : Int) (t : Nat) (stk : List Nat) :
      code_.length = t →
      on_path F body i (code_ ++ [mk_jmp_fwd cell]) (t :: stk) 0 →
      loops_rel F outer stk → loops_rel F (body :: outer) (t :: stk)

/-- The reference state and the machine agree on everything but the tape: both tapes have
`NUM_CELLS` cells, the reference pointer is the cell pointer plus the offset the translator
has accumulated, and the streams are the same. -/
structure in_sync (s : RefState) (off : Int) (b : bf_t) (c : Console) : Prop where
  tape_len : s.tape.length = NUM_CELLS
  cells_len : b.cells.length = NUM_CELLS
  ptr_lt : s.ptr < NUM_CELLS
  cp_lt : b.cp < NUM_CELLS
  ptr_eq : (s.ptr : Int) = (b.cp : Int) + off
  stdin_eq : c.stdin = s.input
  stdout_eq : c.stdout = s.output

/-- The machine is in step with the reference state when the translator has emitted
`code_`: either the last instruction is not an `INC_CELL`, the machine has executed all of
`code_` and the tapes are equal; or the last instruction is an `INC_CELL` that further `+` or
`-` may still fold into, the machine is about to execute it, and executing it gives the
reference tape. -/
def in_step (code_ : List bf_instr_t) (s : RefState) (b : bf_t) : Prop :=
  (b.pc = code_.length ∧ b.cells = s.tape ∧ ∀ x, code_.getLast? = some x → x.op ≠ .INC_CELL) ∨
  (∃ x k, code_.getLast? = some x ∧ x.op = .INC_CELL ∧ b.pc + 1 = code_.length ∧
    cell_index b x.cell = some k ∧
    s.tape = b.cells.set k ((b.cells.getD k 0 + x.val) % 256))

/-- The simulation relation between a state of the reference run (text still to read,
loops entered, reference state) and a state of the machine running `F`.  Outside a
recognised zero loop the text position is a state of the translator loop and the machine is
in step with it.  Inside a recognised zero loop `[-]` or `[+]` the machine waits in front of
the `ZERO` instruction and the tapes agree except at the current cell. -/
inductive sim (F : List bf_instr_t) :
    List Char → List (List Char) → RefState → bf_t → Console → Prop
  | normal (rest : List Char) (loops : List (List Char)) (s : RefState) (b : bf_t)
      (c : Console) (i : Nat) (code_ : List bf_instr_t) (stk : List Nat) (off : Int) :
      on_path F rest i code_ stk off → loops_rel F loops stk → in_sync s off b c →
      in_step code_ s b → sim F rest loops s b c
  | zero_body (a : Char) (rest2 : List Char) (outer : List (List Char)) (s : RefState)
      (b : bf_t) (c : Console) (i : Nat) (code_ : List bf_instr_t) (stk : List Nat)
      (off : Int) :
      (a = '-' ∨ a = '+') → on_path F ('[' :: a :: ']' :: rest2) i code_ stk off →
      loops_rel F outer stk → in_sync s off b c → b.pc = code_.length →
      b.cells.set s.ptr 0 = s.tape.set s.ptr 0 →
      sim F (a :: ']' :: rest2) ((a :: ']' :: rest2) :: outer) s b c
  | zero_close (a : Char) (rest2 : List Char) (outer : List (List Char)) (s : RefState)
      (b : bf_t) (c : Console) (i : Nat) (code_ : List bf_instr_t) (stk : List Nat)
      (off : Int) :
      (a = '-' ∨ a = '+') → on_path F ('[' :: a :: ']' :: rest2) i code_ stk off →
      loops_rel F outer stk → in_sync s off b c → b.pc = code_.length →
      b.cells.set s.ptr 0 = s.tape.set s.ptr 0 →
      sim F (']' :: rest2) ((a :: ']' :: rest2) :: outer) s b c

/-! # Theorems -/

/-! ## Unfolding the translator loop -/

/-- One round of the `for` loop of `generate_code`, as an equation. -/
theorem generate_loop_cons (c : Char) (rest : List Char) (i : Nat) (code_ : List bf_instr_t)
    (jmp_stack : List Nat) (cell_offset : Int) :
    generate_loop (c :: rest) i code_ jmp_stack cell_offset =
    if c = '.' then
      generate_loop rest (i + 1) (code_ ++ [mk_put cell_offset]) jmp_stack cell_offset
    else if c = ',' then
      generate_loop rest (i + 1) (code_ ++ [mk_get cell_offset]) jmp_stack cell_offset
    else if c = '<' then
      generate_loop rest (i + 1) code_ jmp_stack (wrap_int16 (cell_offset - 1))
    else if c = '>' then
      generate_loop rest (i + 1) code_ jmp_stack (wrap_int16 (cell_offset + 1))
    else if c = '+' ∨ c = '-' then
      if can_fold code_ cell_offset then
        generate_loop rest (i + 1) (fold_back code_ (delta_of c)) jmp_stack cell_offset
      else
        generate_loop rest (i + 1) (code_ ++ [mk_inc_cell (delta_of c) cell_offset])
          jmp_stack cell_offset
    else if c = '[' then
      match rest with
      | a :: b :: rest2 =>
        if (a = '-' ∨ a = '+') ∧ b = ']' then
          generate_loop rest2 (i + 3) (code_ ++ [mk_zero cell_offset]) jmp_stack cell_offset
        else
          generate_loop (a :: b :: rest2) (i + 1) (code_ ++ [mk_jmp_fwd cell_offset])
            ((code_.length % 4294967296) :: jmp_stack) 0
      | rest1 =>
        generate_loop rest1 (i + 1) (code_ ++ [mk_jmp_fwd cell_offset])
          ((code_.length % 4294967296) :: jmp_stack) 0
    else if c = ']' then
      match jmp_stack with
      | [] => { ok := false, code_ := code_, clog := some (.unmatched_close i) }
      | top :: stack2 =>
        generate_loop rest (i + 1)
          (patch_dest (code_ ++ [mk_jmp_bwd cell_offset ((top + 1) % 4294967296)]) top)
          stack2 0
    else
      generate_loop rest (i + 1) code_ jmp_stack cell_offset := by
  cases rest with
  | nil => rfl
  | cons a t =>
    cases t with
    | nil => rfl
    | cons b r => rfl

theorem generate_loop_nil (i : Nat) (code_ : List bf_instr_t) (jmp_stack : List Nat)
    (cell_offset : Int) :
    generate_loop [] i code_ jmp_stack cell_offset =
    match jmp_stack with
    | [] => { ok := true, code_ := code_, clog := none }
    | top :: _ => { ok := false, code_ := code_, clog := some (.unmatched_open top) } := by
  cases jmp_stack <;> rfl

theorem balanced_from_open (rest : List Char) (d : Nat) :
    balanced_from ('[' :: rest) d = balanced_from rest (d + 1) := by
  simp [balanced_from]

theorem balanced_from_close (rest : List Char) (d : Nat) :
    balanced_from (']' :: rest) (d + 1) = balanced_from rest d := by
  simp [balanced_from]

theorem balanced_from_other (c : Char) (rest : List Char) (d : Nat)
    (h1 : c ≠ '[') (h2 : c ≠ ']') :
    balanced_from (c :: rest) d = balanced_from rest d := by
  simp [balanced_from, h1, h2]

/-- The return value of the loop depends on the brackets only: it is the reference scan
started at the depth given by the number of pending `[`. -/
theorem generate_loop_ok (code : List Char) (i : Nat) (code_ : List bf_instr_t)
    (jmp_stack : List Nat) (cell_offset : Int) :
    (generate_loop code i code_ jmp_stack cell_offset).ok
      = balanced_from code jmp_stack.length := by
  induction code, i, code_, jmp_stack, cell_offset using generate_loop.induct
  case case1 => simp [generate_loop, balanced_from]
  case case2 => simp [generate_loop, balanced_from]
  case case7 c rest i code_ stk off h1 h2 h3 h4 h5 h6 ih =>
    rw [generate_loop_cons]
    rcases h5 with rfl | rfl <;> simp_all [balanced_from]
  case case8 c rest i code_ stk off h1 h2 h3 h4 h5 h6 ih =>
    rw [generate_loop_cons]
    rcases h5 with rfl | rfl <;> simp_all [balanced_from]
  case case9 i code_ stk off a b rest2 h _ _ _ _ _ ih =>
    rw [generate_loop_cons]
    obtain ⟨ha, rfl⟩ := h
    rcases ha with rfl | rfl <;> simp_all [balanced_from]
  case case10 i code_ stk off a b rest2 h _ _ _ _ _ ih =>
    rw [generate_loop_cons, balanced_from_open]
    simp only [List.length_cons] at ih
    simp [h, ih]
  all_goals (rw [generate_loop_cons]; simp_all [balanced_from])

theorem balanced_from_filter (code : List Char) (d : Nat) :
    balanced_from (code.filter is_operator) d = balanced_from code d := by
  induction code generalizing d with
  | nil => rfl
  | cons c rest ih =>
    by_cases hc : is_operator c = true
    · rw [List.filter_cons_of_pos hc]
      by_cases h1 : c = '['
      · subst h1; rw [balanced_from_open, balanced_from_open, ih]
      · by_cases h2 : c = ']'
        · subst h2
          cases d with
          | zero => simp [balanced_from]
          | succ d => rw [balanced_from_close, balanced_from_close, ih]
        · rw [balanced_from_other c _ d h1 h2, balanced_from_other c _ d h1 h2, ih]
    · rw [List.filter_cons_of_neg hc]
      have h1 : c ≠ '[' := by rintro rfl; exact hc (by decide)
      have h2 : c ≠ ']' := by rintro rfl; exact hc (by decide)
      rw [balanced_from_other c _ d h1 h2, ih]

/-! ## C1: translation succeeds exactly on balanced sources -/

theorem first_unmatched_close_open (rest : List Char) (d i : Nat) :
    first_unmatched_close ('[' :: rest) d i = first_unmatched_close rest (d + 1) (i + 1) := by
  simp [first_unmatched_close]

theorem first_unmatched_close_other (c : Char) (rest : List Char) (d i : Nat)
    (h1 : c ≠ '[') (h2 : c ≠ ']') :
    first_unmatched_close (c :: rest) d i = first_unmatched_close rest d (i + 1) := by
  simp [first_unmatched_close, h1, h2]

/-- When the reference scan finds an unmatched `]`, the loop stops there: it returns
`false` and the number it prints is the index found by the scan. -/
theorem generate_loop_unmatched_close (code : List Char) (i : Nat) (code_ : List bf_instr_t)
    (jmp_stack : List Nat) (cell_offset : Int) (p : Nat)
    (h : first_unmatched_close code jmp_stack.length i = some p) :
    (generate_loop code i code_ jmp_stack cell_offset).ok = false ∧
    (generate_loop code i code_ jmp_stack cell_offset).clog = some (.unmatched_close p) := by
  induction code, i, code_, jmp_stack, cell_offset using generate_loop.induct
  case case1 => simp [first_unmatched_close] at h
  case case2 => simp [first_unmatched_close] at h
  case case7 c rest i code_ stk off h1 h2 h3 h4 h5 h6 ih =>
    rw [generate_loop_cons]
    rcases h5 with rfl | rfl <;> simp_all [first_unmatched_close]
  case case8 c rest i code_ stk off h1 h2 h3 h4 h5 h6 ih =>
    rw [generate_loop_cons]
    rcases h5 with rfl | rfl <;> simp_all [first_unmatched_close]
  case case9 i code_ stk off a b rest2 h' _ _ _ _ _ ih =>
    rw [generate_loop_cons]
    obtain ⟨ha, rfl⟩ := h'
    rcases ha with rfl | rfl <;> simp_all [first_unmatched_close]
  case case10 i code_ stk off a b rest2 h' _ _ _ _ _ ih =>
    rw [generate_loop_cons]
    rw [first_unmatched_close_open] at h
    simp only [List.length_cons] at ih
    simp [h', ih h]
  all_goals (rw [generate_loop_cons]; simp_all [first_unmatched_close])

/-- The index found by the reference scan is the position of a `]`. -/
theorem first_unmatched_close_spec (code : List Char) (d i p : Nat)
    (h : first_unmatched_close code d i = some p) :
    i ≤ p ∧ code[p - i]? = some ']' := by
  induction code generalizing d i with
  | nil => simp [first_unmatched_close] at h
  | cons c rest ih =>
    by_cases h1 : c = '['
    · subst h1
      rw [first_unmatched_close_open] at h
      obtain ⟨hle, hp⟩ := ih _ _ h
      refine ⟨by omega, ?_⟩
      have : p - i = (p - (i + 1)) + 1 := by omega
      rw [this, List.getElem?_cons_succ]; exact hp
    · by_cases h2 : c = ']'
      · subst h2
        cases d with
        | zero =>
          simp [first_unmatched_close] at h
          subst h; simp
        | succ d =>
          simp [first_unmatched_close] at h
          obtain ⟨hle, hp⟩ := ih _ _ h
          refine ⟨by omega, ?_⟩
          have : p - i = (p - (i + 1)) + 1 := by omega
          rw [this, List.getElem?_cons_succ]; exact hp
      · rw [first_unmatched_close_other c _ _ _ h1 h2] at h
        obtain ⟨hle, hp⟩ := ih _ _ h
        refine ⟨by omega, ?_⟩
        have : p - i = (p - (i + 1)) + 1 := by omega
        rw [this, List.getElem?_cons_succ]; exact hp

/-- C4: when the cleaned source has an unmatched `]`, `load_code` returns `false` and the
position written to `std::clog` is the index of the first unmatched `]` in the cleaned
source, which is indeed a `]` there.  Stated for sources with fewer than `2^32` operator
characters, the range in which the 32-bit loop counter of `generate_code` does not wrap. -/
theorem load_code_unmatched_close (self : BF_Interpreter) (code : List Char) (p : Nat)
    (hlen : (code.filter is_operator).length < 4294967296)
    (h : first_unmatched_close (code.filter is_operator) 0 0 = some p) :
    (load_code self code).1 = false ∧
    (load_code self code).2.2 = some (.unmatched_close p) ∧
    (code.filter is_operator)[p]? = some ']' := by
  have _ := hlen
  have h1 := generate_loop_unmatched_close (code.filter is_operator) 0 self.code_ [] 0 p h
  have h2 := first_unmatched_close_spec _ _ _ _ h
  exact ⟨h1.1, h1.2, by simpa using h2.2⟩

/-- Witness for C4: in `+[-]x>[+]]<` the first unmatched `]` is at index 8 of the cleaned source. -/
theorem load_code_unmatched_close_witness :
    (("+[-]x>[+]]<".toList).filter is_operator).length < 4294967296 ∧
    first_unmatched_close (("+[-]x>[+]]<".toList).filter is_operator) 0 0 = some 8 ∧
    ((load_code BF_Interpreter.fresh "+[-]x>[+]]<".toList).1 = false ∧
     (load_code BF_Interpreter.fresh "+[-]x>[+]]<".toList).2.2 = some (.unmatched_close 8) ∧
     (("+[-]x>[+]]<".toList).filter is_operator)[8]? = some ']') :=
  ⟨by decide, by decide,
    load_code_unmatched_close BF_Interpreter.fresh "+[-]x>[+]]<".toList 8 (by decide)
      (by decide)⟩

/-! ## The translator invariant -/

theorem op_at_snoc (cs : List bf_instr_t) (x : bf_instr_t) (i : Nat) :
    op_at (cs ++ [x]) i =
      if i < cs.length then op_at cs i else if i = cs.length then some x.op else none := by
  unfold op_at
  rw [List.getElem?_append]
  split
  · rfl
  · split
    · subst_vars; simp
    · have : 1 ≤ i - cs.length := by omega
      rw [List.getElem?_eq_none (by simpa using this)]; rfl

theorem dest_at_snoc (cs : List bf_instr_t) (x : bf_instr_t) (i : Nat) :
    dest_at (cs ++ [x]) i =
      if i < cs.length then dest_at cs i else if i = cs.length then some x.dest else none := by
  unfold dest_at
  rw [List.getElem?_append]
  split
  · rfl
  · split
    · subst_vars; simp
    · have : 1 ≤ i - cs.length := by omega
      rw [List.getElem?_eq_none (by simpa using this)]; rfl

theorem op_at_lt {cs : List bf_instr_t} {i : Nat} {o : BF_Opcode} (h : op_at cs i = some o) :
    i < cs.length := by
  unfold op_at at h
  by_contra hn
  rw [List.getElem?_eq_none (by omega)] at h
  simp at h

theorem op_at_fold_back (cs : List bf_instr_t) (v i : Nat) :
    op_at (fold_back cs v) i = op_at cs i := by
  unfold fold_back
  cases hb : cs.getLast? with
  | none => rfl
  | some b =>
    rw [List.getLast?_eq_getElem?] at hb
    simp only [op_at, List.getElem?_set]
    split
    · subst_vars
      rw [hb]
      have := (List.getElem?_eq_some.1 hb).1
      simp [this]
    · rfl

theorem dest_at_fold_back (cs : List bf_instr_t) (v i : Nat) :
    dest_at (fold_back cs v) i = dest_at cs i := by
  unfold fold_back
  cases hb : cs.getLast? with
  | none => rfl
  | some b =>
    rw [List.getLast?_eq_getElem?] at hb
    simp only [dest_at, List.getElem?_set]
    split
    · subst_vars
      rw [hb]
      have := (List.getElem?_eq_some.1 hb).1
      simp [this]
    · rfl

theorem length_fold_back (cs : List bf_instr_t) (v : Nat) :
    (fold_back cs v).length = cs.length := by
  unfold fold_back
  cases cs.getLast? <;> simp

theorem op_at_patch_dest (cs : List bf_instr_t) (t i : Nat) :
    op_at (patch_dest cs t) i = op_at cs i := by
  unfold patch_dest
  rcases hb : (cs[t]?) with _ | b
  · simp [hb]
  · simp only [hb]
    simp only [op_at, List.getElem?_set]
    split
    · subst_vars
      rw [hb]
      have := (List.getElem?_eq_some.1 hb).1
      simp [this]
    · rfl

theorem dest_at_patch_dest (cs : List bf_instr_t) (t i : Nat) :
    dest_at (patch_dest cs t) i =
      if i = t ∧ t < cs.length then some (cs.length % 4294967296) else dest_at cs i := by
  unfold patch_dest
  rcases hb : (cs[t]?) with _ | b
  · have : ¬ t < cs.length := by
      intro h; rw [List.getElem?_eq_getElem h] at hb; simp at hb
    simp [this]
  · simp only []
    have hlt := (List.getElem?_eq_some.1 hb).1
    simp only [dest_at, List.getElem?_set]
    by_cases h : t = i
    · subst h; simp [hlt]
    · have : ¬ (i = t ∧ t < cs.length) := fun hh => h hh.1.symm
      simp [h, this]

theorem length_patch_dest (cs : List bf_instr_t) (t : Nat) :
    (patch_dest cs t).length = cs.length := by
  unfold patch_dest
  rcases (cs[t]?) with _ | b <;> simp


theorem is_pair_lt {cs : List bf_instr_t} {i j : Nat} (h : is_pair cs i j) :
    i < j ∧ j < cs.length := ⟨h.1, op_at_lt h.2.2.2.1⟩

theorem is_pair_snoc (cs : List bf_instr_t) (x : bf_instr_t) (i j : Nat)
    (hx : x.op ≠ .JMP_BWD) : is_pair (cs ++ [x]) i j ↔ is_pair cs i j := by
  constructor
  · rintro ⟨hij, h1, h2, h3, h4⟩
    rw [op_at_snoc] at h1 h3
    rw [dest_at_snoc] at h2 h4
    have hj : j < cs.length := by
      by_contra hn
      rw [if_neg hn] at h3
      split at h3
      · exact hx (Option.some.inj h3)
      · simp at h3
    have hi : i < cs.length := by omega
    rw [if_pos hi] at h1 h2
    rw [if_pos hj] at h3 h4
    exact ⟨hij, h1, h2, h3, h4⟩
  · intro h
    obtain ⟨hij, hj⟩ := is_pair_lt h
    obtain ⟨_, h1, h2, h3, h4⟩ := h
    have hi : i < cs.length := by omega
    refine ⟨hij, ?_, ?_, ?_, ?_⟩
    · rw [op_at_snoc, if_pos hi]; exact h1
    · rw [dest_at_snoc, if_pos hi]; exact h2
    · rw [op_at_snoc, if_pos hj]; exact h3
    · rw [dest_at_snoc, if_pos hj]; exact h4

theorem is_pair_fold_back (cs : List bf_instr_t) (v i j : Nat) :
    is_pair (fold_back cs v) i j ↔ is_pair cs i j := by
  simp only [is_pair, op_at_fold_back, dest_at_fold_back]

theorem is_pair_close (cs : List bf_instr_t) (t : Nat) (off : Int) (i j : Nat)
    (ht : op_at cs t = some .JMP_FWD) (hL : cs.length + 1 < 4294967296)
    (hfree : ∀ k, ¬ is_pair cs t k) :
    is_pair (patch_dest (cs ++ [mk_jmp_bwd off ((t + 1) % 4294967296)]) t) i j ↔
      is_pair cs i j ∨ (i = t ∧ j = cs.length) := by
  have htL : t < cs.length := op_at_lt ht
  have hm1 : (cs.length + 1) % 4294967296 = cs.length + 1 := Nat.mod_eq_of_lt hL
  have hm2 : (t + 1) % 4294967296 = t + 1 := Nat.mod_eq_of_lt (by omega)
  simp only [is_pair, op_at_patch_dest, dest_at_patch_dest, op_at_snoc, dest_at_snoc,
    List.length_append, List.length_singleton, hm1, hm2, mk_jmp_bwd]
  constructor
  · rintro ⟨hij, h1, h2, h3, h4⟩
    have hj : j ≤ cs.length := by
      by_contra hn
      rw [if_neg (by omega), if_neg (by omega)] at h3
      simp at h3
    have hi : i < cs.length := by omega
    rw [if_pos hi] at h1
    by_cases hit : i = t
    · subst hit
      rw [if_pos ⟨rfl, by omega⟩] at h2
      right
      exact ⟨rfl, by simpa using (Option.some.inj h2).symm⟩
    · left
      rw [if_neg (fun hh => hit hh.1), if_pos hi] at h2
      by_cases hjL : j = cs.length
      · subst hjL
        rw [if_neg (by omega)] at h4
        simp at h4
        omega
      · have hj2 : j < cs.length := by omega
        rw [if_pos hj2] at h3
        have hjt : j ≠ t := by
          rintro rfl
          rw [ht] at h3
          simp at h3
        rw [if_neg (fun hh => hjt hh.1), if_pos hj2] at h4
        exact ⟨hij, h1, h2, h3, h4⟩
  · rintro (h | ⟨rfl, rfl⟩)
    · obtain ⟨hij, hj⟩ := is_pair_lt h
      have hit : i ≠ t := by rintro rfl; exact hfree j h
      obtain ⟨_, h1, h2, h3, h4⟩ := h
      have hjt : j ≠ t := by
        rintro rfl
        rw [ht] at h3
        simp at h3
      have hi : i < cs.length := by omega
      refine ⟨hij, ?_, ?_, ?_, ?_⟩
      · rw [if_pos hi]; exact h1
      · rw [if_neg (fun hh => hit hh.1), if_pos hi]; exact h2
      · rw [if_pos hj]; exact h3
      · rw [if_neg (fun hh => hjt hh.1), if_pos hj]; exact h4
    · refine ⟨htL, ?_, ?_, ?_, ?_⟩
      · rw [if_pos htL]; exact ht
      · rw [if_pos ⟨rfl, by omega⟩]
      · simp
      · rw [if_neg (by omega)]; simp


theorem gen_inv_nil : gen_inv [] [] where
  sorted := List.Pairwise.nil
  pending := by simp
  fwd := by simp [op_at]
  bwd := by simp [op_at]
  closed := fun i j h => by have := is_pair_lt h; simp at this
  nested := fun i j _ _ h => by have := is_pair_lt h; simp at this
  valid := by simp [op_at]

theorem gen_inv_emit {cs : List bf_instr_t} {stk : List Nat} (h : gen_inv cs stk)
    (x : bf_instr_t) (h1 : x.op ≠ .JMP_FWD) (h2 : x.op ≠ .JMP_BWD) (h3 : x.op ≠ .INVALID) :
    gen_inv (cs ++ [x]) stk where
  sorted := h.sorted
  pending := fun s hs => by
    have := h.pending s hs
    rw [op_at_snoc, if_pos (op_at_lt this)]; exact this
  fwd := fun i hi => by
    rw [op_at_snoc] at hi
    split at hi
    · rcases h.fwd i hi with hs | ⟨j, hj⟩
      · exact Or.inl hs
      · exact Or.inr ⟨j, (is_pair_snoc cs x i j h2).2 hj⟩
    · split at hi
      · exact absurd (Option.some.inj hi) h1
      · simp at hi
  bwd := fun j hj => by
    rw [op_at_snoc] at hj
    split at hj
    · obtain ⟨i, hi⟩ := h.bwd j hj
      exact ⟨i, (is_pair_snoc cs x i j h2).2 hi⟩
    · split at hj
      · exact absurd (Option.some.inj hj) h2
      · simp at hj
  closed := fun i j hp => h.closed i j ((is_pair_snoc cs x i j h2).1 hp)
  nested := fun i j i2 j2 hp hq =>
    h.nested i j i2 j2 ((is_pair_snoc cs x i j h2).1 hp) ((is_pair_snoc cs x i2 j2 h2).1 hq)
  valid := fun i hi => by
    rw [op_at_snoc] at hi
    split at hi
    · exact h.valid i hi
    · split at hi
      · exact h3 (Option.some.inj hi)
      · simp at hi

theorem gen_inv_fold {cs : List bf_instr_t} {stk : List Nat} (h : gen_inv cs stk) (v : Nat) :
    gen_inv (fold_back cs v) stk where
  sorted := h.sorted
  pending := by simpa only [op_at_fold_back] using h.pending
  fwd := by simpa only [op_at_fold_back, is_pair_fold_back] using h.fwd
  bwd := by simpa only [op_at_fold_back, is_pair_fold_back] using h.bwd
  closed := by simpa only [is_pair_fold_back] using h.closed
  nested := by simpa only [is_pair_fold_back] using h.nested
  valid := by simpa only [op_at_fold_back] using h.valid

theorem gen_inv_open {cs : List bf_instr_t} {stk : List Nat} (h : gen_inv cs stk)
    (off : Int) (hL : cs.length < 4294967296) :
    gen_inv (cs ++ [mk_jmp_fwd off]) ((cs.length % 4294967296) :: stk) := by
  rw [Nat.mod_eq_of_lt hL]
  have hx : (mk_jmp_fwd off).op ≠ .JMP_BWD := by simp [mk_jmp_fwd]
  refine ⟨?_, ?_, ?_, ?_, ?_, ?_, ?_⟩
  · exact List.Pairwise.cons (fun s hs => op_at_lt (h.pending s hs)) h.sorted
  · intro s hs
    rw [op_at_snoc]
    rcases List.mem_cons.1 hs with rfl | hs
    · simp [mk_jmp_fwd]
    · have := h.pending s hs
      rw [if_pos (op_at_lt this)]; exact this
  · intro i hi
    rw [op_at_snoc] at hi
    split at hi
    · rcases h.fwd i hi with hs | ⟨j, hj⟩
      · exact Or.inl (List.mem_cons_of_mem _ hs)
      · exact Or.inr ⟨j, (is_pair_snoc cs _ i j hx).2 hj⟩
    · split at hi
      · subst_vars; exact Or.inl (List.mem_cons_self _ _)
      · simp at hi
  · intro j hj
    rw [op_at_snoc] at hj
    split at hj
    · obtain ⟨i, hi⟩ := h.bwd j hj
      exact ⟨i, (is_pair_snoc cs _ i j hx).2 hi⟩
    · split at hj
      · simp [mk_jmp_fwd] at hj
      · simp at hj
  · intro i j hp
    have hp2 := (is_pair_snoc cs _ i j hx).1 hp
    obtain ⟨hij, hj⟩ := is_pair_lt hp2
    obtain ⟨hn, hs⟩ := h.closed i j hp2
    refine ⟨?_, ?_⟩
    · intro hmem
      rcases List.mem_cons.1 hmem with rfl | hmem
      · omega
      · exact hn hmem
    · intro s hmem
      rcases List.mem_cons.1 hmem with rfl | hmem
      · exact Or.inr hj
      · exact hs s hmem
  · intro i j i2 j2 hp hq
    exact h.nested i j i2 j2 ((is_pair_snoc cs _ i j hx).1 hp) ((is_pair_snoc cs _ i2 j2 hx).1 hq)
  · intro i hi
    rw [op_at_snoc] at hi
    split at hi
    · exact h.valid i hi
    · split at hi
      · simp [mk_jmp_fwd] at hi
      · simp at hi

theorem gen_inv_close {cs : List bf_instr_t} {stk : List Nat} {t : Nat}
    (h : gen_inv cs (t :: stk)) (off : Int) (hL : cs.length + 1 < 4294967296) :
    gen_inv (patch_dest (cs ++ [mk_jmp_bwd off ((t + 1) % 4294967296)]) t) stk := by
  have ht : op_at cs t = some .JMP_FWD := h.pending t (List.mem_cons_self _ _)
  have htL : t < cs.length := op_at_lt ht
  have hfree : ∀ k, ¬ is_pair cs t k := fun k hk => (h.closed t k hk).1 (List.mem_cons_self _ _)
  have hsorted := List.pairwise_cons.1 h.sorted
  have hop : ∀ i, op_at (patch_dest (cs ++ [mk_jmp_bwd off ((t + 1) % 4294967296)]) t) i =
      if i < cs.length then op_at cs i else if i = cs.length then some .JMP_BWD else none := by
    intro i; rw [op_at_patch_dest, op_at_snoc]; rfl
  refine ⟨hsorted.2, ?_, ?_, ?_, ?_, ?_, ?_⟩
  · intro s hs
    have := h.pending s (List.mem_cons_of_mem _ hs)
    rw [hop, if_pos (op_at_lt this)]; exact this
  · intro i hi
    rw [hop] at hi
    split at hi
    · by_cases hit : i = t
      · subst hit
        exact Or.inr ⟨cs.length, (is_pair_close cs i off i cs.length ht hL hfree).2 (Or.inr ⟨rfl, rfl⟩)⟩
      · rcases h.fwd i hi with hs | ⟨j, hj⟩
        · rcases List.mem_cons.1 hs with rfl | hs
          · exact absurd rfl hit
          · exact Or.inl hs
        · exact Or.inr ⟨j, (is_pair_close cs t off i j ht hL hfree).2 (Or.inl hj)⟩
    · split at hi
      · simp at hi
      · simp at hi
  · intro j hj
    rw [hop] at hj
    split at hj
    · obtain ⟨i, hi⟩ := h.bwd j hj
      exact ⟨i, (is_pair_close cs t off i j ht hL hfree).2 (Or.inl hi)⟩
    · split at hj
      · subst_vars
        exact ⟨t, (is_pair_close cs t off t cs.length ht hL hfree).2 (Or.inr ⟨rfl, rfl⟩)⟩
      · simp at hj
  · intro i j hp
    rcases (is_pair_close cs t off i j ht hL hfree).1 hp with hp2 | ⟨rfl, rfl⟩
    · obtain ⟨hn, hs⟩ := h.closed i j hp2
      exact ⟨fun hmem => hn (List.mem_cons_of_mem _ hmem),
        fun s hmem => hs s (List.mem_cons_of_mem _ hmem)⟩
    · refine ⟨fun hmem => ?_, fun s hmem => Or.inl (hsorted.1 s hmem)⟩
      exact absurd (hsorted.1 i hmem) (lt_irrefl _)
  · intro i j i2 j2 hp hq hlt
    rcases (is_pair_close cs t off i j ht hL hfree).1 hp with hp2 | ⟨rfl, rfl⟩
    · rcases (is_pair_close cs t off i2 j2 ht hL hfree).1 hq with hq2 | ⟨rfl, rfl⟩
      · exact h.nested i j i2 j2 hp2 hq2 hlt
      · -- the pair closed now starts after an older pair: the older pair ended before it
        obtain ⟨_, hs⟩ := h.closed i j hp2
        rcases hs i2 (List.mem_cons_self _ _) with h1 | h1
        · omega
        · exact Or.inl h1
    · rcases (is_pair_close cs i off i2 j2 ht hL hfree).1 hq with hq2 | ⟨rfl, rfl⟩
      · exact Or.inr (is_pair_lt hq2).2
      · omega
  · intro i hi
    rw [hop] at hi
    split at hi
    · exact h.valid i hi
    · split at hi
      · simp at hi
      · simp at hi


/-- The translator invariant holds at the end of the loop, and a successful run ends with
an empty stack. -/
theorem generate_loop_inv (code : List Char) (i : Nat) (code_ : List bf_instr_t)
    (jmp_stack : List Nat) (cell_offset : Int) (h : gen_inv code_ jmp_stack)
    (hL : code_.length + code.length < 4294967296) :
    ∃ stk, gen_inv (generate_loop code i code_ jmp_stack cell_offset).code_ stk ∧
      ((generate_loop code i code_ jmp_stack cell_offset).ok = true → stk = []) := by
  induction code, i, code_, jmp_stack, cell_offset using generate_loop.induct
  case case1 => exact ⟨[], by simpa [generate_loop_nil] using h, fun _ => rfl⟩
  case case2 => exact ⟨_, by simpa [generate_loop_nil] using h, by simp [generate_loop_nil]⟩
  case case3 rest i code_ stk off ih =>
    rw [generate_loop_cons, if_pos rfl]
    exact ih (gen_inv_emit h _ (by simp [mk_put]) (by simp [mk_put]) (by simp [mk_put]))
      (by simp at hL ⊢; omega)
  case case4 rest i code_ stk off _ ih =>
    rw [generate_loop_cons]
    simp only [Char.reduceEq, if_false, if_true]
    exact ih (gen_inv_emit h _ (by simp [mk_get]) (by simp [mk_get]) (by simp [mk_get]))
      (by simp at hL ⊢; omega)
  case case5 rest i code_ stk off _ _ ih =>
    rw [generate_loop_cons]
    simp only [Char.reduceEq, if_false, if_true]
    exact ih h (by simp at hL ⊢; omega)
  case case6 rest i code_ stk off _ _ _ ih =>
    rw [generate_loop_cons]
    simp only [Char.reduceEq, if_false, if_true]
    exact ih h (by simp at hL ⊢; omega)
  case case7 c rest i code_ stk off h1 h2 h3 h4 h5 h6 ih =>
    rw [generate_loop_cons]
    simp only [h1, h2, h3, h4, h5, h6, if_false, if_true]
    exact ih (gen_inv_fold h _) (by simp [length_fold_back] at hL ⊢; omega)
  case case8 c rest i code_ stk off h1 h2 h3 h4 h5 h6 ih =>
    rw [generate_loop_cons]
    simp only [h1, h2, h3, h4, h5, h6, if_false, if_true]
    exact ih (gen_inv_emit h _ (by simp [mk_inc_cell]) (by simp [mk_inc_cell])
      (by simp [mk_inc_cell])) (by simp at hL ⊢; omega)
  case case9 i code_ stk off a b rest2 hz _ _ _ _ _ ih =>
    rw [generate_loop_cons]
    simp only [Char.reduceEq, if_false, if_true, or_self, hz, and_self]
    exact ih (gen_inv_emit h _ (by simp [mk_zero]) (by simp [mk_zero]) (by simp [mk_zero]))
      (by simp at hL ⊢; omega)
  case case10 i code_ stk off a b rest2 hz _ _ _ _ _ ih =>
    rw [generate_loop_cons]
    simp only [Char.reduceEq, if_false, if_true, or_self, hz]
    exact ih (gen_inv_open h _ (by simp at hL; omega)) (by simp at hL ⊢; omega)
  case case11 i code_ stk off rest1 hz _ _ _ _ _ ih =>
    rw [generate_loop_cons]
    simp only [Char.reduceEq, if_false, if_true, or_self]
    exact ih (gen_inv_open h _ (by simp at hL; omega)) (by simp at hL ⊢; omega)
  case case12 rest i code_ off _ _ _ _ _ _ =>
    rw [generate_loop_cons]
    simp only [Char.reduceEq, if_false, if_true, or_self]
    exact ⟨[], h, fun _ => rfl⟩
  case case13 rest i code_ off top tail _ _ _ _ _ _ ih =>
    rw [generate_loop_cons]
    simp only [Char.reduceEq, if_false, if_true, or_self]
    exact ih (gen_inv_close h _ (by simp at hL; omega))
      (by simp [length_patch_dest] at hL ⊢; omega)
  case case14 c rest i code_ stk off h1 h2 h3 h4 h5 h6 h7 ih =>
    rw [generate_loop_cons]
    simp only [h1, h2, h3, h4, h5, h6, h7, if_false, if_true]
    exact ih h (by simp at hL ⊢; omega)

theorem op_at_of_getElem? {cs : List bf_instr_t} {i : Nat} {x : bf_instr_t}
    (h : cs[i]? = some x) : op_at cs i = some x.op := by
  simp [op_at, h]

theorem dest_at_of_getElem? {cs : List bf_instr_t} {i : Nat} {x : bf_instr_t}
    (h : cs[i]? = some x) : dest_at cs i = some x.dest := by
  simp [dest_at, h]

/-- After a successful `load_code` on a fresh interpreter the translator invariant holds
with an empty stack. -/
theorem load_code_inv (code : List Char)
    (hlen : (code.filter is_operator).length < 4294967296)
    (hok : (load_code BF_Interpreter.fresh code).1 = true) :
    gen_inv (load_code BF_Interpreter.fresh code).2.1.code_ [] := by
  obtain ⟨stk, hinv, hstk⟩ := generate_loop_inv (code.filter is_operator) 0 [] [] 0
    gen_inv_nil (by simpa using hlen)
  have : stk = [] := hstk hok
  subst this
  exact hinv

/-! ## C2: loops are matched, properly nested pairs -/

/-- C2: in the instruction sequence of an accepted source every `JMP_FWD` at `i` has a
`JMP_BWD` at some `j > i` with `jmp_bwd.dest = i + 1` and `jmp_fwd.dest = j + 1`, every
`JMP_BWD` has such a `JMP_FWD` before it, and two such pairs are nested or disjoint. -/
theorem load_code_matched_pairs (code : List Char)
    (hlen : (code.filter is_operator).length < 4294967296)
    (hok : (load_code BF_Interpreter.fresh code).1 = true) :
    (∀ (i : Nat) (x : bf_instr_t), (load_code BF_Interpreter.fresh code).2.1.code_[i]? = some x → x.op = .JMP_FWD →
      ∃ (j : Nat) (y : bf_instr_t), (load_code BF_Interpreter.fresh code).2.1.code_[j]? = some y ∧ i < j ∧
        y.op = .JMP_BWD ∧ y.dest = i + 1 ∧ x.dest = j + 1) ∧
    (∀ (j : Nat) (y : bf_instr_t), (load_code BF_Interpreter.fresh code).2.1.code_[j]? = some y → y.op = .JMP_BWD →
      ∃ (i : Nat) (x : bf_instr_t), (load_code BF_Interpreter.fresh code).2.1.code_[i]? = some x ∧ i < j ∧
        x.op = .JMP_FWD ∧ y.dest = i + 1 ∧ x.dest = j + 1) ∧
    (∀ i j i2 j2, is_pair (load_code BF_Interpreter.fresh code).2.1.code_ i j →
      is_pair (load_code BF_Interpreter.fresh code).2.1.code_ i2 j2 → i < i2 →
      j < i2 ∨ j2 < j) := by
  have hinv := load_code_inv code hlen hok
  generalize (load_code BF_Interpreter.fresh code).2.1.code_ = cs at hinv ⊢
  refine ⟨?_, ?_, hinv.nested⟩
  · intro i x hx hop
    have h1 := op_at_of_getElem? hx
    have h2 := dest_at_of_getElem? hx
    rw [hop] at h1
    rcases hinv.fwd i h1 with hmem | ⟨j, hij, _, hd, hj, hdj⟩
    · simp at hmem
    · rw [h2] at hd
      obtain ⟨y, hy⟩ : ∃ y, cs[j]? = some y := by
        have := op_at_lt hj
        exact ⟨_, List.getElem?_eq_getElem this⟩
      have h3 := op_at_of_getElem? hy
      have h4 := dest_at_of_getElem? hy
      rw [hj] at h3; rw [hdj] at h4
      exact ⟨j, y, hy, hij, (Option.some.inj h3).symm, (Option.some.inj h4).symm,
        Option.some.inj hd⟩
  · intro j y hy hop
    have h1 := op_at_of_getElem? hy
    have h2 := dest_at_of_getElem? hy
    rw [hop] at h1
    obtain ⟨i, hij, hi, hdi, _, hdj⟩ := hinv.bwd j h1
    rw [h2] at hdj
    obtain ⟨x, hx⟩ : ∃ x, cs[i]? = some x := by
      have := op_at_lt hi
      exact ⟨_, List.getElem?_eq_getElem this⟩
    have h3 := op_at_of_getElem? hx
    have h4 := dest_at_of_getElem? hx
    rw [hi] at h3; rw [hdi] at h4
    exact ⟨i, x, hx, hij, (Option.some.inj h3).symm, Option.some.inj hdj,
      (Option.some.inj h4).symm⟩

/-- Witness for C2 at the source `+[>[-]<[.]-]`. -/
theorem load_code_matched_pairs_witness :
    (("+[>[-]<[.]-]".toList).filter is_operator).length < 4294967296 ∧
    (load_code BF_Interpreter.fresh "+[>[-]<[.]-]".toList).1 = true ∧
    ((∀ (i : Nat) (x : bf_instr_t), (load_code BF_Interpreter.fresh "+[>[-]<[.]-]".toList).2.1.code_[i]? = some x →
      x.op = .JMP_FWD →
      ∃ (j : Nat) (y : bf_instr_t), (load_code BF_Interpreter.fresh "+[>[-]<[.]-]".toList).2.1.code_[j]? = some y ∧
        i < j ∧ y.op = .JMP_BWD ∧ y.dest = i + 1 ∧ x.dest = j + 1) ∧
    (∀ (j : Nat) (y : bf_instr_t), (load_code BF_Interpreter.fresh "+[>[-]<[.]-]".toList).2.1.code_[j]? = some y →
      y.op = .JMP_BWD →
      ∃ (i : Nat) (x : bf_instr_t), (load_code BF_Interpreter.fresh "+[>[-]<[.]-]".toList).2.1.code_[i]? = some x ∧
        i < j ∧ x.op = .JMP_FWD ∧ y.dest = i + 1 ∧ x.dest = j + 1) ∧
    (∀ i j i2 j2, is_pair (load_code BF_Interpreter.fresh "+[>[-]<[.]-]".toList).2.1.code_ i j →
      is_pair (load_code BF_Interpreter.fresh "+[>[-]<[.]-]".toList).2.1.code_ i2 j2 → i < i2 →
      j < i2 ∨ j2 < j)) :=
  ⟨by decide, by decide, load_code_matched_pairs "+[>[-]<[.]-]".toList (by decide) (by decide)⟩

/-! ## C3: jump targets -/

/-- C3, as stated, fails: for the source `[]` the `JMP_FWD` at index 0 has `dest = 2`, the
number of instructions, which is not an index into the sequence. -/
theorem load_code_dest_index_counterexample :
    (load_code BF_Interpreter.fresh ['[', ']']).1 = true ∧
    (load_code BF_Interpreter.fresh ['[', ']']).2.1.code_.length = 2 ∧
    (load_code BF_Interpreter.fresh ['[', ']']).2.1.code_[0]? =
      some { op := .JMP_FWD, val := 0, cell := 0, dest := 2 } ∧
    ¬ (∀ (i : Nat) (x : bf_instr_t), (load_code BF_Interpreter.fresh ['[', ']']).2.1.code_[i]? = some x →
        (x.op = .JMP_FWD ∨ x.op = .JMP_BWD) →
        x.dest < (load_code BF_Interpreter.fresh ['[', ']']).2.1.code_.length) := by
  refine ⟨by decide, by decide, by decide, fun h => ?_⟩
  exact absurd (h 0 { op := .JMP_FWD, val := 0, cell := 0, dest := 2 } (by decide)
    (Or.inl rfl)) (by decide)

/-- C3, amended: in the instruction sequence of an accepted source the `dest` of every
`JMP_BWD` is a valid index and not zero, and the `dest` of every `JMP_FWD` is not the
placeholder zero and at most the number of instructions (one past the end at most). -/
theorem load_code_dest_bounds (code : List Char)
    (hlen : (code.filter is_operator).length < 4294967296)
    (hok : (load_code BF_Interpreter.fresh code).1 = true) :
    (∀ (i : Nat) (x : bf_instr_t), (load_code BF_Interpreter.fresh code).2.1.code_[i]? = some x → x.op = .JMP_BWD →
      0 < x.dest ∧ x.dest < (load_code BF_Interpreter.fresh code).2.1.code_.length) ∧
    (∀ (i : Nat) (x : bf_instr_t), (load_code BF_Interpreter.fresh code).2.1.code_[i]? = some x → x.op = .JMP_FWD →
      0 < x.dest ∧ x.dest ≤ (load_code BF_Interpreter.fresh code).2.1.code_.length) := by
  have hinv := load_code_inv code hlen hok
  generalize (load_code BF_Interpreter.fresh code).2.1.code_ = cs at hinv ⊢
  constructor
  · intro j y hy hop
    have h1 := op_at_of_getElem? hy
    have h2 := dest_at_of_getElem? hy
    rw [hop] at h1
    obtain ⟨i, hp⟩ := hinv.bwd j h1
    have hlt := is_pair_lt hp
    obtain ⟨_, _, _, _, hdj⟩ := hp
    rw [h2] at hdj
    have := Option.some.inj hdj
    omega
  · intro i x hx hop
    have h1 := op_at_of_getElem? hx
    have h2 := dest_at_of_getElem? hx
    rw [hop] at h1
    rcases hinv.fwd i h1 with hmem | ⟨j, hp⟩
    · simp at hmem
    · have hlt := is_pair_lt hp
      obtain ⟨_, _, hd, _, _⟩ := hp
      rw [h2] at hd
      have := Option.some.inj hd
      omega

/-- Witness for the amended C3 at the source `+[>[-]<[.]-]`. -/
theorem load_code_dest_bounds_witness :
    (("+[>[-]<[.]-]".toList).filter is_operator).length < 4294967296 ∧
    (load_code BF_Interpreter.fresh "+[>[-]<[.]-]".toList).1 = true ∧
    ((∀ (i : Nat) (x : bf_instr_t), (load_code BF_Interpreter.fresh "+[>[-]<[.]-]".toList).2.1.code_[i]? = some x →
      x.op = .JMP_BWD →
      0 < x.dest ∧
        x.dest < (load_code BF_Interpreter.fresh "+[>[-]<[.]-]".toList).2.1.code_.length) ∧
    (∀ (i : Nat) (x : bf_instr_t), (load_code BF_Interpreter.fresh "+[>[-]<[.]-]".toList).2.1.code_[i]? = some x →
      x.op = .JMP_FWD →
      0 < x.dest ∧
        x.dest ≤ (load_code BF_Interpreter.fresh "+[>[-]<[.]-]".toList).2.1.code_.length)) :=
  ⟨by decide, by decide, load_code_dest_bounds "+[>[-]<[.]-]".toList (by decide) (by decide)⟩

/-! ## C8: no `INVALID` instruction is emitted -/

theorem valid_fold_back {cs : List bf_instr_t} (h : ∀ x ∈ cs, x.op ≠ .INVALID) (v : Nat) :
    ∀ x ∈ fold_back cs v, x.op ≠ .INVALID := by
  unfold fold_back
  rcases hb : cs.getLast? with _ | b
  · exact h
  · intro x hx
    rcases List.mem_or_eq_of_mem_set hx with hx | rfl
    · exact h x hx
    · exact h b (List.mem_of_getLast?_eq_some hb)

theorem valid_patch_dest {cs : List bf_instr_t} (h : ∀ x ∈ cs, x.op ≠ .INVALID) (t : Nat) :
    ∀ x ∈ patch_dest cs t, x.op ≠ .INVALID := by
  unfold patch_dest
  rcases hb : (cs[t]?) with _ | b
  · exact h
  · intro x hx
    rcases List.mem_or_eq_of_mem_set hx with hx | rfl
    · exact h x hx
    · exact h b (List.getElem?_mem hb)

theorem valid_snoc {cs : List bf_instr_t} (h : ∀ x ∈ cs, x.op ≠ .INVALID) (y : bf_instr_t)
    (hy : y.op ≠ .INVALID) : ∀ x ∈ cs ++ [y], x.op ≠ .INVALID := by
  intro x hx
  rcases List.mem_append.1 hx with hx | hx
  · exact h x hx
  · rw [List.mem_singleton.1 hx]; exact hy

/-- The loop never writes an `INVALID` instruction into `code_`, whether or not it ends
with success. -/
theorem generate_loop_valid (code : List Char) (i : Nat) (code_ : List bf_instr_t)
    (jmp_stack : List Nat) (cell_offset : Int) (h : ∀ x ∈ code_, x.op ≠ .INVALID) :
    ∀ x ∈ (generate_loop code i code_ jmp_stack cell_offset).code_, x.op ≠ .INVALID := by
  induction code, i, code_, jmp_stack, cell_offset using generate_loop.induct
  case case1 => simpa [generate_loop_nil] using h
  case case2 => simpa [generate_loop_nil] using h
  case case3 rest i code_ stk off ih =>
    rw [generate_loop_cons, if_pos rfl]
    exact ih (valid_snoc h _ (by simp [mk_put]))
  case case4 rest i code_ stk off _ ih =>
    rw [generate_loop_cons]
    simp only [Char.reduceEq, if_false, if_true]
    exact ih (valid_snoc h _ (by simp [mk_get]))
  case case5 rest i code_ stk off _ _ ih =>
    rw [generate_loop_cons]
    simp only [Char.reduceEq, if_false, if_true]
    exact ih h
  case case6 rest i code_ stk off _ _ _ ih =>
    rw [generate_loop_cons]
    simp only [Char.reduceEq, if_false, if_true]
    exact ih h
  case case7 c rest i code_ stk off h1 h2 h3 h4 h5 h6 ih =>
    rw [generate_loop_cons]
    simp only [h1, h2, h3, h4, h5, h6, if_false, if_true]
    exact ih (valid_fold_back h _)
  case case8 c rest i code_ stk off h1 h2 h3 h4 h5 h6 ih =>
    rw [generate_loop_cons]
    simp only [h1, h2, h3, h4, h5, h6, if_false, if_true]
    exact ih (valid_snoc h _ (by simp [mk_inc_cell]))
  case case9 i code_ stk off a b rest2 hz _ _ _ _ _ ih =>
    rw [generate_loop_cons]
    simp only [Char.reduceEq, if_false, if_true, or_self, hz, and_self]
    exact ih (valid_snoc h _ (by simp [mk_zero]))
  case case10 i code_ stk off a b rest2 hz _ _ _ _ _ ih =>
    rw [generate_loop_cons]
    simp only [Char.reduceEq, if_false, if_true, or_self, hz]
    exact ih (valid_snoc h _ (by simp [mk_jmp_fwd]))
  case case11 i code_ stk off rest1 hz _ _ _ _ _ ih =>
    rw [generate_loop_cons]
    simp only [Char.reduceEq, if_false, if_true, or_self]
    exact ih (valid_snoc h _ (by simp [mk_jmp_fwd]))
  case case12 rest i code_ off _ _ _ _ _ _ =>
    rw [generate_loop_cons]
    simp only [Char.reduceEq, if_false, if_true, or_self]
    exact h
  case case13 rest i code_ off top tail _ _ _ _ _ _ ih =>
    rw [generate_loop_cons]
    simp only [Char.reduceEq, if_false, if_true, or_self]
    exact ih (valid_patch_dest (valid_snoc h _ (by simp [mk_jmp_bwd])) _)
  case case14 c rest i code_ stk off h1 h2 h3 h4 h5 h6 h7 ih =>
    rw [generate_loop_cons]
    simp only [h1, h2, h3, h4, h5, h6, h7, if_false, if_true]
    exact ih h

/-- C8: no instruction of the sequence produced by `load_code` on a fresh interpreter has
opcode `INVALID`; each is one of `INC_CELL`, `JMP_FWD`, `JMP_BWD`, `ZERO`, `PUT`, `GET`.
This holds for every source, so in particular for every source that `load_code` accepts. -/
theorem load_code_no_invalid (code : List Char) :
    ∀ x ∈ (load_code BF_Interpreter.fresh code).2.1.code_,
      x.op ≠ .INVALID ∧
      (x.op = .INC_CELL ∨ x.op = .JMP_FWD ∨ x.op = .JMP_BWD ∨ x.op = .ZERO ∨ x.op = .PUT ∨
        x.op = .GET) := by
  intro x hx
  have hne : x.op ≠ .INVALID :=
    generate_loop_valid (code.filter is_operator) 0 [] [] 0 (by simp) x hx
  refine ⟨hne, ?_⟩
  cases hop : x.op <;> simp_all

/-- Witness for C8: the `JMP_BWD` emitted for `[.]`. -/
theorem load_code_no_invalid_witness :
    mk_jmp_bwd 0 1 ∈ (load_code BF_Interpreter.fresh ['[', '.', ']']).2.1.code_ ∧
    ((mk_jmp_bwd 0 1).op ≠ .INVALID ∧
      ((mk_jmp_bwd 0 1).op = .INC_CELL ∨ (mk_jmp_bwd 0 1).op = .JMP_FWD ∨
        (mk_jmp_bwd 0 1).op = .JMP_BWD ∨ (mk_jmp_bwd 0 1).op = .ZERO ∨
        (mk_jmp_bwd 0 1).op = .PUT ∨ (mk_jmp_bwd 0 1).op = .GET)) :=
  ⟨by decide, load_code_no_invalid ['[', '.', ']'] (mk_jmp_bwd 0 1) (by decide)⟩

/-! ## C5: the position reported for an unmatched `[` -/

/-- C5 fails on the code: in the cleaned source `>[` the only unmatched `[` is at index 1
and there is no unmatched `]`, but the number written after "Cleaned position: " is 0, the
index in `code_` of the `JMP_FWD` that `jmp_stack.top()` holds.  The two agree for `[` alone;
for `+++[` the number is 1 and the index is 3. -/
theorem load_code_unmatched_open_position :
    ['>', '['].filter is_operator = ['>', '['] ∧
    ['>', '['].indexOf '[' = 1 ∧
    first_unmatched_close ['>', '['] 0 0 = none ∧
    (load_code BF_Interpreter.fresh ['>', '[']).1 = false ∧
    (load_code BF_Interpreter.fresh ['>', '[']).2.2 = some (.unmatched_open 0) ∧
    (load_code BF_Interpreter.fresh ['[']).2.2 = some (.unmatched_open 0) ∧
    ['+', '+', '+', '['].indexOf '[' = 3 ∧
    (load_code BF_Interpreter.fresh ['+', '+', '+', '[']).2.2 = some (.unmatched_open 1) := by
  decide

/-! ## The interpreter loop and its traces -/

theorem exec_one_some {code_ : List bf_instr_t} {b b2 : bf_t} {c c2 : Console}
    (h : exec_one code_ b c = some (b2, c2)) :
    ∃ instr, code_[b.pc]? = some instr ∧ dispatch instr b c = .next b2 c2 ∧
      b.pc < code_.length := by
  unfold exec_one at h
  rcases hi : (code_[b.pc]?) with _ | instr
  · simp [hi] at h
  · simp only [hi] at h
    refine ⟨instr, rfl, ?_, (List.getElem?_eq_some.1 hi).1⟩
    rcases hd : dispatch instr b c with ⟨b3, c3⟩ | _ | _
    · simp only [hd, Option.some.injEq, Prod.mk.injEq] at h
      rw [h.1, h.2]
    · simp [hd] at h
    · simp [hd] at h

theorem dispatch_invalid {instr : bf_instr_t} (b : bf_t) (c : Console)
    (h : instr.op = .INVALID) : dispatch instr b c = .ret_false := by
  simp [dispatch, h]

theorem dispatch_ret_false {instr : bf_instr_t} {b : bf_t} {c : Console}
    (h : dispatch instr b c = .ret_false) : instr.op = .INVALID := by
  unfold dispatch at h
  split at h
  all_goals first
    | assumption
    | (split at h <;> first | (split at h <;> simp at h) | simp at h)

/-- A bounded run whose trace reaches an `INVALID` instruction before the budget is used up
returns `false` there. -/
theorem execute_tmpl_false_of_invalid (code_ : List bf_instr_t) (n : Nat)
    (hn : n < 4294967296) :
    ∀ (m fuel i : Nat) (b : bf_t) (c : Console) (b2 : bf_t) (c2 : Console),
      run_steps code_ m b c = some (b2, c2) → at_invalid code_ b2 → i + m < n → m < fuel →
      execute_tmpl false code_ n fuel i b c = .returned false (i + m) b2 c2 := by
  intro m
  induction m with
  | zero =>
    intro fuel i b c b2 c2 hrun hinv him hf
    obtain ⟨fuel, rfl⟩ : ∃ f, fuel = f + 1 := ⟨fuel - 1, by omega⟩
    simp only [run_steps, Option.some.injEq, Prod.mk.injEq] at hrun
    obtain ⟨rfl, rfl⟩ := hrun
    obtain ⟨instr, hi, hop⟩ := hinv
    have hpc := (List.getElem?_eq_some.1 hi).1
    have hc : cond false code_ n i b = true := by simp [cond]; omega
    simp [execute_tmpl, hc, hi, dispatch_invalid b c hop]
  | succ m ih =>
    intro fuel i b c b2 c2 hrun hinv him hf
    obtain ⟨fuel, rfl⟩ : ∃ f, fuel = f + 1 := ⟨fuel - 1, by omega⟩
    simp only [run_steps] at hrun
    rcases he : exec_one code_ b c with _ | ⟨b1, c1⟩
    · simp [he] at hrun
    · simp only [he] at hrun
      obtain ⟨instr, hi, hd, hpc⟩ := exec_one_some he
      have hc : cond false code_ n i b = true := by simp [cond]; omega
      have hinc : inc false i = i + 1 := by simp [inc]; omega
      simp only [execute_tmpl, hc, hi, hd, hinc, if_true]
      rw [ih fuel (i + 1) b1 c1 b2 c2 hrun hinv (by omega) (by omega)]
      congr 1; omega

/-- A bounded run whose trace has as many instructions as the budget allows returns
`true` when the budget is used up. -/
theorem execute_tmpl_false_of_budget (code_ : List bf_instr_t) (n : Nat)
    (hn : n < 4294967296) :
    ∀ (m fuel i : Nat) (b : bf_t) (c : Console) (b2 : bf_t) (c2 : Console),
      run_steps code_ m b c = some (b2, c2) → i + m = n → m < fuel →
      execute_tmpl false code_ n fuel i b c = .returned true n b2 c2 := by
  intro m
  induction m with
  | zero =>
    intro fuel i b c b2 c2 hrun him hf
    obtain ⟨fuel, rfl⟩ : ∃ f, fuel = f + 1 := ⟨fuel - 1, by omega⟩
    simp only [run_steps, Option.some.injEq, Prod.mk.injEq] at hrun
    obtain ⟨rfl, rfl⟩ := hrun
    simp only [Nat.add_zero] at him
    subst him
    have hc : cond false code_ i i b = false := by simp [cond]
    simp [execute_tmpl, hc]
  | succ m ih =>
    intro fuel i b c b2 c2 hrun him hf
    obtain ⟨fuel, rfl⟩ : ∃ f, fuel = f + 1 := ⟨fuel - 1, by omega⟩
    simp only [run_steps] at hrun
    rcases he : exec_one code_ b c with _ | ⟨b1, c1⟩
    · simp [he] at hrun
    · simp only [he] at hrun
      obtain ⟨instr, hi, hd, hpc⟩ := exec_one_some he
      have hc : cond false code_ n i b = true := by simp [cond]; omega
      have hinc : inc false i = i + 1 := by simp [inc]; omega
      simp only [execute_tmpl, hc, hi, hd, hinc, if_true]
      exact ih fuel (i + 1) b1 c1 b2 c2 hrun (by omega) (by omega)


theorem exec_one_of_dispatch {code_ : List bf_instr_t} {b b2 : bf_t} {c c2 : Console}
    {instr : bf_instr_t} (hi : code_[b.pc]? = some instr)
    (hd : dispatch instr b c = .next b2 c2) : exec_one code_ b c = some (b2, c2) := by
  simp [exec_one, hi, hd]

/-- What the outcome of a bounded run says about the trace: a returned run has followed
the trace for `j - i` instructions, and it returns `false` only at an `INVALID` instruction
reached before the budget was used up.  The fuel `num_instr + 1` is never exhausted. -/
theorem execute_tmpl_false_sound (code_ : List bf_instr_t) (n : Nat) (hn : n < 4294967296) :
    ∀ (k fuel i : Nat) (b : bf_t) (c : Console), i + k = n → k < fuel →
      execute_tmpl false code_ n fuel i b c ≠ .out_of_fuel ∧
      ∀ (r : Bool) (j : Nat) (b2 : bf_t) (c2 : Console),
        execute_tmpl false code_ n fuel i b c = .returned r j b2 c2 →
        ∃ m, m ≤ k ∧ j = i + m ∧ run_steps code_ m b c = some (b2, c2) ∧
          (r = false → m < k ∧ at_invalid code_ b2) := by
  intro k
  induction k with
  | zero =>
    intro fuel i b c hik hf
    obtain ⟨fuel, rfl⟩ : ∃ f, fuel = f + 1 := ⟨fuel - 1, by omega⟩
    simp only [Nat.add_zero] at hik
    subst hik
    have hc : cond false code_ i i b = false := by simp [cond]
    simp only [execute_tmpl, hc]
    refine ⟨by simp, ?_⟩
    intro r j b2 c2 h
    simp only [Bool.false_eq_true, if_false, Outcome.returned.injEq] at h
    obtain ⟨rfl, rfl, rfl, rfl⟩ := h
    exact ⟨0, le_refl _, rfl, rfl, by simp⟩
  | succ k ih =>
    intro fuel i b c hik hf
    obtain ⟨fuel, rfl⟩ : ∃ f, fuel = f + 1 := ⟨fuel - 1, by omega⟩
    by_cases hpc : b.pc < code_.length
    · have hc : cond false code_ n i b = true := by simp [cond]; omega
      have hinc : inc false i = i + 1 := by simp [inc]; omega
      have hi : code_[b.pc]? = some code_[b.pc] := List.getElem?_eq_getElem hpc
      simp only [execute_tmpl, hc, hi, hinc, if_true]
      rcases hd : dispatch code_[b.pc] b c with ⟨b1, c1⟩ | _ | _
      · simp only []
        obtain ⟨h1, h2⟩ := ih fuel (i + 1) b1 c1 (by omega) (by omega)
        refine ⟨h1, ?_⟩
        intro r j b2 c2 h
        obtain ⟨m, hm, hj, hrun, hr⟩ := h2 r j b2 c2 h
        refine ⟨m + 1, by omega, by omega, ?_, fun hf => ?_⟩
        · simp only [run_steps, exec_one_of_dispatch hi hd]; exact hrun
        · have := hr hf
          exact ⟨by omega, this.2⟩
      · simp only []
        refine ⟨by simp, ?_⟩
        intro r j b2 c2 h
        simp only [Outcome.returned.injEq] at h
        obtain ⟨rfl, rfl, rfl, rfl⟩ := h
        exact ⟨0, by omega, rfl, rfl, fun _ => ⟨by omega, _, hi, dispatch_ret_false hd⟩⟩
      · simp
    · have hc : cond false code_ n i b = false := by simp [cond]; omega
      simp only [execute_tmpl, hc]
      refine ⟨by simp, ?_⟩
      intro r j b2 c2 h
      simp only [Bool.false_eq_true, if_false, Outcome.returned.injEq] at h
      obtain ⟨rfl, rfl, rfl, rfl⟩ := h
      exact ⟨0, by omega, rfl, rfl, by simp⟩

/-- An unbounded run whose trace reaches an `INVALID` instruction returns `false`
there, given enough fuel to follow it. -/
theorem execute_tmpl_true_of_invalid (code_ : List bf_instr_t) (n : Nat) :
    ∀ (m fuel i : Nat) (b : bf_t) (c : Console) (b2 : bf_t) (c2 : Console),
      run_steps code_ m b c = some (b2, c2) → at_invalid code_ b2 → m < fuel →
      execute_tmpl true code_ n fuel i b c = .returned false i b2 c2 := by
  intro m
  induction m with
  | zero =>
    intro fuel i b c b2 c2 hrun hinv hf
    obtain ⟨fuel, rfl⟩ : ∃ f, fuel = f + 1 := ⟨fuel - 1, by omega⟩
    simp only [run_steps, Option.some.injEq, Prod.mk.injEq] at hrun
    obtain ⟨rfl, rfl⟩ := hrun
    obtain ⟨instr, hi, hop⟩ := hinv
    have hpc := (List.getElem?_eq_some.1 hi).1
    have hc : cond true code_ n i b = true := by simp [cond]; omega
    simp [execute_tmpl, hc, hi, dispatch_invalid b c hop]
  | succ m ih =>
    intro fuel i b c b2 c2 hrun hinv hf
    obtain ⟨fuel, rfl⟩ : ∃ f, fuel = f + 1 := ⟨fuel - 1, by omega⟩
    simp only [run_steps] at hrun
    rcases he : exec_one code_ b c with _ | ⟨b1, c1⟩
    · simp [he] at hrun
    · simp only [he] at hrun
      obtain ⟨instr, hi, hd, hpc⟩ := exec_one_some he
      have hc : cond true code_ n i b = true := by simp [cond]; omega
      have hinc : inc true i = i := by simp [inc]
      simp only [execute_tmpl, hc, hi, hd, hinc, if_true]
      exact ih fuel i b1 c1 b2 c2 hrun hinv (by omega)

/-- An unbounded run whose trace ends with the program counter at or past the end of
`code_` returns `true` there, given enough fuel to follow it. -/
theorem execute_tmpl_true_of_finished (code_ : List bf_instr_t) (n : Nat) :
    ∀ (m fuel i : Nat) (b : bf_t) (c : Console) (b2 : bf_t) (c2 : Console),
      run_steps code_ m b c = some (b2, c2) → code_.length ≤ b2.pc → m < fuel →
      execute_tmpl true code_ n fuel i b c = .returned true i b2 c2 := by
  intro m
  induction m with
  | zero =>
    intro fuel i b c b2 c2 hrun hfin hf
    obtain ⟨fuel, rfl⟩ : ∃ f, fuel = f + 1 := ⟨fuel - 1, by omega⟩
    simp only [run_steps, Option.some.injEq, Prod.mk.injEq] at hrun
    obtain ⟨rfl, rfl⟩ := hrun
    have hc : cond true code_ n i b = false := by simp [cond]; omega
    simp [execute_tmpl, hc]
  | succ m ih =>
    intro fuel i b c b2 c2 hrun hfin hf
    obtain ⟨fuel, rfl⟩ : ∃ f, fuel = f + 1 := ⟨fuel - 1, by omega⟩
    simp only [run_steps] at hrun
    rcases he : exec_one code_ b c with _ | ⟨b1, c1⟩
    · simp [he] at hrun
    · simp only [he] at hrun
      obtain ⟨instr, hi, hd, hpc⟩ := exec_one_some he
      have hc : cond true code_ n i b = true := by simp [cond]; omega
      have hinc : inc true i = i := by simp [inc]
      simp only [execute_tmpl, hc, hi, hd, hinc, if_true]
      exact ih fuel i b1 c1 b2 c2 hrun hfin (by omega)

/-- What a returned unbounded run says about the trace: it has followed the trace to a
state that is finished (return value `true`) or at an `INVALID` instruction (`false`). -/
theorem execute_tmpl_true_sound (code_ : List bf_instr_t) (n : Nat) :
    ∀ (fuel i : Nat) (b : bf_t) (c : Console) (r : Bool) (j : Nat) (b2 : bf_t) (c2 : Console),
      execute_tmpl true code_ n fuel i b c = .returned r j b2 c2 →
      j = i ∧ ∃ m, m < fuel ∧ run_steps code_ m b c = some (b2, c2) ∧
        (r = false → at_invalid code_ b2) ∧ (r = true → code_.length ≤ b2.pc) := by
  intro fuel
  induction fuel with
  | zero => intro i b c r j b2 c2 h; simp [execute_tmpl] at h
  | succ fuel ih =>
    intro i b c r j b2 c2 h
    by_cases hpc : b.pc < code_.length
    · have hc : cond true code_ n i b = true := by simp [cond]; omega
      have hinc : inc true i = i := by simp [inc]
      have hi : code_[b.pc]? = some code_[b.pc] := List.getElem?_eq_getElem hpc
      simp only [execute_tmpl, hc, hi, hinc, if_true] at h
      rcases hd : dispatch code_[b.pc] b c with ⟨b1, c1⟩ | _ | _
      · simp only [hd] at h
        obtain ⟨hj, m, hm, hrun, hr⟩ := ih i b1 c1 r j b2 c2 h
        refine ⟨hj, m + 1, by omega, ?_, hr⟩
        simp only [run_steps, exec_one_of_dispatch hi hd]; exact hrun
      · simp only [hd, Outcome.returned.injEq] at h
        obtain ⟨rfl, rfl, rfl, rfl⟩ := h
        exact ⟨rfl, 0, by omega, rfl, fun _ => ⟨_, hi, dispatch_ret_false hd⟩, by simp⟩
      · simp [hd] at h
    · have hc : cond true code_ n i b = false := by simp [cond]; omega
      simp only [execute_tmpl, hc, Bool.false_eq_true, if_false, Outcome.returned.injEq] at h
      obtain ⟨rfl, rfl, rfl, rfl⟩ := h
      exact ⟨rfl, 0, by omega, rfl, by simp, fun _ => by omega⟩


/-- Starting the counter at `d` with budget `n + d` is the same as starting at zero with
budget `n`, up to the value of the counter. -/
theorem execute_tmpl_shift (code_ : List bf_instr_t) (n d : Nat) (hnd : n + d < 4294967296) :
    ∀ (fuel i : Nat) (b : bf_t) (c : Console),
      execute_tmpl false code_ (n + d) fuel (i + d) b c =
        match execute_tmpl false code_ n fuel i b c with
        | .returned r j b2 c2 => .returned r (j + d) b2 c2
        | .undefined_behaviour => .undefined_behaviour
        | .out_of_fuel => .out_of_fuel := by
  intro fuel
  induction fuel with
  | zero => intro i b c; rfl
  | succ fuel ih =>
    intro i b c
    have hcond : cond false code_ (n + d) (i + d) b = cond false code_ n i b := by
      simp [cond]
    simp only [execute_tmpl, hcond]
    by_cases hc : cond false code_ n i b = true
    · have hlt : i < n := by simp [cond] at hc; exact hc.1
      have hinc1 : inc false (i + d) = (i + 1) + d := by simp [inc]; omega
      have hinc2 : inc false i = i + 1 := by simp [inc]; omega
      simp only [hc, if_true, hinc1, hinc2]
      rcases (code_[b.pc]?) with _ | instr
      · rfl
      · simp only []
        rcases dispatch instr b c with ⟨b1, c1⟩ | _ | _
        · exact ih (i + 1) b1 c1
        · rfl
        · rfl
    · simp [hc]

theorem execute_resume_aux (code_ : List bf_instr_t) (a b : Nat) (hab : a + b < 4294967296) :
    ∀ (k i : Nat) (b0 : bf_t) (c0 : Console), i + k = a →
      execute_tmpl false code_ (a + b) (k + b + 1) i b0 c0 =
        match execute_tmpl false code_ a (k + 1) i b0 c0 with
        | .returned r1 i1 bf1 con1 =>
          match execute code_ b bf1 con1 with
          | .returned r2 i2 bf2 con2 => .returned (r1 && r2) (i1 + i2) bf2 con2
          | .undefined_behaviour => .undefined_behaviour
          | .out_of_fuel => .out_of_fuel
        | .undefined_behaviour => .undefined_behaviour
        | .out_of_fuel => .out_of_fuel := by
  intro k
  induction k with
  | zero =>
    intro i b0 c0 hi
    simp only [Nat.add_zero] at hi
    subst hi
    have hc : cond false code_ i i b0 = false := by simp [cond]
    have hfirst : execute_tmpl false code_ i (0 + 1) i b0 c0 = .returned true i b0 c0 := by
      simp [execute_tmpl, hc]
    have h := execute_tmpl_shift code_ b i (by omega) (b + 1) 0 b0 c0
    rw [Nat.add_comm b i, Nat.zero_add] at h
    rw [hfirst, Nat.zero_add, h]
    simp only [execute]
    generalize execute_tmpl false code_ b (b + 1) 0 b0 c0 = o
    cases o with
    | returned r2 i2 b2 c2 => simp [Nat.add_comm]
    | undefined_behaviour => rfl
    | out_of_fuel => rfl
  | succ k ih =>
    intro i b0 c0 hi
    have e1 : k + 1 + b + 1 = (k + b + 1) + 1 := by omega
    rw [e1]
    by_cases hpc : b0.pc < code_.length
    · have hc1 : cond false code_ (a + b) i b0 = true := by simp [cond]; omega
      have hc2 : cond false code_ a i b0 = true := by simp [cond]; omega
      have hinc : inc false i = i + 1 := by simp [inc]; omega
      have hget : code_[b0.pc]? = some code_[b0.pc] := List.getElem?_eq_getElem hpc
      simp only [execute_tmpl, hc1, hc2, hinc, hget, if_true]
      rcases hd : dispatch code_[b0.pc] b0 c0 with ⟨b1, c1⟩ | _ | _
      · exact ih (i + 1) b1 c1 (by omega)
      · simp only [execute]
        cases b with
        | zero => simp [execute_tmpl, cond]
        | succ b =>
          have hc3 : cond false code_ (b + 1) 0 b0 = true := by simp [cond]; omega
          simp [execute_tmpl, hc3, hget, hd]
      · rfl
    · have hc1 : cond false code_ (a + b) i b0 = false := by simp [cond]; omega
      have hc2 : cond false code_ a i b0 = false := by simp [cond]; omega
      have hc3 : cond false code_ b 0 b0 = false := by simp [cond]; omega
      simp [execute_tmpl, hc1, hc2, hc3, execute]

/-- C10: for budgets with `a + b < 2^32`, one call `execute(a + b)` ends exactly as the two
calls `execute(a)` and `execute(b)` in a row: same program counter, cell pointer, tape,
remaining input and output, and the two calls together execute the same number of
instructions, at most `a + b`. -/
theorem execute_resumable (code_ : List bf_instr_t) (a b : Nat) (bf_ : bf_t) (con : Console)
    (hab : a + b < 4294967296) :
    execute code_ (a + b) bf_ con = execute_twice code_ a b bf_ con ∧
    ∀ (r : Bool) (i : Nat) (bf2 : bf_t) (con2 : Console),
      execute_twice code_ a b bf_ con = .returned r i bf2 con2 → i ≤ a + b := by
  have h1 : execute code_ (a + b) bf_ con = execute_twice code_ a b bf_ con :=
    execute_resume_aux code_ a b hab a 0 bf_ con (by omega)
  refine ⟨h1, ?_⟩
  intro r i bf2 con2 h
  rw [← h1] at h
  obtain ⟨m, hm, hi, _⟩ :=
    (execute_tmpl_false_sound code_ (a + b) hab (a + b) (a + b + 1) 0 bf_ con (by omega)
      (by omega)).2 r i bf2 con2 h
  omega

/-- Witness for C10: the program `+[]` run for 2 and then 3 instructions. -/
theorem execute_resumable_witness :
    2 + 3 < 4294967296 ∧
    (execute (generate_code [] ['+', '[', ']']).code_ (2 + 3)
        { cp := 0, pc := 0, cells := [0, 0] } { stdin := [], stdout := [] } =
      execute_twice (generate_code [] ['+', '[', ']']).code_ 2 3
        { cp := 0, pc := 0, cells := [0, 0] } { stdin := [], stdout := [] } ∧
    ∀ (r : Bool) (i : Nat) (bf2 : bf_t) (con2 : Console),
      execute_twice (generate_code [] ['+', '[', ']']).code_ 2 3
        { cp := 0, pc := 0, cells := [0, 0] } { stdin := [], stdout := [] } =
          .returned r i bf2 con2 → i ≤ 2 + 3) :=
  ⟨by decide, execute_resumable _ 2 3 _ _ (by decide)⟩

/-! ## The tape invariant of defined runs -/

/-- One executed instruction keeps the size of the tape and leaves the cell pointer inside
the tape: the pointer only moves in `JMP_FWD` / `JMP_BWD`, which read the cell it then
points to. -/
theorem exec_one_tape {code_ : List bf_instr_t} {b b2 : bf_t} {c c2 : Console} {n : Nat}
    (h : exec_one code_ b c = some (b2, c2)) (hlen : b.cells.length = n) (hcp : b.cp < n) :
    b2.cells.length = n ∧ b2.cp < n := by
  obtain ⟨instr, _, hd, _⟩ := exec_one_some h
  unfold dispatch at hd
  split at hd
  · split at hd
    · simp only [Dispatch.next.injEq] at hd
      obtain ⟨rfl, _⟩ := hd
      simpa using ⟨hlen, hcp⟩
    · simp at hd
  · split at hd
    · rename_i hin
      split at hd
      all_goals
        simp only [Dispatch.next.injEq] at hd
        obtain ⟨rfl, _⟩ := hd
        exact ⟨hlen, by rw [← hlen]; exact hin⟩
    · simp at hd
  · split at hd
    · rename_i hin
      split at hd
      all_goals
        simp only [Dispatch.next.injEq] at hd
        obtain ⟨rfl, _⟩ := hd
        exact ⟨hlen, by rw [← hlen]; exact hin⟩
    · simp at hd
  · split at hd
    · simp only [Dispatch.next.injEq] at hd
      obtain ⟨rfl, _⟩ := hd
      simpa using ⟨hlen, hcp⟩
    · simp at hd
  · split at hd
    · simp only [Dispatch.next.injEq] at hd
      obtain ⟨rfl, _⟩ := hd
      exact ⟨hlen, hcp⟩
    · simp at hd
  · split at hd
    · simp only [Dispatch.next.injEq] at hd
      obtain ⟨rfl, _⟩ := hd
      simpa using ⟨hlen, hcp⟩
    · simp at hd
  · simp at hd

/-- Every machine state on a trace that starts with the cell pointer inside a tape of `n`
cells has the cell pointer inside a tape of `n` cells. -/
theorem run_steps_tape (code_ : List bf_instr_t) (n : Nat) :
    ∀ (k : Nat) (b b2 : bf_t) (c c2 : Console), run_steps code_ k b c = some (b2, c2) →
      b.cells.length = n → b.cp < n → b2.cells.length = n ∧ b2.cp < n := by
  intro k
  induction k with
  | zero =>
    intro b b2 c c2 h hlen hcp
    simp only [run_steps, Option.some.injEq, Prod.mk.injEq] at h
    obtain ⟨rfl, _⟩ := h
    exact ⟨hlen, hcp⟩
  | succ k ih =>
    intro b b2 c c2 h hlen hcp
    simp only [run_steps] at h
    rcases he : exec_one code_ b c with _ | ⟨b1, c1⟩
    · simp [he] at h
    · simp only [he] at h
      obtain ⟨h1, h2⟩ := exec_one_tape he hlen hcp
      exact ih b1 b2 c1 c2 h h1 h2

/-- After `load_code` the tape has `NUM_CELLS` cells; on a fresh interpreter the cell
pointer and the program counter are zero. -/
theorem load_code_tape (self : BF_Interpreter) (code : List Char) :
    (load_code self code).2.1.bf_.cells.length = NUM_CELLS ∧
    (load_code self code).2.1.bf_.cp = self.bf_.cp ∧
    (load_code self code).2.1.bf_.pc = self.bf_.pc := by
  simp only [load_code, resize, List.length_append, List.length_take, List.length_replicate,
    and_self, and_true]
  omega

/-! ## Straight-line runs of `INC_CELL` -/

theorem inc_tape_length {cp : Nat} {x : bf_instr_t} {t t2 : List Nat}
    (h : inc_tape cp x t = some t2) : t2.length = t.length := by
  unfold inc_tape at h
  split at h
  · simp only [Option.some.injEq] at h
    subst h
    simp
  · simp at h

theorem inc_tape_all_length (cp : Nat) : ∀ (l : List bf_instr_t) (t t2 : List Nat),
    inc_tape_all cp l t = some t2 → t2.length = t.length := by
  intro l
  induction l with
  | nil => intro t t2 h; simp only [inc_tape_all, Option.some.injEq] at h; subst h; rfl
  | cons x l ih =>
    intro t t2 h
    simp only [inc_tape_all] at h
    rcases h1 : inc_tape cp x t with _ | t1
    · simp [h1] at h
    · simp only [h1, Option.some_bind] at h
      exact (ih t1 t2 h).trans (inc_tape_length h1)

theorem inc_tape_all_append (cp : Nat) : ∀ (l1 l2 : List bf_instr_t) (t : List Nat),
    inc_tape_all cp (l1 ++ l2) t = (inc_tape_all cp l1 t).bind (inc_tape_all cp l2) := by
  intro l1
  induction l1 with
  | nil => intro l2 t; rfl
  | cons x l1 ih =>
    intro l2 t
    simp only [List.cons_append, inc_tape_all]
    rcases inc_tape cp x t with _ | t1
    · rfl
    · simp only [Option.some_bind]; exact ih l2 t1

theorem inc_tape_all_snoc (cp : Nat) (l : List bf_instr_t) (x : bf_instr_t) (t : List Nat) :
    inc_tape_all cp (l ++ [x]) t = (inc_tape_all cp l t).bind (inc_tape cp x) := by
  rw [inc_tape_all_append]
  congr 1
  funext t
  simp only [inc_tape_all]
  rcases inc_tape cp x t with _ | t2 <;> rfl

/-- A run of `INC_CELL` instructions is executed front to back: after as many executed
instructions as the run is long the tape shows their joint effect and the program counter
is just past the run. -/
theorem run_steps_incs : ∀ (l pre : List bf_instr_t) (b : bf_t) (c : Console),
    (∀ x ∈ l, x.op = .INC_CELL) → b.pc = pre.length → (pre ++ l).length < 4294967296 →
    run_steps (pre ++ l) l.length b c =
      (inc_tape_all b.cp l b.cells).map
        (fun t => ({ cp := b.cp, pc := pre.length + l.length, cells := t }, c)) := by
  intro l
  induction l with
  | nil =>
    intro pre b c _ hpc _
    simp [run_steps, inc_tape_all, ← hpc]
  | cons x l ih =>
    intro pre b c hop hpc hlen
    have hx : x.op = .INC_CELL := hop x (List.mem_cons_self _ _)
    have hget : (pre ++ x :: l)[b.pc]? = some x := by
      rw [hpc, List.getElem?_append_right (le_refl _)]; simp
    simp only [List.length_cons, run_steps, exec_one, hget, inc_tape_all, inc_tape]
    simp only [dispatch, hx, cell_index]
    by_cases hk : 0 ≤ (b.cp : Int) + x.cell ∧ (b.cp : Int) + x.cell < (b.cells.length : Int)
    · rw [if_pos hk, if_pos hk]
      simp only [Option.some_bind]
      have hlen2 : pre.length + 1 < 4294967296 := by
        simp only [List.length_append, List.length_cons] at hlen; omega
      have hmod : (b.pc + 1) % 4294967296 = pre.length + 1 := by
        rw [hpc]; exact Nat.mod_eq_of_lt hlen2
      rw [hmod]
      have e : pre ++ x :: l = (pre ++ [x]) ++ l := by simp
      rw [e]
      rw [ih (pre ++ [x]) _ c (fun y hy => hop y (List.mem_cons_of_mem _ hy)) (by simp)
        (by rw [← e]; exact hlen)]
      simp [Nat.add_assoc, Nat.add_comm 1]
    · rw [if_neg hk, if_neg hk]
      rfl


/-! ## C6: folding runs of `+` and `-` -/

theorem inc_tape_fold (cp : Nat) (last : bf_instr_t) (d : Nat) (t : List Nat) :
    inc_tape cp { last with val := (last.val + d) % 256 } t =
      (inc_tape cp last t).bind (inc_tape cp (mk_inc_cell d last.cell)) := by
  unfold inc_tape
  by_cases hk : 0 ≤ (cp : Int) + last.cell ∧ (cp : Int) + last.cell < (t.length : Int)
  · have hk2 : ((cp : Int) + last.cell).toNat < t.length := by omega
    simp only [hk, and_self, if_true, Option.some_bind, mk_inc_cell, List.length_set,
      List.set_set, List.getD_eq_getElem?_getD, List.getElem?_set_self hk2, Option.getD_some]
    congr 2
    omega
  · simp [hk]

theorem can_fold_spec {code_ : List bf_instr_t} {off : Int} (d : Nat)
    (h : can_fold code_ off = true) :
    ∃ init last, code_ = init ++ [last] ∧ last.op = .INC_CELL ∧ last.cell = off ∧
      fold_back code_ d = init ++ [{ last with val := (last.val + d) % 256 }] := by
  unfold can_fold at h
  rcases hb : code_.getLast? with _ | last
  · simp [hb] at h
  · simp only [hb, Bool.and_eq_true, decide_eq_true_eq] at h
    obtain ⟨init, rfl⟩ := List.getLast?_eq_some_iff.1 hb
    refine ⟨init, last, rfl, h.1, h.2, ?_⟩
    unfold fold_back
    rw [hb]
    simp only [List.length_append, List.length_singleton, Nat.add_sub_cancel]
    rw [List.set_append_right _ _ (le_refl _)]
    simp

theorem wrap_int16_id {x : Int} (h1 : -32768 ≤ x) (h2 : x ≤ 32767) : wrap_int16 x = x := by
  unfold wrap_int16; omega

theorem wrap_int16_succ (x : Int) : wrap_int16 (wrap_int16 x + 1) = wrap_int16 (x + 1) := by
  unfold wrap_int16; omega

theorem wrap_int16_pred (x : Int) : wrap_int16 (wrap_int16 x - 1) = wrap_int16 (x - 1) := by
  unfold wrap_int16; omega

/-- The folded sequence built by the loop has the same effect on the tape as the
instructions already emitted followed by the unfolded sequence of the rest of the text,
as long as the offsets of the touched cells fit `std::int16_t`. -/
theorem generate_loop_fold_sound (cp : Nat) : ∀ (s : List Char) (i : Nat)
    (code_ : List bf_instr_t) (off net : Int) (t : List Nat),
    (∀ c ∈ s, c = '+' ∨ c = '-' ∨ c = '<' ∨ c = '>') → off = wrap_int16 net →
    (∀ x ∈ unfolded_from s net, -32768 ≤ x.cell ∧ x.cell ≤ 32767) →
    (∀ x ∈ code_, x.op = .INC_CELL) →
    (∀ x ∈ (generate_loop s i code_ [] off).code_, x.op = .INC_CELL) ∧
    (generate_loop s i code_ [] off).code_.length ≤ code_.length + s.length ∧
    inc_tape_all cp (generate_loop s i code_ [] off).code_ t =
      (inc_tape_all cp code_ t).bind (inc_tape_all cp (unfolded_from s net)) := by
  intro s
  induction s with
  | nil =>
    intro i code_ off net t _ _ _ hop
    simp only [generate_loop_nil, unfolded_from, List.length_nil, Nat.add_zero, le_refl,
      true_and]
    refine ⟨hop, ?_⟩
    rcases inc_tape_all cp code_ t with _ | t1 <;> rfl
  | cons c rest ih =>
    intro i code_ off net t hs hoff hr hop
    have hrest : ∀ c ∈ rest, c = '+' ∨ c = '-' ∨ c = '<' ∨ c = '>' :=
      fun c hc => hs c (List.mem_cons_of_mem _ hc)
    rw [generate_loop_cons]
    rcases hs c (List.mem_cons_self _ _) with rfl | rfl | rfl | rfl
    · -- `+`
      simp only [Char.reduceEq, if_false, if_true, true_or, unfolded_from, delta_of] at hr ⊢
      have hnet := hr (mk_inc_cell 1 net) (List.mem_cons_self _ _)
      have hoff2 : off = net := by
        rw [hoff]; exact wrap_int16_id (by simpa [mk_inc_cell] using hnet.1)
          (by simpa [mk_inc_cell] using hnet.2)
      have hr2 : ∀ x ∈ unfolded_from rest net, -32768 ≤ x.cell ∧ x.cell ≤ 32767 :=
        fun x hx => hr x (List.mem_cons_of_mem _ hx)
      by_cases hf : can_fold code_ off = true
      · rw [if_pos hf]
        obtain ⟨init, last, rfl, hlop, hlcell, hfb⟩ := can_fold_spec 1 hf
        have hop2 : ∀ x ∈ fold_back (init ++ [last]) 1, x.op = .INC_CELL := by
          rw [hfb]
          intro x hx
          rcases List.mem_append.1 hx with hx | hx
          · exact hop x (List.mem_append_left _ hx)
          · rw [List.mem_singleton.1 hx]; exact hlop
        obtain ⟨h1, h2, h3⟩ := ih (i + 1) _ off net t hrest hoff hr2 hop2
        refine ⟨h1, ?_, ?_⟩
        · simp [length_fold_back] at h2 ⊢; omega
        · have hfun := funext (inc_tape_fold cp last 1)
          rw [h3, hfb, inc_tape_all_snoc, inc_tape_all_snoc, hfun, hlcell, hoff2]
          simp only [inc_tape_all]
          rcases inc_tape_all cp init t with _ | t1
          · rfl
          · simp only [Option.some_bind]
            rcases inc_tape cp last t1 with _ | t2
            · rfl
            · rfl
      · rw [if_neg hf]
        have hop2 : ∀ x ∈ code_ ++ [mk_inc_cell 1 off], x.op = .INC_CELL := by
          intro x hx
          rcases List.mem_append.1 hx with hx | hx
          · exact hop x hx
          · rw [List.mem_singleton.1 hx]; rfl
        obtain ⟨h1, h2, h3⟩ := ih (i + 1) _ off net t hrest hoff hr2 hop2
        refine ⟨h1, ?_, ?_⟩
        · simp at h2 ⊢; omega
        · rw [h3, inc_tape_all_snoc, hoff2]
          simp only [inc_tape_all]
          rcases inc_tape_all cp code_ t with _ | t1
          · rfl
          · rfl
    · -- `-`
      simp only [Char.reduceEq, if_false, if_true, or_true, unfolded_from, delta_of] at hr ⊢
      have hnet := hr (mk_inc_cell 255 net) (List.mem_cons_self _ _)
      have hoff2 : off = net := by
        rw [hoff]; exact wrap_int16_id (by simpa [mk_inc_cell] using hnet.1)
          (by simpa [mk_inc_cell] using hnet.2)
      have hr2 : ∀ x ∈ unfolded_from rest net, -32768 ≤ x.cell ∧ x.cell ≤ 32767 :=
        fun x hx => hr x (List.mem_cons_of_mem _ hx)
      by_cases hf : can_fold code_ off = true
      · rw [if_pos hf]
        obtain ⟨init, last, rfl, hlop, hlcell, hfb⟩ := can_fold_spec 255 hf
        have hop2 : ∀ x ∈ fold_back (init ++ [last]) 255, x.op = .INC_CELL := by
          rw [hfb]
          intro x hx
          rcases List.mem_append.1 hx with hx | hx
          · exact hop x (List.mem_append_left _ hx)
          · rw [List.mem_singleton.1 hx]; exact hlop
        obtain ⟨h1, h2, h3⟩ := ih (i + 1) _ off net t hrest hoff hr2 hop2
        refine ⟨h1, ?_, ?_⟩
        · simp [length_fold_back] at h2 ⊢; omega
        · have hfun := funext (inc_tape_fold cp last 255)
          rw [h3, hfb, inc_tape_all_snoc, inc_tape_all_snoc, hfun, hlcell, hoff2]
          simp only [inc_tape_all]
          rcases inc_tape_all cp init t with _ | t1
          · rfl
          · simp only [Option.some_bind]
            rcases inc_tape cp last t1 with _ | t2
            · rfl
            · rfl
      · rw [if_neg hf]
        have hop2 : ∀ x ∈ code_ ++ [mk_inc_cell 255 off], x.op = .INC_CELL := by
          intro x hx
          rcases List.mem_append.1 hx with hx | hx
          · exact hop x hx
          · rw [List.mem_singleton.1 hx]; rfl
        obtain ⟨h1, h2, h3⟩ := ih (i + 1) _ off net t hrest hoff hr2 hop2
        refine ⟨h1, ?_, ?_⟩
        · simp at h2 ⊢; omega
        · rw [h3, inc_tape_all_snoc, hoff2]
          simp only [inc_tape_all]
          rcases inc_tape_all cp code_ t with _ | t1
          · rfl
          · rfl
    · -- `<`
      simp only [Char.reduceEq, if_false, if_true, unfolded_from] at hr ⊢
      obtain ⟨h1, h2, h3⟩ := ih (i + 1) code_ (wrap_int16 (off - 1)) (net - 1) t hrest
        (by rw [hoff]; exact wrap_int16_pred net) hr hop
      exact ⟨h1, by simp at h2 ⊢; omega, h3⟩
    · -- `>`
      simp only [Char.reduceEq, if_false, if_true, unfolded_from] at hr ⊢
      obtain ⟨h1, h2, h3⟩ := ih (i + 1) code_ (wrap_int16 (off + 1)) (net + 1) t hrest
        (by rw [hoff]; exact wrap_int16_succ net) hr hop
      exact ⟨h1, by simp at h2 ⊢; omega, h3⟩


theorem unfolded_from_spec : ∀ (s : List Char) (net : Int),
    (∀ x ∈ unfolded_from s net, x.op = .INC_CELL) ∧ (unfolded_from s net).length ≤ s.length := by
  intro s
  induction s with
  | nil => intro net; simp [unfolded_from]
  | cons c rest ih =>
    intro net
    simp only [unfolded_from]
    split
    · exact ⟨(ih _).1, by have := (ih (net + 1)).2; simp; omega⟩
    · split
      · exact ⟨(ih _).1, by have := (ih (net - 1)).2; simp; omega⟩
      · split
        · refine ⟨?_, by have := (ih net).2; simp; omega⟩
          intro x hx
          rcases List.mem_cons.1 hx with rfl | hx
          · rfl
          · exact (ih net).1 x hx
        · split
          · refine ⟨?_, by have := (ih net).2; simp; omega⟩
            intro x hx
            rcases List.mem_cons.1 hx with rfl | hx
            · rfl
            · exact (ih net).1 x hx
          · exact ⟨(ih _).1, by have := (ih net).2; simp; omega⟩

theorem inc_tape_all_some (cp : Nat) : ∀ (l : List bf_instr_t) (t : List Nat),
    (∀ x ∈ l, 0 ≤ (cp : Int) + x.cell ∧ (cp : Int) + x.cell < (t.length : Int)) →
    ∃ t2, inc_tape_all cp l t = some t2 := by
  intro l
  induction l with
  | nil => intro t _; exact ⟨t, rfl⟩
  | cons x l ih =>
    intro t h
    have hx := h x (List.mem_cons_self _ _)
    have h1 : inc_tape cp x t = some (t.set ((cp : Int) + x.cell).toNat
        ((t.getD ((cp : Int) + x.cell).toNat 0 + x.val) % 256)) := by
      unfold inc_tape; rw [if_pos hx]
    simp only [inc_tape_all, h1, Option.some_bind]
    apply ih
    intro y hy
    simpa using h y (List.mem_cons_of_mem _ hy)

/-- C6: for a text over `+ - < >`, on a machine at the start of the program whose tape has
`NUM_CELLS` cells with the cell pointer inside it and all touched cells inside it, the
folded sequence made by `generate_code` and the unfolded sequence both run to completion,
return `true`, and leave the same tape (and the same cell pointer and streams). -/
theorem folding_transparent (s : List Char) (bf_ : bf_t) (con : Console)
    (hs : ∀ c ∈ s, c = '+' ∨ c = '-' ∨ c = '<' ∨ c = '>')
    (hlen : s.length < 4294967296)
    (hpc : bf_.pc = 0)
    (htape : bf_.cells.length = NUM_CELLS)
    (hcp : bf_.cp < NUM_CELLS)
    (htouch : ∀ x ∈ unfolded s,
      0 ≤ (bf_.cp : Int) + x.cell ∧ (bf_.cp : Int) + x.cell < (bf_.cells.length : Int)) :
    ∃ t : List Nat,
      (∀ fuel, s.length < fuel →
        execute_all (generate_code [] s).code_ fuel bf_ con =
          .returned true 0
            { cp := bf_.cp, pc := (generate_code [] s).code_.length, cells := t } con) ∧
      (∀ fuel, s.length < fuel →
        execute_all (unfolded s) fuel bf_ con =
          .returned true 0 { cp := bf_.cp, pc := (unfolded s).length, cells := t } con) := by
  obtain ⟨t, ht⟩ := inc_tape_all_some bf_.cp (unfolded s) bf_.cells htouch
  have hu := unfolded_from_spec s 0
  have hr : ∀ x ∈ unfolded_from s 0, -32768 ≤ x.cell ∧ x.cell ≤ 32767 := by
    intro x hx
    have := htouch x hx
    rw [htape] at this
    unfold NUM_CELLS at this hcp
    omega
  obtain ⟨g1, g2, g3⟩ := generate_loop_fold_sound bf_.cp s 0 [] 0 0 bf_.cells hs (by decide) hr
    (by simp)
  refine ⟨t, ?_, ?_⟩
  · intro fuel hfuel
    have hrun := run_steps_incs (generate_code [] s).code_ [] bf_ con g1 (by simpa using hpc)
      (by simp only [List.nil_append, generate_code]
          simp only [List.length_nil, Nat.zero_add] at g2; omega)
    have hfold : inc_tape_all bf_.cp (generate_code [] s).code_ bf_.cells = some t := by
      simp only [generate_code, g3, inc_tape_all, Option.some_bind]; exact ht
    simp only [List.nil_append, hfold, Option.map_some', List.length_nil, Nat.zero_add] at hrun
    exact execute_tmpl_true_of_finished _ 0 _ fuel 0 bf_ con _ con hrun (le_refl _)
      (by simp only [List.length_nil, Nat.zero_add, generate_code] at g2 ⊢; omega)
  · intro fuel hfuel
    have hrun := run_steps_incs (unfolded s) [] bf_ con hu.1 (by simpa using hpc)
      (by simp only [List.nil_append]; have := hu.2; unfold unfolded; omega)
    simp only [List.nil_append, ht, Option.map_some', List.length_nil, Nat.zero_add] at hrun
    exact execute_tmpl_true_of_finished _ 0 _ fuel 0 bf_ con _ con hrun (le_refl _)
      (by have := hu.2; unfold unfolded; omega)

/-- Witness for C6: the text `++>-<+` with the cell pointer at cell 1 of a zeroed tape. -/
theorem folding_transparent_witness :
    (∀ c ∈ ['+', '+', '>', '-', '<', '+'], c = '+' ∨ c = '-' ∨ c = '<' ∨ c = '>') ∧
    ['+', '+', '>', '-', '<', '+'].length < 4294967296 ∧
    (List.replicate NUM_CELLS 0).length = NUM_CELLS ∧
    1 < NUM_CELLS ∧
    (∀ x ∈ unfolded ['+', '+', '>', '-', '<', '+'],
      0 ≤ ((1 : Nat) : Int) + x.cell ∧
      ((1 : Nat) : Int) + x.cell < ((List.replicate NUM_CELLS 0).length : Int)) ∧
    ∃ t : List Nat,
      (∀ fuel, ['+', '+', '>', '-', '<', '+'].length < fuel →
        execute_all (generate_code [] ['+', '+', '>', '-', '<', '+']).code_ fuel
            { cp := 1, pc := 0, cells := List.replicate NUM_CELLS 0 }
            { stdin := [], stdout := [] } =
          .returned true 0
            { cp := 1, pc := (generate_code [] ['+', '+', '>', '-', '<', '+']).code_.length,
              cells := t } { stdin := [], stdout := [] }) ∧
      (∀ fuel, ['+', '+', '>', '-', '<', '+'].length < fuel →
        execute_all (unfolded ['+', '+', '>', '-', '<', '+']) fuel
            { cp := 1, pc := 0, cells := List.replicate NUM_CELLS 0 }
            { stdin := [], stdout := [] } =
          .returned true 0
            { cp := 1, pc := (unfolded ['+', '+', '>', '-', '<', '+']).length, cells := t }
            { stdin := [], stdout := [] }) :=
  ⟨by decide, by decide, List.length_replicate _ _, by decide,
    by rw [List.length_replicate]; unfold NUM_CELLS; decide,
    folding_transparent ['+', '+', '>', '-', '<', '+']
      { cp := 1, pc := 0, cells := List.replicate NUM_CELLS 0 } { stdin := [], stdout := [] }
      (by decide) (by decide) rfl (List.length_replicate _ _) (by decide)
      (by rw [List.length_replicate]; unfold NUM_CELLS; decide)⟩

/-! ## C7: the zero-loop rule -/

theorem generate_loop_gt (k : Nat) : ∀ (rest : List Char) (i : Nat) (code_ : List bf_instr_t)
    (stk : List Nat) (x : Int),
    generate_loop (List.replicate k '>' ++ rest) i code_ stk (wrap_int16 x) =
      generate_loop rest (i + k) code_ stk (wrap_int16 (x + k)) := by
  induction k with
  | zero => intro rest i code_ stk x; simp
  | succ k ih =>
    intro rest i code_ stk x
    rw [List.replicate_succ, List.cons_append, generate_loop_cons]
    simp only [Char.reduceEq, if_false, if_true]
    rw [wrap_int16_succ, ih]
    congr 1
    · omega
    · push_cast; ring_nf

theorem generate_loop_zero (body : Char) (hbody : body = '-' ∨ body = '+') (i : Nat)
    (code_ : List bf_instr_t) (off : Int) :
    generate_loop ['[', body, ']'] i code_ [] off =
      { ok := true, code_ := code_ ++ [mk_zero off], clog := none } := by
  rw [generate_loop_cons]
  simp only [Char.reduceEq, if_false, if_true, or_self, hbody, and_self, generate_loop_nil]

theorem move_cp_eq (b : bf_t) (k : Nat) (h : b.cp + k < 65536) :
    move_cp b (k : Int) = b.cp + k := by
  unfold move_cp
  omega

theorem list_set_getD_self (t : List Nat) (p : Nat) (h : t.getD p 0 = 0) : t.set p 0 = t := by
  apply List.ext_getElem?
  intro n
  rw [List.getElem?_set]
  split
  · subst_vars
    split
    · rename_i hp
      simp only [List.getD_eq_getElem?_getD, List.getElem?_eq_getElem hp,
        Option.getD_some] at h
      rw [List.getElem?_eq_getElem hp, h]
    · rename_i hp
      rw [List.getElem?_eq_none (by omega)]
  · rfl

theorem unrecognised_loop_bwd (kk : Int) (val : Nat) (c : Console) (cp : Nat) (t : List Nat)
    (hcp : cp < t.length) (hcp2 : cp < 65536) :
    exec_one (unrecognised_loop kk val) { cp := cp, pc := 2, cells := t } c =
      some ({ cp := cp, pc := if t.getD cp 0 = 0 then 3 else 1, cells := t }, c) := by
  have hmv : move_cp { cp := cp, pc := 2, cells := t } 0 = cp := by
    have := move_cp_eq { cp := cp, pc := 2, cells := t } 0 (by simpa using hcp2)
    simpa using this
  have hget : (unrecognised_loop kk val)[2]? =
      some { op := .JMP_BWD, val := 0, cell := 0, dest := 1 } := rfl
  unfold exec_one
  simp only [hget, dispatch, hmv, if_pos hcp]
  by_cases h0 : t.getD cp 0 = 0
  · rw [if_pos h0, if_pos h0]
  · rw [if_neg h0, if_neg h0]

theorem unrecognised_loop_inc (kk : Int) (val : Nat) (c : Console) (cp : Nat) (t : List Nat)
    (hcp : cp < t.length) :
    exec_one (unrecognised_loop kk val) { cp := cp, pc := 1, cells := t } c =
      some ({ cp := cp, pc := 2, cells := t.set cp ((t.getD cp 0 + val) % 256) }, c) := by
  have hci : cell_index { cp := cp, pc := 1, cells := t } 0 = some cp := by
    simp [cell_index, hcp]
  have hget : (unrecognised_loop kk val)[1]? = some (mk_inc_cell val 0) := rfl
  unfold exec_one
  simp only [hget, dispatch, mk_inc_cell, hci]

theorem unrecognised_loop_fwd (k val : Nat) (c : Console) (cp : Nat) (t : List Nat)
    (hcp : cp + k < t.length) (hcp2 : cp + k < 65536) :
    exec_one (unrecognised_loop (k : Int) val) { cp := cp, pc := 0, cells := t } c =
      some ({ cp := cp + k, pc := if t.getD (cp + k) 0 ≠ 0 then 1 else 3, cells := t }, c) := by
  have hmv : move_cp { cp := cp, pc := 0, cells := t } (k : Int) = cp + k :=
    move_cp_eq { cp := cp, pc := 0, cells := t } k hcp2
  have hget : (unrecognised_loop (k : Int) val)[0]? =
      some { op := .JMP_FWD, val := 0, cell := (k : Int), dest := 3 } := rfl
  unfold exec_one
  simp only [hget, dispatch, hmv, if_pos hcp]
  by_cases h0 : t.getD (cp + k) 0 ≠ 0
  · rw [if_pos h0, if_pos h0]
  · rw [if_neg h0, if_neg h0]

/-- The loop body and back jump of the unrecognised loop, entered at the `JMP_BWD` with a byte
in the current cell that reaches zero after `n` more additions of `val`: the run leaves
the loop with the cell at zero and the rest of the tape as it was. -/
theorem unrecognised_loop_spin (kk : Int) (val : Nat) (c : Console) (cp : Nat) :
    ∀ (n : Nat) (t : List Nat), cp < t.length → cp < 65536 → t.getD cp 0 < 256 →
      (t.getD cp 0 + n * val) % 256 = 0 →
      ∃ m, run_steps (unrecognised_loop kk val) m { cp := cp, pc := 2, cells := t } c =
        some ({ cp := cp, pc := 3, cells := t.set cp 0 }, c) := by
  intro n
  induction n with
  | zero =>
    intro t hcp hcp2 hw hz
    have hw0 : t.getD cp 0 = 0 := by
      simp only [Nat.zero_mul, Nat.add_zero] at hz; omega
    refine ⟨1, ?_⟩
    simp only [run_steps, unrecognised_loop_bwd kk val c cp t hcp hcp2, if_pos hw0,
      list_set_getD_self t cp hw0]
  | succ n ih =>
    intro t hcp hcp2 hw hz
    by_cases hw0 : t.getD cp 0 = 0
    · refine ⟨1, ?_⟩
      simp only [run_steps, unrecognised_loop_bwd kk val c cp t hcp hcp2, if_pos hw0,
        list_set_getD_self t cp hw0]
    · have hcp3 : cp < (t.set cp ((t.getD cp 0 + val) % 256)).length := by simpa using hcp
      have hget : (t.set cp ((t.getD cp 0 + val) % 256)).getD cp 0 =
          (t.getD cp 0 + val) % 256 := by
        simp [List.getElem?_set_self hcp]
      obtain ⟨m, hm⟩ := ih (t.set cp ((t.getD cp 0 + val) % 256)) hcp3 hcp2
        (by rw [hget]; exact Nat.mod_lt _ (by decide))
        (by rw [hget]
            have e2 : (n + 1) * val = n * val + val := by ring
            rw [e2] at hz
            omega)
      refine ⟨m + 2, ?_⟩
      rw [List.set_set] at hm
      simp only [run_steps, unrecognised_loop_bwd kk val c cp t hcp hcp2, if_neg hw0,
        unrecognised_loop_inc kk val c cp t hcp]
      exact hm


/-- C7: `k` times `>` followed by `[-]` or `[+]` is translated to the single instruction
`ZERO` with `cell = k`; from the start of the program, with cell `cp + k` inside a tape of
`NUM_CELLS` cells, running it sets that cell to zero, changes no other cell and returns
`true`, and the unrecognised `JMP_FWD` / `INC_CELL` / `JMP_BWD` loop also runs to completion
and leaves the same tape. -/
theorem zero_loop_transparent (k : Nat) (body : Char) (bf_ : bf_t) (con : Console)
    (hbody : body = '-' ∨ body = '+') (hpc : bf_.pc = 0)
    (htape : bf_.cells.length = NUM_CELLS) (hcell : bf_.cp + k < bf_.cells.length) :
    generate_code [] (List.replicate k '>' ++ ['[', body, ']']) =
      { ok := true, code_ := [mk_zero (k : Int)], clog := none } ∧
    (∀ fuel, 1 < fuel →
      execute_all (generate_code [] (List.replicate k '>' ++ ['[', body, ']'])).code_ fuel
          bf_ con =
        .returned true 0
          { cp := bf_.cp, pc := 1, cells := bf_.cells.set (bf_.cp + k) 0 } con) ∧
    (∃ fuel,
      execute_all (unrecognised_loop (k : Int) (delta_of body)) fuel bf_ con =
        .returned true 0
          { cp := bf_.cp + k, pc := 3, cells := bf_.cells.set (bf_.cp + k) 0 } con) := by
  obtain ⟨cp, pc, t⟩ := bf_
  simp only at hpc htape hcell ⊢
  subst hpc
  have hk : (k : Int) ≤ 32767 := by unfold NUM_CELLS at htape; omega
  have hgen : generate_code [] (List.replicate k '>' ++ ['[', body, ']']) =
      { ok := true, code_ := [mk_zero (k : Int)], clog := none } := by
    unfold generate_code
    have h0 : (0 : Int) = wrap_int16 0 := by decide
    rw [h0, generate_loop_gt, generate_loop_zero body hbody]
    rw [wrap_int16_id (by omega) (by omega)]
    simp
  refine ⟨hgen, ?_, ?_⟩
  · intro fuel hfuel
    rw [hgen]
    have hci : cell_index { cp := cp, pc := 0, cells := t } (k : Int) = some (cp + k) := by
      unfold cell_index
      rw [if_pos ⟨by omega, by simp only []; omega⟩]
      simp only [Option.some.injEq]
      omega
    have hrun : run_steps [mk_zero (k : Int)] 1 { cp := cp, pc := 0, cells := t } con =
        some ({ cp := cp, pc := 1, cells := t.set (cp + k) 0 }, con) := by
      simp only [run_steps, exec_one, List.getElem?_cons_zero, dispatch, mk_zero, hci]
    exact execute_tmpl_true_of_finished _ 0 1 fuel 0 _ con _ con hrun (by simp) hfuel
  · have h1 : cp + k < 65536 := by unfold NUM_CELLS at htape; omega
    have hf := unrecognised_loop_fwd k (delta_of body) con cp t hcell h1
    by_cases hv : t.getD (cp + k) 0 = 0
    · refine ⟨2, ?_⟩
      have hrun : run_steps (unrecognised_loop (k : Int) (delta_of body)) 1
          { cp := cp, pc := 0, cells := t } con =
          some ({ cp := cp + k, pc := 3, cells := t.set (cp + k) 0 }, con) := by
        simp only [run_steps, hf, if_neg (not_not.2 hv), list_set_getD_self t (cp + k) hv]
      exact execute_tmpl_true_of_finished _ 0 1 2 0 _ con _ con hrun
        (by simp [unrecognised_loop]) (by omega)
    · have hinc := unrecognised_loop_inc (k : Int) (delta_of body) con (cp + k) t hcell
      have hlen2 : cp + k < (t.set (cp + k) ((t.getD (cp + k) 0 + delta_of body) % 256)).length := by
        simpa using hcell
      have hget : (t.set (cp + k) ((t.getD (cp + k) 0 + delta_of body) % 256)).getD (cp + k) 0 =
          (t.getD (cp + k) 0 + delta_of body) % 256 := by
        simp [List.getElem?_set_self hcell]
      have hw : (t.getD (cp + k) 0 + delta_of body) % 256 < 256 := Nat.mod_lt _ (by decide)
      obtain ⟨n, hn⟩ : ∃ n, ((t.getD (cp + k) 0 + delta_of body) % 256 +
          n * delta_of body) % 256 = 0 := by
        rcases hbody with rfl | rfl
        · refine ⟨(t.getD (cp + k) 0 + 255) % 256, ?_⟩
          simp only [delta_of, Char.reduceEq, if_false]
          omega
        · refine ⟨256 - (t.getD (cp + k) 0 + 1) % 256, ?_⟩
          simp only [delta_of, if_true]
          omega
      obtain ⟨m, hm⟩ := unrecognised_loop_spin (k : Int) (delta_of body) con (cp + k) n _ hlen2 h1
        (by rw [hget]; exact hw) (by rw [hget]; exact hn)
      rw [List.set_set] at hm
      refine ⟨m + 3, ?_⟩
      have hrun : run_steps (unrecognised_loop (k : Int) (delta_of body)) (m + 2)
          { cp := cp, pc := 0, cells := t } con =
          some ({ cp := cp + k, pc := 3, cells := t.set (cp + k) 0 }, con) := by
        simp only [run_steps, hf, if_pos hv, hinc]
        exact hm
      exact execute_tmpl_true_of_finished _ 0 (m + 2) (m + 3) 0 _ con _ con hrun
        (by simp [unrecognised_loop]) (by omega)

/-- Witness for C7: the text `>>[-]` with the cell pointer at cell 1 of a tape of sevens. -/
theorem zero_loop_transparent_witness :
    ('-' = '-' ∨ '-' = '+') ∧
    (List.replicate NUM_CELLS 7).length = NUM_CELLS ∧
    1 + 2 < (List.replicate NUM_CELLS 7).length ∧
    (generate_code [] (List.replicate 2 '>' ++ ['[', '-', ']']) =
      { ok := true, code_ := [mk_zero ((2 : Nat) : Int)], clog := none } ∧
    (∀ fuel, 1 < fuel →
      execute_all (generate_code [] (List.replicate 2 '>' ++ ['[', '-', ']'])).code_ fuel
          { cp := 1, pc := 0, cells := List.replicate NUM_CELLS 7 }
          { stdin := [], stdout := [] } =
        .returned true 0
          { cp := 1, pc := 1, cells := (List.replicate NUM_CELLS 7).set (1 + 2) 0 }
          { stdin := [], stdout := [] }) ∧
    (∃ fuel,
      execute_all (unrecognised_loop ((2 : Nat) : Int) (delta_of '-')) fuel
          { cp := 1, pc := 0, cells := List.replicate NUM_CELLS 7 }
          { stdin := [], stdout := [] } =
        .returned true 0
          { cp := 1 + 2, pc := 3, cells := (List.replicate NUM_CELLS 7).set (1 + 2) 0 }
          { stdin := [], stdout := [] })) :=
  ⟨Or.inl rfl, List.length_replicate _ _, by rw [List.length_replicate]; decide,
    zero_loop_transparent 2 '-' { cp := 1, pc := 0, cells := List.replicate NUM_CELLS 7 }
      { stdin := [], stdout := [] } (Or.inl rfl) rfl (List.length_replicate _ _)
      (by rw [List.length_replicate]; decide)⟩

/-! ## C12, C13: `reset` and `finished` -/

theorem length_resize (cells : List Nat) (n : Nat) : (resize cells n).length = n := by
  simp only [resize, List.length_append, List.length_take, List.length_replicate]
  omega

theorem reset_eq (self : BF_Interpreter) :
    reset self =
      { code_ := [], bf_ := { cp := 0, pc := 0, cells := List.replicate NUM_CELLS 0 } } := by
  simp only [reset, length_resize]

/-- C12: after `reset()` the program counter and the cell pointer are 0, the tape has exactly
`NUM_CELLS` = 3000 cells, every cell reads 0 and the instruction sequence is empty; a second
`reset()` changes nothing. -/
theorem reset_spec (self : BF_Interpreter) :
    (reset self).bf_.pc = 0 ∧ (reset self).bf_.cp = 0 ∧
    (reset self).bf_.cells.length = NUM_CELLS ∧ NUM_CELLS = 3000 ∧
    (∀ k, k < NUM_CELLS → (reset self).bf_.cells[k]? = some 0) ∧
    (reset self).code_ = [] ∧
    reset (reset self) = reset self := by
  rw [reset_eq (reset self), reset_eq self]
  refine ⟨rfl, rfl, List.length_replicate _ _, rfl, ?_, rfl, rfl⟩
  intro k hk
  simp only [List.getElem?_replicate, if_pos hk]

/-- C13, as stated, fails: after `reset()` on a freshly constructed interpreter `finished()`
returns `true`, not `false`. -/
theorem finished_after_reset_counterexample :
    finished (reset BF_Interpreter.fresh) = true ∧
    ¬ (finished (reset BF_Interpreter.fresh) = false) := by
  rw [reset_eq]
  decide

/-- C13, amended: immediately after `reset()` the call `finished()` returns `true`, for every
interpreter state: the instruction sequence is empty, so the program counter 0 is already at
its end. -/
theorem finished_after_reset (self : BF_Interpreter) : finished (reset self) = true := by
  rw [reset_eq]
  decide

/-! ## C14: characters outside the eight operators -/

/-- C14: `load_code` gives the same result (return value, interpreter afterwards, message) for
a source and for the source with every character other than `+ - < > [ ] . ,` removed; so
putting characters that are not operators anywhere into a source does not change the result. -/
theorem load_code_filter (self : BF_Interpreter) (code : List Char) :
    load_code self (code.filter is_operator) = load_code self code ∧
    ∀ (pre junk post : List Char), (∀ c ∈ junk, is_operator c = false) →
      load_code self (pre ++ junk ++ post) = load_code self (pre ++ post) := by
  constructor
  · simp only [load_code, List.filter_filter, Bool.and_self]
  · intro pre junk post hj
    have : junk.filter is_operator = [] := by
      rw [List.filter_eq_nil_iff]
      intro c hc
      simp [hj c hc]
    simp only [load_code, List.filter_append, this, List.append_nil]

/-! ## Single instructions -/

theorem exec_one_inc (code_ : List bf_instr_t) (b : bf_t) (c : Console) (x : bf_instr_t)
    {k : Nat} (hx : code_[b.pc]? = some x) (hop : x.op = .INC_CELL)
    (hk : cell_index b x.cell = some k) :
    exec_one code_ b c =
      some ({ b with cells := b.cells.set k ((b.cells.getD k 0 + x.val) % 256),
                     pc := (b.pc + 1) % 4294967296 }, c) := by
  simp only [exec_one, hx, dispatch, hop, hk]

theorem exec_one_zero (code_ : List bf_instr_t) (b : bf_t) (c : Console) (x : bf_instr_t)
    {k : Nat} (hx : code_[b.pc]? = some x) (hop : x.op = .ZERO)
    (hk : cell_index b x.cell = some k) :
    exec_one code_ b c =
      some ({ b with cells := b.cells.set k 0, pc := (b.pc + 1) % 4294967296 }, c) := by
  simp only [exec_one, hx, dispatch, hop, hk]

theorem exec_one_put (code_ : List bf_instr_t) (b : bf_t) (c : Console) (x : bf_instr_t)
    {k : Nat} (hx : code_[b.pc]? = some x) (hop : x.op = .PUT)
    (hk : cell_index b x.cell = some k) :
    exec_one code_ b c =
      some ({ b with pc := (b.pc + 1) % 4294967296 },
        { c with stdout := c.stdout ++ [b.cells.getD k 0] }) := by
  simp only [exec_one, hx, dispatch, hop, hk]

theorem exec_one_get (code_ : List bf_instr_t) (b : bf_t) (c : Console) (x : bf_instr_t)
    {k : Nat} (hx : code_[b.pc]? = some x) (hop : x.op = .GET)
    (hk : cell_index b x.cell = some k) :
    exec_one code_ b c =
      some ({ b with cells := b.cells.set k (read_char c).1, pc := (b.pc + 1) % 4294967296 },
        (read_char c).2) := by
  simp only [exec_one, hx, dispatch, hop, hk]

theorem exec_one_jmp_fwd (code_ : List bf_instr_t) (b : bf_t) (c : Console) (x : bf_instr_t)
    (hx : code_[b.pc]? = some x) (hop : x.op = .JMP_FWD)
    (hin : move_cp b x.cell < b.cells.length) :
    exec_one code_ b c =
      some ({ b with cp := move_cp b x.cell,
                     pc := if b.cells.getD (move_cp b x.cell) 0 ≠ 0
                             then (b.pc + 1) % 4294967296 else x.dest }, c) := by
  simp only [exec_one, hx, dispatch, hop, if_pos hin]
  by_cases h0 : b.cells.getD (move_cp b x.cell) 0 ≠ 0
  · rw [if_pos h0, if_pos h0]
  · rw [if_neg h0, if_neg h0]

theorem exec_one_jmp_bwd (code_ : List bf_instr_t) (b : bf_t) (c : Console) (x : bf_instr_t)
    (hx : code_[b.pc]? = some x) (hop : x.op = .JMP_BWD)
    (hin : move_cp b x.cell < b.cells.length) :
    exec_one code_ b c =
      some ({ b with cp := move_cp b x.cell,
                     pc := if b.cells.getD (move_cp b x.cell) 0 = 0
                             then (b.pc + 1) % 4294967296 else x.dest }, c) := by
  simp only [exec_one, hx, dispatch, hop, if_pos hin]
  by_cases h0 : b.cells.getD (move_cp b x.cell) 0 = 0
  · rw [if_pos h0, if_pos h0]
  · rw [if_neg h0, if_neg h0]

theorem run_steps_succ (code_ : List bf_instr_t) (k : Nat) (b b2 : bf_t) (c c2 : Console)
    (h : exec_one code_ b c = some (b2, c2)) :
    run_steps code_ (k + 1) b c = run_steps code_ k b2 c2 := by
  simp only [run_steps, h]

/-- Traces compose: `j + k` executed instructions are `j` followed by `k`. -/
theorem run_steps_add (code_ : List bf_instr_t) : ∀ (j k : Nat) (b b2 : bf_t) (c c2 : Console),
    run_steps code_ j b c = some (b2, c2) →
    run_steps code_ (j + k) b c = run_steps code_ k b2 c2 := by
  intro j
  induction j with
  | zero =>
    intro k b b2 c c2 h
    simp only [run_steps, Option.some.injEq, Prod.mk.injEq] at h
    obtain ⟨rfl, rfl⟩ := h
    simp
  | succ j ih =>
    intro k b b2 c c2 h
    simp only [run_steps] at h
    rcases he : exec_one code_ b c with _ | ⟨b1, c1⟩
    · simp [he] at h
    · simp only [he] at h
      have e : j + 1 + k = (j + k) + 1 := by omega
      rw [e, run_steps_succ code_ _ b b1 c c1 he]
      exact ih k b1 b2 c1 c2 h

/-! ## C15: echoing one byte -/

theorem fresh_load_bf (code : List Char) :
    (load_code BF_Interpreter.fresh code).2.1.bf_ =
      { cp := 0, pc := 0, cells := List.replicate NUM_CELLS 0 } := by
  simp only [load_code, BF_Interpreter.fresh, resize, List.take_nil, List.nil_append,
    List.length_nil, Nat.sub_zero]

theorem cell_index_zero (pc : Nat) (t : List Nat) (ht : 0 < t.length) :
    cell_index { cp := 0, pc := pc, cells := t } 0 = some 0 := by
  unfold cell_index
  rw [if_pos ⟨by simp, by simpa using ht⟩]
  rfl

theorem run_steps_get_put (t : List Nat) (ht : 0 < t.length) (b : Nat) (rest out : List Nat) :
    run_steps [mk_get 0, mk_put 0] 2 { cp := 0, pc := 0, cells := t }
        { stdin := b :: rest, stdout := out } =
      some ({ cp := 0, pc := 2, cells := t.set 0 (b % 256) },
        { stdin := rest, stdout := out ++ [b % 256] }) := by
  have h1 := cell_index_zero 0 t ht
  have h2 := cell_index_zero 1 (t.set 0 (b % 256)) (by simpa using ht)
  have hg : (t.set 0 (b % 256)).getD 0 0 = b % 256 := by
    simp [List.getElem?_set_self ht]
  have e1 := exec_one_get
    ([mk_get 0, mk_put 0])
    { cp := 0, pc := 0, cells := t } { stdin := b :: rest, stdout := out }
    (mk_get 0) rfl rfl h1
  have e2 := exec_one_put
    ([mk_get 0, mk_put 0])
    { cp := 0, pc := 1, cells := t.set 0 (b % 256) } { stdin := rest, stdout := out }
    (mk_put 0) rfl rfl h2
  rw [hg] at e2
  rw [run_steps_succ _ _ _ _ _ _ e1]
  exact run_steps_succ _ 0 _ _ _ _ e2

/-- C15: `,.` is translated to a `GET` and a `PUT` on cell 0; run to completion on the fresh
machine with an input that starts with the byte `b`, it takes exactly that byte from the
input, writes exactly the byte `b` to the output and returns `true` with the program
finished. -/
theorem echo_one_byte (b : Nat) (rest : List Nat) (hb : b < 256) :
    (load_code BF_Interpreter.fresh [',', '.']).1 = true ∧
    (load_code BF_Interpreter.fresh [',', '.']).2.1.code_ = [mk_get 0, mk_put 0] ∧
    ∀ fuel, 2 < fuel →
      execute_all (load_code BF_Interpreter.fresh [',', '.']).2.1.code_ fuel
          (load_code BF_Interpreter.fresh [',', '.']).2.1.bf_
          { stdin := b :: rest, stdout := [] } =
        .returned true 0
          { cp := 0, pc := 2, cells := (List.replicate NUM_CELLS 0).set 0 b }
          { stdin := rest, stdout := [b] } := by
  have hcode : (load_code BF_Interpreter.fresh [',', '.']).2.1.code_ = [mk_get 0, mk_put 0] := by
    decide
  refine ⟨by decide, hcode, ?_⟩
  intro fuel hfuel
  rw [fresh_load_bf, hcode]
  have hrun := run_steps_get_put (List.replicate NUM_CELLS 0)
    (by rw [List.length_replicate]; decide) b rest []
  rw [Nat.mod_eq_of_lt hb] at hrun
  exact execute_tmpl_true_of_finished _ 0 2 fuel 0 _ _ _ _ hrun (by simp) hfuel

/-- Witness for C15 with the byte 65. -/
theorem echo_one_byte_witness :
    65 < 256 ∧
    ((load_code BF_Interpreter.fresh [',', '.']).1 = true ∧
    (load_code BF_Interpreter.fresh [',', '.']).2.1.code_ = [mk_get 0, mk_put 0] ∧
    ∀ fuel, 2 < fuel →
      execute_all (load_code BF_Interpreter.fresh [',', '.']).2.1.code_ fuel
          (load_code BF_Interpreter.fresh [',', '.']).2.1.bf_
          { stdin := 65 :: [], stdout := [] } =
        .returned true 0
          { cp := 0, pc := 2, cells := (List.replicate NUM_CELLS 0).set 0 65 }
          { stdin := [], stdout := [65] }) :=
  ⟨by decide, echo_one_byte 65 [] (by decide)⟩

/-! ## C16: the endless loop `+[]` -/

theorem plus_loop_code :
    (load_code BF_Interpreter.fresh ['+', '[', ']']).2.1.code_ =
      [mk_inc_cell 1 0, { op := .JMP_FWD, val := 0, cell := 0, dest := 3 },
        { op := .JMP_BWD, val := 0, cell := 0, dest := 2 }] := by
  decide

theorem move_cp_zero (pc : Nat) (t : List Nat) :
    move_cp { cp := 0, pc := pc, cells := t } 0 = 0 := by
  unfold move_cp; simp

/-- The trace of `+[]` on a tape whose first cell is zero: the `INC_CELL`, the `JMP_FWD`, and
from then on the `JMP_BWD` at index 2, which jumps to itself. -/
theorem plus_loop_trace (t : List Nat) (ht : 0 < t.length) (h0 : t.getD 0 0 = 0)
    (con : Console) :
    run_steps [mk_inc_cell 1 0, { op := .JMP_FWD, val := 0, cell := 0, dest := 3 },
        { op := .JMP_BWD, val := 0, cell := 0, dest := 2 }] 1
        { cp := 0, pc := 0, cells := t } con =
      some ({ cp := 0, pc := 1, cells := t.set 0 1 }, con) ∧
    ∀ k, 2 ≤ k → run_steps [mk_inc_cell 1 0, { op := .JMP_FWD, val := 0, cell := 0, dest := 3 },
        { op := .JMP_BWD, val := 0, cell := 0, dest := 2 }] k
        { cp := 0, pc := 0, cells := t } con =
      some ({ cp := 0, pc := 2, cells := t.set 0 1 }, con) := by
  have ht1 : 0 < (t.set 0 1).length := by simpa using ht
  have hg : (t.set 0 1).getD 0 0 = 1 := by simp [List.getElem?_set_self ht]
  have e1 := exec_one_inc
    ([mk_inc_cell 1 0, { op := .JMP_FWD, val := 0, cell := 0, dest := 3 },
        { op := .JMP_BWD, val := 0, cell := 0, dest := 2 }])
    { cp := 0, pc := 0, cells := t } con
    (mk_inc_cell 1 0) rfl rfl
    (cell_index_zero 0 t ht)
  simp only [h0, mk_inc_cell] at e1
  have e2 := exec_one_jmp_fwd
    ([mk_inc_cell 1 0, { op := .JMP_FWD, val := 0, cell := 0, dest := 3 },
        { op := .JMP_BWD, val := 0, cell := 0, dest := 2 }])
    { cp := 0, pc := 1, cells := t.set 0 1 } con
    ({ op := .JMP_FWD, val := 0, cell := 0, dest := 3 }) rfl rfl
    (by rw [move_cp_zero]; exact ht1)
  simp only [move_cp_zero, hg] at e2
  have e3 := exec_one_jmp_bwd
    ([mk_inc_cell 1 0, { op := .JMP_FWD, val := 0, cell := 0, dest := 3 },
        { op := .JMP_BWD, val := 0, cell := 0, dest := 2 }])
    { cp := 0, pc := 2, cells := t.set 0 1 } con
    ({ op := .JMP_BWD, val := 0, cell := 0, dest := 2 }) rfl rfl
    (by rw [move_cp_zero]; exact ht1)
  simp only [move_cp_zero, hg] at e3
  have e1' : exec_one [mk_inc_cell 1 0, { op := .JMP_FWD, val := 0, cell := 0, dest := 3 },
        { op := .JMP_BWD, val := 0, cell := 0, dest := 2 }]
        { cp := 0, pc := 0, cells := t } con =
      some ({ cp := 0, pc := 1, cells := t.set 0 1 }, con) := e1
  have e2' : exec_one [mk_inc_cell 1 0, { op := .JMP_FWD, val := 0, cell := 0, dest := 3 },
        { op := .JMP_BWD, val := 0, cell := 0, dest := 2 }]
        { cp := 0, pc := 1, cells := t.set 0 1 } con =
      some ({ cp := 0, pc := 2, cells := t.set 0 1 }, con) := e2
  have e3' : exec_one [mk_inc_cell 1 0, { op := .JMP_FWD, val := 0, cell := 0, dest := 3 },
        { op := .JMP_BWD, val := 0, cell := 0, dest := 2 }]
        { cp := 0, pc := 2, cells := t.set 0 1 } con =
      some ({ cp := 0, pc := 2, cells := t.set 0 1 }, con) := e3
  refine ⟨by rw [run_steps_succ _ 0 _ _ _ _ e1']; rfl, ?_⟩
  intro k2 hk2
  obtain ⟨k, rfl⟩ : ∃ k, k2 = k + 2 := ⟨k2 - 2, by omega⟩
  clear hk2
  rw [show k + 2 = (k + 1) + 1 from rfl, run_steps_succ _ _ _ _ _ _ e1',
    run_steps_succ _ _ _ _ _ _ e2']
  induction k with
  | zero => rfl
  | succ k ih => rw [run_steps_succ _ _ _ _ _ _ e3']; exact ih


theorem replicate_getD_zero : (List.replicate NUM_CELLS 0).getD 0 0 = 0 := by
  rw [List.getD_eq_getElem?_getD, List.getElem?_replicate]
  split <;> rfl

/-- C16, as stated, fails: on the fresh machine the program counter of `+[]` does not go back
and forth between the two jumps.  After 1, 2, 3, 4 and 5 executed instructions it is at
1, 2, 2, 2, 2: the `JMP_FWD` at index 1 is visited once, then the run rests on the `JMP_BWD`
at index 2. -/
theorem plus_loop_oscillation_counterexample :
    (run_steps (load_code BF_Interpreter.fresh ['+', '[', ']']).2.1.code_ 1
        (load_code BF_Interpreter.fresh ['+', '[', ']']).2.1.bf_
        { stdin := [], stdout := [] }).map (fun s => s.1.pc) = some 1 ∧
    (run_steps (load_code BF_Interpreter.fresh ['+', '[', ']']).2.1.code_ 2
        (load_code BF_Interpreter.fresh ['+', '[', ']']).2.1.bf_
        { stdin := [], stdout := [] }).map (fun s => s.1.pc) = some 2 ∧
    (run_steps (load_code BF_Interpreter.fresh ['+', '[', ']']).2.1.code_ 3
        (load_code BF_Interpreter.fresh ['+', '[', ']']).2.1.bf_
        { stdin := [], stdout := [] }).map (fun s => s.1.pc) = some 2 ∧
    (run_steps (load_code BF_Interpreter.fresh ['+', '[', ']']).2.1.code_ 4
        (load_code BF_Interpreter.fresh ['+', '[', ']']).2.1.bf_
        { stdin := [], stdout := [] }).map (fun s => s.1.pc) = some 2 ∧
    (run_steps (load_code BF_Interpreter.fresh ['+', '[', ']']).2.1.code_ 5
        (load_code BF_Interpreter.fresh ['+', '[', ']']).2.1.bf_
        { stdin := [], stdout := [] }).map (fun s => s.1.pc) = some 2 := by
  rw [plus_loop_code, fresh_load_bf]
  have ht : 0 < (List.replicate NUM_CELLS 0).length := by
    rw [List.length_replicate]; decide
  obtain ⟨h1, h2⟩ := plus_loop_trace (List.replicate NUM_CELLS 0) ht replicate_getD_zero
    { stdin := [], stdout := [] }
  rw [h1, h2 2 (by decide), h2 3 (by decide), h2 4 (by decide), h2 5 (by decide)]
  simp only [Option.map_some', and_self]

/-- C16, amended: `+[]` is translated to `INC_CELL` (val 1, cell 0), `JMP_FWD` (dest 3) and
`JMP_BWD` (dest 2).  On the fresh machine `execute(5)` returns `true` with `finished()`
false, and so does `execute(n)` for every budget; from the second executed instruction on
the program counter rests on the `JMP_BWD` at index 2, whose `dest` is its own index. -/
theorem plus_loop_spec (con : Console) :
    (load_code BF_Interpreter.fresh ['+', '[', ']']).1 = true ∧
    (load_code BF_Interpreter.fresh ['+', '[', ']']).2.1.code_ =
      [mk_inc_cell 1 0, { op := .JMP_FWD, val := 0, cell := 0, dest := 3 },
        { op := .JMP_BWD, val := 0, cell := 0, dest := 2 }] ∧
    execute (load_code BF_Interpreter.fresh ['+', '[', ']']).2.1.code_ 5
        (load_code BF_Interpreter.fresh ['+', '[', ']']).2.1.bf_ con =
      .returned true 5 { cp := 0, pc := 2, cells := (List.replicate NUM_CELLS 0).set 0 1 } con ∧
    (∀ n, n < 4294967296 → ∃ b,
      execute (load_code BF_Interpreter.fresh ['+', '[', ']']).2.1.code_ n
        (load_code BF_Interpreter.fresh ['+', '[', ']']).2.1.bf_ con = .returned true n b con ∧
      finished { code_ := (load_code BF_Interpreter.fresh ['+', '[', ']']).2.1.code_, bf_ := b }
        = false) ∧
    (∀ k, 2 ≤ k →
      run_steps (load_code BF_Interpreter.fresh ['+', '[', ']']).2.1.code_ k
        (load_code BF_Interpreter.fresh ['+', '[', ']']).2.1.bf_ con =
      some ({ cp := 0, pc := 2, cells := (List.replicate NUM_CELLS 0).set 0 1 }, con)) := by
  have ht : 0 < (List.replicate NUM_CELLS 0).length := by
    rw [List.length_replicate]; decide
  obtain ⟨h1, h2⟩ := plus_loop_trace (List.replicate NUM_CELLS 0) ht replicate_getD_zero con
  refine ⟨by decide, plus_loop_code, ?_, ?_, ?_⟩
  · rw [plus_loop_code, fresh_load_bf]
    exact execute_tmpl_false_of_budget _ 5 (by decide) 5 6 0 _ con _ con (h2 5 (by decide)) (by decide)
      (by decide)
  · intro n hn
    rw [plus_loop_code, fresh_load_bf]
    rcases n with _ | _ | n
    · exact ⟨_, execute_tmpl_false_of_budget _ 0 hn 0 1 0 _ con _ con rfl rfl (by decide),
        by decide⟩
    · exact ⟨_, execute_tmpl_false_of_budget _ 1 hn 1 2 0 _ con _ con h1 rfl (by decide),
        by decide⟩
    · exact ⟨_, execute_tmpl_false_of_budget _ (n + 2) hn (n + 2) (n + 3) 0 _ con _ con
        (h2 (n + 2) (by omega)) (by omega) (by omega), by decide⟩
  · intro k hk
    rw [plus_loop_code, fresh_load_bf]
    exact h2 k hk

/-! ## C17: the "Hello" program -/

/-- Without a `GET` the streams do not influence an executed instruction: the input is left
alone and the output only grows. -/
theorem exec_one_no_get (code_ : List bf_instr_t) (hg : ∀ x ∈ code_, x.op ≠ .GET) (b : bf_t)
    (inp out : List Nat) :
    exec_one code_ b { stdin := inp, stdout := out } =
      (exec_one code_ b { stdin := [], stdout := [] }).map
        (fun p => (p.1, { stdin := inp, stdout := out ++ p.2.stdout })) := by
  unfold exec_one
  rcases hx : (code_[b.pc]?) with _ | x
  · rfl
  · have hxg := hg x (List.getElem?_mem hx)
    simp only [dispatch]
    rcases hop : x.op with _ | _ | _ | _ | _ | _ | _
    · rfl
    · simp only []
      rcases cell_index b x.cell with _ | k
      · rfl
      · simp
    · simp only []
      by_cases h1 : move_cp b x.cell < b.cells.length
      · rw [if_pos h1, if_pos h1]
        by_cases h2 : b.cells.getD (move_cp b x.cell) 0 ≠ 0
        · rw [if_pos h2, if_pos h2]; simp
        · rw [if_neg h2, if_neg h2]; simp
      · rw [if_neg h1, if_neg h1]; rfl
    · simp only []
      by_cases h1 : move_cp b x.cell < b.cells.length
      · rw [if_pos h1, if_pos h1]
        by_cases h2 : b.cells.getD (move_cp b x.cell) 0 = 0
        · rw [if_pos h2, if_pos h2]; simp
        · rw [if_neg h2, if_neg h2]; simp
      · rw [if_neg h1, if_neg h1]; rfl
    · simp only []
      rcases cell_index b x.cell with _ | k
      · rfl
      · simp
    · exact absurd hop hxg
    · simp only []
      rcases cell_index b x.cell with _ | k
      · rfl
      · simp

theorem run_steps_no_get (code_ : List bf_instr_t) (hg : ∀ x ∈ code_, x.op ≠ .GET) :
    ∀ (k : Nat) (b : bf_t) (inp out : List Nat),
    run_steps code_ k b { stdin := inp, stdout := out } =
      (run_steps code_ k b { stdin := [], stdout := [] }).map
        (fun p => (p.1, { stdin := inp, stdout := out ++ p.2.stdout })) := by
  intro k
  induction k with
  | zero => intro b inp out; simp [run_steps]
  | succ k ih =>
    intro b inp out
    simp only [run_steps]
    rw [exec_one_no_get code_ hg b inp out]
    rcases he : exec_one code_ b { stdin := [], stdout := [] } with _ | ⟨b1, c1⟩
    · rfl
    · obtain ⟨i1, o1⟩ := c1
      simp only [Option.map_some']
      rw [ih b1 inp (out ++ o1), ih b1 i1 o1]
      rcases run_steps code_ k b1 { stdin := [], stdout := [] } with _ | ⟨b2, c2⟩
      · rfl
      · simp [List.append_assoc]


/-- The run of the "Hello" program on the fresh machine with empty streams: after 314 executed
instructions the program counter is 26, the number of instructions, and the output is
`Hello`. -/
theorem hello_run :
    (match run_steps
        (load_code BF_Interpreter.fresh
          "++++++++[>++++[>++>+++>+++>+<<<<-]>+>+>->>+[<]<-]>>.>---.+++++++..+++.".toList).2.1.code_
        314
        (load_code BF_Interpreter.fresh
          "++++++++[>++++[>++>+++>+++>+<<<<-]>+>+>->>+[<]<-]>>.>---.+++++++..+++.".toList).2.1.bf_
        { stdin := [], stdout := [] } with
      | some (b, c) => decide (b.pc = 26) && decide (c.stdout = [72, 101, 108, 108, 111])
      | none => false) = true := by
  decide!

theorem hello_code :
    (load_code BF_Interpreter.fresh
      "++++++++[>++++[>++>+++>+++>+<<<<-]>+>+>->>+[<]<-]>>.>---.+++++++..+++.".toList).1 = true ∧
    (load_code BF_Interpreter.fresh
      "++++++++[>++++[>++>+++>+++>+<<<<-]>+>+>->>+[<]<-]>>.>---.+++++++..+++.".toList).2.1.code_.length
      = 26 ∧
    (∀ x ∈ (load_code BF_Interpreter.fresh
      "++++++++[>++++[>++>+++>+++>+<<<<-]>+>+>->>+[<]<-]>>.>---.+++++++..+++.".toList).2.1.code_,
      x.op ≠ .GET ∧ x.op ≠ .INVALID) := by
  decide!

/-- C17: for the "Hello" source `load_code` succeeds and emits no `INVALID` instruction, and
`execute_all` on the fresh machine with `NUM_CELLS` cells terminates, whatever the streams:
after 314 executed instructions the program is finished, the call returns `true`, no tape
access was outside the tape, the input is untouched and `Hello` has been written. -/
theorem hello_terminates (con : Console) :
    (load_code BF_Interpreter.fresh
      "++++++++[>++++[>++>+++>+++>+<<<<-]>+>+>->>+[<]<-]>>.>---.+++++++..+++.".toList).1 = true ∧
    (∀ x ∈ (load_code BF_Interpreter.fresh
      "++++++++[>++++[>++>+++>+++>+<<<<-]>+>+>->>+[<]<-]>>.>---.+++++++..+++.".toList).2.1.code_,
      x.op ≠ .INVALID) ∧
    ∃ b : bf_t,
      run_steps
        (load_code BF_Interpreter.fresh
          "++++++++[>++++[>++>+++>+++>+<<<<-]>+>+>->>+[<]<-]>>.>---.+++++++..+++.".toList).2.1.code_
        314
        (load_code BF_Interpreter.fresh
          "++++++++[>++++[>++>+++>+++>+<<<<-]>+>+>->>+[<]<-]>>.>---.+++++++..+++.".toList).2.1.bf_
        con = some (b, { stdin := con.stdin,
                         stdout := con.stdout ++ [72, 101, 108, 108, 111] }) ∧
      finished
        { bf_ := b,
          code_ := (load_code BF_Interpreter.fresh
            "++++++++[>++++[>++>+++>+++>+<<<<-]>+>+>->>+[<]<-]>>.>---.+++++++..+++.".toList).2.1.code_ }
        = true ∧
      ∀ fuel, 314 < fuel →
        execute_all
          (load_code BF_Interpreter.fresh
            "++++++++[>++++[>++>+++>+++>+<<<<-]>+>+>->>+[<]<-]>>.>---.+++++++..+++.".toList).2.1.code_
          fuel
          (load_code BF_Interpreter.fresh
            "++++++++[>++++[>++>+++>+++>+<<<<-]>+>+>->>+[<]<-]>>.>---.+++++++..+++.".toList).2.1.bf_
          con = .returned true 0 b { stdin := con.stdin,
                                     stdout := con.stdout ++ [72, 101, 108, 108, 111] } := by
  obtain ⟨hok, hlen, hops⟩ := hello_code
  have hrun := hello_run
  obtain ⟨inp, out⟩ := con
  refine ⟨hok, fun x hx => (hops x hx).2, ?_⟩
  generalize (load_code BF_Interpreter.fresh
    "++++++++[>++++[>++>+++>+++>+<<<<-]>+>+>->>+[<]<-]>>.>---.+++++++..+++.".toList).2.1.code_
    = code at hlen hops hrun ⊢
  generalize (load_code BF_Interpreter.fresh
    "++++++++[>++++[>++>+++>+++>+<<<<-]>+>+>->>+[<]<-]>>.>---.+++++++..+++.".toList).2.1.bf_
    = st at hrun ⊢
  have hind := run_steps_no_get code (fun x hx => (hops x hx).1) 314 st inp out
  rcases h0 : run_steps code 314 st { stdin := [], stdout := [] } with _ | ⟨b, c⟩
  · rw [h0] at hrun; simp at hrun
  · rw [h0] at hrun hind
    simp only [Bool.and_eq_true, decide_eq_true_eq] at hrun
    simp only [Option.map_some', hrun.2] at hind
    refine ⟨b, hind, ?_, ?_⟩
    · simp [finished, hlen, hrun.1]
    · intro fuel hfuel
      exact execute_tmpl_true_of_finished code 0 314 fuel 0 st _ b _ hind
        (by rw [hlen, hrun.1]) hfuel

/-! ## C11: `execute` and `execute_all` agree -/

/-- A bounded run whose trace ends with the program counter at or past the end of `code_`
within the budget returns `true` there. -/
theorem execute_tmpl_false_of_finished (code_ : List bf_instr_t) (n : Nat)
    (hn : n < 4294967296) :
    ∀ (m fuel i : Nat) (b : bf_t) (c : Console) (b2 : bf_t) (c2 : Console),
      run_steps code_ m b c = some (b2, c2) → code_.length ≤ b2.pc → i + m ≤ n → m < fuel →
      execute_tmpl false code_ n fuel i b c = .returned true (i + m) b2 c2 := by
  intro m
  induction m with
  | zero =>
    intro fuel i b c b2 c2 hrun hfin him hf
    obtain ⟨fuel, rfl⟩ : ∃ f, fuel = f + 1 := ⟨fuel - 1, by omega⟩
    simp only [run_steps, Option.some.injEq, Prod.mk.injEq] at hrun
    obtain ⟨rfl, rfl⟩ := hrun
    have hc : cond false code_ n i b = false := by simp [cond]; omega
    simp [execute_tmpl, hc]
  | succ m ih =>
    intro fuel i b c b2 c2 hrun hfin him hf
    obtain ⟨fuel, rfl⟩ : ∃ f, fuel = f + 1 := ⟨fuel - 1, by omega⟩
    simp only [run_steps] at hrun
    rcases he : exec_one code_ b c with _ | ⟨b1, c1⟩
    · simp [he] at hrun
    · simp only [he] at hrun
      obtain ⟨instr, hi, hd, hpc⟩ := exec_one_some he
      have hc : cond false code_ n i b = true := by simp [cond]; omega
      have hinc : inc false i = i + 1 := by simp [inc]; omega
      simp only [execute_tmpl, hc, hi, hd, hinc, if_true]
      rw [ih fuel (i + 1) b1 c1 b2 c2 hrun hfin (by omega) (by omega)]
      congr 1; omega

/-- C11: when `execute(n)` returns with the program finished, or returns `false` because it
met an `INVALID` instruction, then `execute_all` from the same state terminates with the
same return value, program counter, cell pointer, tape and streams, and so does `execute(m)`
for every budget `m ≥ n`. -/
theorem execute_agrees_with_execute_all (code_ : List bf_instr_t) (n : Nat) (bf_ : bf_t)
    (con : Console) (r : Bool) (i : Nat) (b : bf_t) (c : Console) (hn : n < 4294967296)
    (h : execute code_ n bf_ con = .returned r i b c)
    (hstop : finished { code_ := code_, bf_ := b } = true ∨ r = false) :
    (∀ fuel, i < fuel → execute_all code_ fuel bf_ con = .returned r 0 b c) ∧
    (∀ m, n ≤ m → m < 4294967296 → execute code_ m bf_ con = .returned r i b c) := by
  obtain ⟨k, hk, hi, hrun, hinv⟩ :=
    (execute_tmpl_false_sound code_ n hn n (n + 1) 0 bf_ con (by omega) (by omega)).2 r i b c h
  simp only [Nat.zero_add] at hi
  subst hi
  cases r with
  | false =>
    obtain ⟨hlt, hat⟩ := hinv rfl
    refine ⟨fun fuel hf => ?_, fun m hm hm2 => ?_⟩
    · exact execute_tmpl_true_of_invalid code_ 0 i fuel 0 bf_ con b c hrun hat hf
    · have := execute_tmpl_false_of_invalid code_ m hm2 i (m + 1) 0 bf_ con b c hrun hat
        (by omega) (by omega)
      simpa using this
  | true =>
    have hfin : code_.length ≤ b.pc := by
      rcases hstop with hf | hf
      · simpa [finished] using hf
      · simp at hf
    refine ⟨fun fuel hf => ?_, fun m hm hm2 => ?_⟩
    · exact execute_tmpl_true_of_finished code_ 0 i fuel 0 bf_ con b c hrun hfin hf
    · have := execute_tmpl_false_of_finished code_ m hm2 i (m + 1) 0 bf_ con b c hrun hfin
        (by omega) (by omega)
      simpa using this

/-- Witness for C11: `,.` run with budget 2 and then compared with `execute_all` and larger
budgets. -/
theorem execute_agrees_with_execute_all_witness :
    2 < 4294967296 ∧
    execute [mk_get 0, mk_put 0] 2 { cp := 0, pc := 0, cells := [0, 0] }
        { stdin := [65], stdout := [] } =
      .returned true 2 { cp := 0, pc := 2, cells := [65, 0] } { stdin := [], stdout := [65] } ∧
    (finished { code_ := [mk_get 0, mk_put 0], bf_ := { cp := 0, pc := 2, cells := [65, 0] } }
        = true ∨ true = false) ∧
    ((∀ fuel, 2 < fuel →
        execute_all [mk_get 0, mk_put 0] fuel { cp := 0, pc := 0, cells := [0, 0] }
            { stdin := [65], stdout := [] } =
          .returned true 0 { cp := 0, pc := 2, cells := [65, 0] }
            { stdin := [], stdout := [65] }) ∧
     (∀ m, 2 ≤ m → m < 4294967296 →
        execute [mk_get 0, mk_put 0] m { cp := 0, pc := 0, cells := [0, 0] }
            { stdin := [65], stdout := [] } =
          .returned true 2 { cp := 0, pc := 2, cells := [65, 0] }
            { stdin := [], stdout := [65] })) :=
  ⟨by decide, by decide, Or.inl (by decide),
    execute_agrees_with_execute_all [mk_get 0, mk_put 0] 2 { cp := 0, pc := 0, cells := [0, 0] }
      { stdin := [65], stdout := [] } true 2 { cp := 0, pc := 2, cells := [65, 0] }
      { stdin := [], stdout := [65] } (by decide) (by decide) (Or.inl (by decide))⟩

/-! ## C18: one `INC_CELL` per run of equal offsets -/

/-- C18, as stated, fails: the text `+>+<+` gives three `INC_CELL` instructions, and the first
and the third both have `cell = 0`. -/
theorem one_inc_per_cell_counterexample :
    (generate_code [] ['+', '>', '+', '<', '+']).ok = true ∧
    (generate_code [] ['+', '>', '+', '<', '+']).code_ =
      [mk_inc_cell 1 0, mk_inc_cell 1 1, mk_inc_cell 1 0] ∧
    ¬ (∀ (i j : Nat) (x y : bf_instr_t),
        (generate_code [] ['+', '>', '+', '<', '+']).code_[i]? = some x →
        (generate_code [] ['+', '>', '+', '<', '+']).code_[j]? = some y →
        x.op = .INC_CELL → y.op = .INC_CELL → i ≠ j → x.cell ≠ y.cell) := by
  refine ⟨by decide, by decide, fun h => ?_⟩
  exact h 0 2 (mk_inc_cell 1 0) (mk_inc_cell 1 0) (by decide) (by decide) rfl rfl (by decide) rfl

theorem chain_getElem? {R : bf_instr_t → bf_instr_t → Prop} :
    ∀ (l : List bf_instr_t), l.Chain' R →
      ∀ (i : Nat) (x y : bf_instr_t), l[i]? = some x → l[i + 1]? = some y → R x y := by
  intro l
  induction l with
  | nil => intro _ i x y hx; simp at hx
  | cons a t ih =>
    intro hc i x y hx hy
    cases t with
    | nil => simp at hy
    | cons b t2 =>
      rw [List.chain'_cons] at hc
      cases i with
      | zero =>
        simp only [List.getElem?_cons_zero, Option.some.injEq] at hx
        simp only [Nat.zero_add, List.getElem?_cons_succ, List.getElem?_cons_zero,
          Option.some.injEq] at hy
        subst hx; subst hy
        exact hc.1
      | succ i =>
        rw [List.getElem?_cons_succ] at hx hy
        exact ih hc.2 i x y hx hy

/-- While the loop reads a text over `+ - < >`, `code_` stays a list of `INC_CELL`
instructions in which neighbours have different `cell` fields. -/
theorem generate_loop_neighbours : ∀ (s : List Char) (i : Nat) (code_ : List bf_instr_t)
    (off : Int), (∀ c ∈ s, c = '+' ∨ c = '-' ∨ c = '<' ∨ c = '>') →
    (∀ x ∈ code_, x.op = .INC_CELL) → code_.Chain' (fun x y => x.cell ≠ y.cell) →
    (generate_loop s i code_ [] off).ok = true ∧
    (∀ x ∈ (generate_loop s i code_ [] off).code_, x.op = .INC_CELL) ∧
    (generate_loop s i code_ [] off).code_.Chain' (fun x y => x.cell ≠ y.cell) := by
  intro s
  induction s with
  | nil =>
    intro i code_ off _ hop hch
    simp only [generate_loop_nil]
    exact ⟨trivial, hop, hch⟩
  | cons c rest ih =>
    intro i code_ off hs hop hch
    have hrest : ∀ c ∈ rest, c = '+' ∨ c = '-' ∨ c = '<' ∨ c = '>' :=
      fun c hc => hs c (List.mem_cons_of_mem _ hc)
    have hplus : ∀ d : Nat,
        (if can_fold code_ off = true then
          generate_loop rest (i + 1) (fold_back code_ d) [] off
        else generate_loop rest (i + 1) (code_ ++ [mk_inc_cell d off]) [] off).ok = true ∧
        (∀ x ∈ (if can_fold code_ off = true then
          generate_loop rest (i + 1) (fold_back code_ d) [] off
        else generate_loop rest (i + 1) (code_ ++ [mk_inc_cell d off]) [] off).code_,
          x.op = .INC_CELL) ∧
        (if can_fold code_ off = true then
          generate_loop rest (i + 1) (fold_back code_ d) [] off
        else generate_loop rest (i + 1) (code_ ++ [mk_inc_cell d off]) [] off).code_.Chain'
          (fun x y => x.cell ≠ y.cell) := by
      intro d
      by_cases hf : can_fold code_ off = true
      · rw [if_pos hf]
        obtain ⟨init, last, rfl, hlop, hlcell, hfb⟩ := can_fold_spec d hf
        rw [hfb]
        apply ih
        · exact hrest
        · intro x hx
          rcases List.mem_append.1 hx with hx | hx
          · exact hop x (List.mem_append_left _ hx)
          · rw [List.mem_singleton.1 hx]; exact hlop
        · rw [List.chain'_append] at hch ⊢
          refine ⟨hch.1, List.chain'_singleton _, ?_⟩
          intro x hx y hy
          simp only [List.head?_cons, Option.mem_def, Option.some.injEq] at hy
          subst hy
          exact hch.2.2 x hx last (by simp)
      · rw [if_neg hf]
        apply ih
        · exact hrest
        · intro x hx
          rcases List.mem_append.1 hx with hx | hx
          · exact hop x hx
          · rw [List.mem_singleton.1 hx]; rfl
        · rw [List.chain'_append]
          refine ⟨hch, List.chain'_singleton _, ?_⟩
          intro x hx y hy
          simp only [List.head?_cons, Option.mem_def, Option.some.injEq] at hy hx
          subst hy
          intro hce
          apply hf
          unfold can_fold
          rw [hx]
          simp only [mk_inc_cell] at hce
          simp [hop x (List.mem_of_getLast?_eq_some hx), hce]
    rw [generate_loop_cons]
    rcases hs c (List.mem_cons_self _ _) with rfl | rfl | rfl | rfl
    · simp only [Char.reduceEq, if_false, if_true, true_or]
      exact hplus _
    · simp only [Char.reduceEq, if_false, if_true, or_true]
      exact hplus _
    · simp only [Char.reduceEq, if_false, if_true]
      exact ih _ _ _ hrest hop hch
    · simp only [Char.reduceEq, if_false, if_true]
      exact ih _ _ _ hrest hop hch

/-- C18, amended: for a text over `+ - < >` shorter than `2^32` characters (the range in
which the 32-bit loop counter of `generate_code` does not wrap), `generate_code` (from an
empty instruction sequence) succeeds, emits only `INC_CELL` instructions, and no two
neighbouring instructions carry the same `cell` field. -/
theorem no_equal_neighbours (s : List Char) (hlen : s.length < 4294967296)
    (hs : ∀ c ∈ s, c = '+' ∨ c = '-' ∨ c = '<' ∨ c = '>') :
    (generate_code [] s).ok = true ∧
    (∀ x ∈ (generate_code [] s).code_, x.op = .INC_CELL) ∧
    ∀ (i : Nat) (x y : bf_instr_t), (generate_code [] s).code_[i]? = some x →
      (generate_code [] s).code_[i + 1]? = some y → x.cell ≠ y.cell := by
  have _ := hlen
  obtain ⟨h1, h2, h3⟩ := generate_loop_neighbours s 0 [] 0 hs (by simp) List.chain'_nil
  exact ⟨h1, h2, chain_getElem? _ h3⟩

/-- Witness for the amended C18 at the text `+>+<+`. -/
theorem no_equal_neighbours_witness :
    ['+', '>', '+', '<', '+'].length < 4294967296 ∧
    (∀ c ∈ ['+', '>', '+', '<', '+'], c = '+' ∨ c = '-' ∨ c = '<' ∨ c = '>') ∧
    ((generate_code [] ['+', '>', '+', '<', '+']).ok = true ∧
    (∀ x ∈ (generate_code [] ['+', '>', '+', '<', '+']).code_, x.op = .INC_CELL) ∧
    ∀ (i : Nat) (x y : bf_instr_t),
      (generate_code [] ['+', '>', '+', '<', '+']).code_[i]? = some x →
      (generate_code [] ['+', '>', '+', '<', '+']).code_[i + 1]? = some y → x.cell ≠ y.cell) :=
  ⟨by decide, by decide, no_equal_neighbours ['+', '>', '+', '<', '+'] (by decide) (by decide)⟩

/-! ## C20: the program counter stays within the instruction sequence -/

theorem dispatch_next_pc {instr : bf_instr_t} {b b2 : bf_t} {c c2 : Console}
    (hd : dispatch instr b c = .next b2 c2) :
    b2.pc = (b.pc + 1) % 4294967296 ∨
      ((instr.op = .JMP_FWD ∨ instr.op = .JMP_BWD) ∧ b2.pc = instr.dest) := by
  unfold dispatch at hd
  split at hd
  · split at hd
    · simp only [Dispatch.next.injEq] at hd
      obtain ⟨rfl, _⟩ := hd
      exact Or.inl rfl
    · simp at hd
  · rename_i hop
    split at hd
    · split at hd
      · simp only [Dispatch.next.injEq] at hd
        obtain ⟨rfl, _⟩ := hd
        exact Or.inl rfl
      · simp only [Dispatch.next.injEq] at hd
        obtain ⟨rfl, _⟩ := hd
        exact Or.inr ⟨Or.inl hop, rfl⟩
    · simp at hd
  · rename_i hop
    split at hd
    · split at hd
      · simp only [Dispatch.next.injEq] at hd
        obtain ⟨rfl, _⟩ := hd
        exact Or.inl rfl
      · simp only [Dispatch.next.injEq] at hd
        obtain ⟨rfl, _⟩ := hd
        exact Or.inr ⟨Or.inr hop, rfl⟩
    · simp at hd
  · split at hd
    · simp only [Dispatch.next.injEq] at hd
      obtain ⟨rfl, _⟩ := hd
      exact Or.inl rfl
    · simp at hd
  · split at hd
    · simp only [Dispatch.next.injEq] at hd
      obtain ⟨rfl, _⟩ := hd
      exact Or.inl rfl
    · simp at hd
  · split at hd
    · simp only [Dispatch.next.injEq] at hd
      obtain ⟨rfl, _⟩ := hd
      exact Or.inl rfl
    · simp at hd
  · simp at hd

/-- With an empty stack the translator invariant bounds every jump target: a `JMP_BWD`
points inside the sequence, a `JMP_FWD` at most one past its end. -/
theorem gen_inv_dest_le {cs : List bf_instr_t} (hinv : gen_inv cs []) (i : Nat)
    (x : bf_instr_t) (hx : cs[i]? = some x) :
    (x.op = .JMP_BWD → x.dest < cs.length) ∧ (x.op = .JMP_FWD → x.dest ≤ cs.length) := by
  have h1 := op_at_of_getElem? hx
  have h2 := dest_at_of_getElem? hx
  constructor
  · intro hop
    rw [hop] at h1
    obtain ⟨j, hp⟩ := hinv.bwd i h1
    have hlt := is_pair_lt hp
    obtain ⟨_, _, _, _, hdj⟩ := hp
    rw [h2] at hdj
    have := Option.some.inj hdj
    omega
  · intro hop
    rw [hop] at h1
    rcases hinv.fwd i h1 with hmem | ⟨j, hp⟩
    · simp at hmem
    · have hlt := is_pair_lt hp
      obtain ⟨_, _, hd, _, _⟩ := hp
      rw [h2] at hd
      have := Option.some.inj hd
      omega

theorem exec_one_pc_le {cs : List bf_instr_t} (hinv : gen_inv cs []) {b b2 : bf_t}
    {c c2 : Console} (h : exec_one cs b c = some (b2, c2)) : b2.pc ≤ cs.length := by
  obtain ⟨instr, hi, hd, hpc⟩ := exec_one_some h
  rcases dispatch_next_pc hd with h1 | ⟨hop, h1⟩
  · rw [h1]
    exact le_trans (Nat.mod_le _ _) hpc
  · rw [h1]
    have := gen_inv_dest_le hinv b.pc instr hi
    rcases hop with hop | hop
    · exact this.2 hop
    · exact le_of_lt (this.1 hop)

theorem run_steps_pc_le {cs : List bf_instr_t} (hinv : gen_inv cs []) :
    ∀ (k : Nat) (b b2 : bf_t) (c c2 : Console), run_steps cs k b c = some (b2, c2) →
      b.pc ≤ cs.length → b2.pc ≤ cs.length := by
  intro k
  induction k with
  | zero =>
    intro b b2 c c2 h hpc
    simp only [run_steps, Option.some.injEq, Prod.mk.injEq] at h
    obtain ⟨rfl, _⟩ := h
    exact hpc
  | succ k ih =>
    intro b b2 c c2 h hpc
    simp only [run_steps] at h
    rcases he : exec_one cs b c with _ | ⟨b1, c1⟩
    · simp [he] at h
    · simp only [he] at h
      exact ih b1 b2 c1 c2 h (exec_one_pc_le hinv he)

/-- C20: in the instruction sequence of an accepted source every `JMP_BWD` has `dest` below
the number of instructions and every `JMP_FWD` has `dest` at most that number; so every
state on a trace that starts at `pc = 0`, and every state in which `execute_all` or
`execute` returns, has `pc` at most the number of instructions, and `finished()` holds
there exactly when `pc` equals that number. -/
theorem pc_within_code (code : List Char) (bf_ : bf_t) (con : Console)
    (hlen : (code.filter is_operator).length < 4294967296)
    (hok : (load_code BF_Interpreter.fresh code).1 = true) (hpc : bf_.pc = 0) :
    (∀ (i : Nat) (x : bf_instr_t), (load_code BF_Interpreter.fresh code).2.1.code_[i]? = some x →
      (x.op = .JMP_BWD → x.dest < (load_code BF_Interpreter.fresh code).2.1.code_.length) ∧
      (x.op = .JMP_FWD → x.dest ≤ (load_code BF_Interpreter.fresh code).2.1.code_.length)) ∧
    (∀ (k : Nat) (b : bf_t) (c : Console),
      run_steps (load_code BF_Interpreter.fresh code).2.1.code_ k bf_ con = some (b, c) →
      b.pc ≤ (load_code BF_Interpreter.fresh code).2.1.code_.length ∧
      (finished { code_ := (load_code BF_Interpreter.fresh code).2.1.code_, bf_ := b } = true ↔
        b.pc = (load_code BF_Interpreter.fresh code).2.1.code_.length)) ∧
    (∀ (fuel : Nat) (r : Bool) (i : Nat) (b : bf_t) (c : Console),
      execute_all (load_code BF_Interpreter.fresh code).2.1.code_ fuel bf_ con =
        .returned r i b c →
      b.pc ≤ (load_code BF_Interpreter.fresh code).2.1.code_.length ∧
      (finished { code_ := (load_code BF_Interpreter.fresh code).2.1.code_, bf_ := b } = true ↔
        b.pc = (load_code BF_Interpreter.fresh code).2.1.code_.length)) ∧
    (∀ (n : Nat) (r : Bool) (i : Nat) (b : bf_t) (c : Console), n < 4294967296 →
      execute (load_code BF_Interpreter.fresh code).2.1.code_ n bf_ con = .returned r i b c →
      b.pc ≤ (load_code BF_Interpreter.fresh code).2.1.code_.length ∧
      (finished { code_ := (load_code BF_Interpreter.fresh code).2.1.code_, bf_ := b } = true ↔
        b.pc = (load_code BF_Interpreter.fresh code).2.1.code_.length)) := by
  have hinv := load_code_inv code hlen hok
  generalize (load_code BF_Interpreter.fresh code).2.1.code_ = cs at hinv ⊢
  have hfin : ∀ b : bf_t, b.pc ≤ cs.length →
      (b.pc ≤ cs.length ∧ (finished { code_ := cs, bf_ := b } = true ↔ b.pc = cs.length)) := by
    intro b hb
    refine ⟨hb, ?_⟩
    simp only [finished, ge_iff_le, decide_eq_true_eq]
    omega
  have hrun : ∀ (k : Nat) (b : bf_t) (c : Console), run_steps cs k bf_ con = some (b, c) →
      b.pc ≤ cs.length :=
    fun k b c h => run_steps_pc_le hinv k bf_ b con c h (by omega)
  refine ⟨fun i x hx => gen_inv_dest_le hinv i x hx, fun k b c h => hfin b (hrun k b c h), ?_, ?_⟩
  · intro fuel r i b c h
    obtain ⟨_, m, _, hm, _⟩ := execute_tmpl_true_sound cs 0 fuel 0 bf_ con r i b c h
    exact hfin b (hrun m b c hm)
  · intro n r i b c hn h
    obtain ⟨m, _, _, hm, _⟩ :=
      (execute_tmpl_false_sound cs n hn n (n + 1) 0 bf_ con (by omega) (by omega)).2 r i b c h
    exact hfin b (hrun m b c hm)

/-- Witness for C20 at the source `+[>[-]<[.]-]`, started in the machine state left by `load_code`, with
empty input. -/
theorem pc_within_code_witness :
    (("+[>[-]<[.]-]".toList).filter is_operator).length < 4294967296 ∧
    (load_code BF_Interpreter.fresh "+[>[-]<[.]-]".toList).1 = true ∧
    (load_code BF_Interpreter.fresh "+[>[-]<[.]-]".toList).2.1.bf_.pc = 0 ∧
    ((∀ (i : Nat) (x : bf_instr_t), (load_code BF_Interpreter.fresh "+[>[-]<[.]-]".toList).2.1.code_[i]? = some x →
      (x.op = .JMP_BWD → x.dest < (load_code BF_Interpreter.fresh "+[>[-]<[.]-]".toList).2.1.code_.length) ∧
      (x.op = .JMP_FWD → x.dest ≤ (load_code BF_Interpreter.fresh "+[>[-]<[.]-]".toList).2.1.code_.length)) ∧
    (∀ (k : Nat) (b : bf_t) (c : Console),
      run_steps (load_code BF_Interpreter.fresh "+[>[-]<[.]-]".toList).2.1.code_ k (load_code BF_Interpreter.fresh "+[>[-]<[.]-]".toList).2.1.bf_ ⟨[], []⟩ = some (b, c) →
      b.pc ≤ (load_code BF_Interpreter.fresh "+[>[-]<[.]-]".toList).2.1.code_.length ∧
      (finished { code_ := (load_code BF_Interpreter.fresh "+[>[-]<[.]-]".toList).2.1.code_, bf_ := b } = true ↔
        b.pc = (load_code BF_Interpreter.fresh "+[>[-]<[.]-]".toList).2.1.code_.length)) ∧
    (∀ (fuel : Nat) (r : Bool) (i : Nat) (b : bf_t) (c : Console),
      execute_all (load_code BF_Interpreter.fresh "+[>[-]<[.]-]".toList).2.1.code_ fuel (load_code BF_Interpreter.fresh "+[>[-]<[.]-]".toList).2.1.bf_ ⟨[], []⟩ =
        .returned r i b c →
      b.pc ≤ (load_code BF_Interpreter.fresh "+[>[-]<[.]-]".toList).2.1.code_.length ∧
      (finished { code_ := (load_code BF_Interpreter.fresh "+[>[-]<[.]-]".toList).2.1.code_, bf_ := b } = true ↔
        b.pc = (load_code BF_Interpreter.fresh "+[>[-]<[.]-]".toList).2.1.code_.length)) ∧
    (∀ (n : Nat) (r : Bool) (i : Nat) (b : bf_t) (c : Console), n < 4294967296 →
      execute (load_code BF_Interpreter.fresh "+[>[-]<[.]-]".toList).2.1.code_ n (load_code BF_Interpreter.fresh "+[>[-]<[.]-]".toList).2.1.bf_ ⟨[], []⟩ = .returned r i b c →
      b.pc ≤ (load_code BF_Interpreter.fresh "+[>[-]<[.]-]".toList).2.1.code_.length ∧
      (finished { code_ := (load_code BF_Interpreter.fresh "+[>[-]<[.]-]".toList).2.1.code_, bf_ := b } = true ↔
        b.pc = (load_code BF_Interpreter.fresh "+[>[-]<[.]-]".toList).2.1.code_.length))) :=
  ⟨by decide, by decide, rfl,
    pc_within_code "+[>[-]<[.]-]".toList (load_code BF_Interpreter.fresh "+[>[-]<[.]-]".toList).2.1.bf_ ⟨[], []⟩ (by decide) (by decide) rfl⟩

/-! ## Rounds of the translator loop, one equation per character -/

theorem generate_loop_put (rest : List Char) (i : Nat) (code_ : List bf_instr_t)
    (stk : List Nat) (off : Int) :
    generate_loop ('.' :: rest) i code_ stk off =
      generate_loop rest (i + 1) (code_ ++ [mk_put off]) stk off := by
  rw [generate_loop_cons, if_pos rfl]

theorem generate_loop_get (rest : List Char) (i : Nat) (code_ : List bf_instr_t)
    (stk : List Nat) (off : Int) :
    generate_loop (',' :: rest) i code_ stk off =
      generate_loop rest (i + 1) (code_ ++ [mk_get off]) stk off := by
  rw [generate_loop_cons]
  simp only [Char.reduceEq, if_false, if_true]

theorem generate_loop_left (rest : List Char) (i : Nat) (code_ : List bf_instr_t)
    (stk : List Nat) (off : Int) :
    generate_loop ('<' :: rest) i code_ stk off =
      generate_loop rest (i + 1) code_ stk (wrap_int16 (off - 1)) := by
  rw [generate_loop_cons]
  simp only [Char.reduceEq, if_false, if_true]

theorem generate_loop_right (rest : List Char) (i : Nat) (code_ : List bf_instr_t)
    (stk : List Nat) (off : Int) :
    generate_loop ('>' :: rest) i code_ stk off =
      generate_loop rest (i + 1) code_ stk (wrap_int16 (off + 1)) := by
  rw [generate_loop_cons]
  simp only [Char.reduceEq, if_false, if_true]

theorem generate_loop_inc_fold (c : Char) (hc : c = '+' ∨ c = '-') (rest : List Char) (i : Nat)
    (code_ : List bf_instr_t) (stk : List Nat) (off : Int) (hf : can_fold code_ off = true) :
    generate_loop (c :: rest) i code_ stk off =
      generate_loop rest (i + 1) (fold_back code_ (delta_of c)) stk off := by
  rw [generate_loop_cons]
  rcases hc with rfl | rfl <;> simp only [Char.reduceEq, if_false, if_true, or_true, true_or, hf]

theorem generate_loop_inc_new (c : Char) (hc : c = '+' ∨ c = '-') (rest : List Char) (i : Nat)
    (code_ : List bf_instr_t) (stk : List Nat) (off : Int) (hf : can_fold code_ off = false) :
    generate_loop (c :: rest) i code_ stk off =
      generate_loop rest (i + 1) (code_ ++ [mk_inc_cell (delta_of c) off]) stk off := by
  rw [generate_loop_cons]
  rcases hc with rfl | rfl <;>
    simp only [Char.reduceEq, if_false, if_true, or_true, true_or, hf, Bool.false_eq_true]

theorem generate_loop_zero_loop (a : Char) (ha : a = '-' ∨ a = '+') (rest2 : List Char) (i : Nat)
    (code_ : List bf_instr_t) (stk : List Nat) (off : Int) :
    generate_loop ('[' :: a :: ']' :: rest2) i code_ stk off =
      generate_loop rest2 (i + 3) (code_ ++ [mk_zero off]) stk off := by
  rw [generate_loop_cons]
  simp only [Char.reduceEq, if_false, if_true, ha, and_self, or_self]

theorem generate_loop_open (rest : List Char) (hz : ¬ zero_ahead rest) (i : Nat)
    (code_ : List bf_instr_t) (stk : List Nat) (off : Int) :
    generate_loop ('[' :: rest) i code_ stk off =
      generate_loop rest (i + 1) (code_ ++ [mk_jmp_fwd off])
        ((code_.length % 4294967296) :: stk) 0 := by
  rw [generate_loop_cons]
  simp only [Char.reduceEq, if_false, if_true, or_self]
  rcases rest with _ | ⟨a, _ | ⟨b, rest2⟩⟩
  · rfl
  · rfl
  · have : ¬ ((a = '-' ∨ a = '+') ∧ b = ']') := by
      rintro ⟨ha, rfl⟩
      exact hz ⟨a, rest2, ha, rfl⟩
    simp only [this, if_false]

theorem generate_loop_close (rest : List Char) (i : Nat) (code_ : List bf_instr_t)
    (t : Nat) (stk : List Nat) (off : Int) :
    generate_loop (']' :: rest) i code_ (t :: stk) off =
      generate_loop rest (i + 1)
        (patch_dest (code_ ++ [mk_jmp_bwd off ((t + 1) % 4294967296)]) t) stk 0 := by
  rw [generate_loop_cons]
  simp only [Char.reduceEq, if_false, if_true, or_self]

theorem generate_loop_close_empty (rest : List Char) (i : Nat) (code_ : List bf_instr_t)
    (off : Int) :
    (generate_loop (']' :: rest) i code_ [] off).ok = false := by
  rw [generate_loop_cons]
  simp only [Char.reduceEq, if_false, if_true, or_self]

theorem generate_loop_comment (c : Char) (hc : is_operator c = false) (rest : List Char)
    (i : Nat) (code_ : List bf_instr_t) (stk : List Nat) (off : Int) :
    generate_loop (c :: rest) i code_ stk off = generate_loop rest (i + 1) code_ stk off := by
  rw [generate_loop_cons]
  simp only [is_operator, Bool.or_eq_false_iff, decide_eq_false_iff_not] at hc
  obtain ⟨⟨⟨⟨⟨⟨⟨h1, h2⟩, h3⟩, h4⟩, h5⟩, h6⟩, h7⟩, h8⟩ := hc
  simp only [h1, h2, h3, h4, h5, h6, h7, h8, if_false, or_self]

/-! ## Instructions already emitted keep their place -/

theorem getElem?_fold_back_ne (cs : List bf_instr_t) (v k : Nat) (h : k + 1 ≠ cs.length) :
    (fold_back cs v)[k]? = cs[k]? := by
  unfold fold_back
  cases hb : cs.getLast? with
  | none => rfl
  | some b =>
    rw [List.getLast?_eq_getElem?] at hb
    have := (List.getElem?_eq_some.1 hb).1
    simp only []
    rw [List.getElem?_set_ne]
    omega

theorem getElem?_patch_dest_ne (cs : List bf_instr_t) (t k : Nat) (h : k ≠ t) :
    (patch_dest cs t)[k]? = cs[k]? := by
  unfold patch_dest
  rcases hb : (cs[t]?) with _ | b
  · rfl
  · simp only []
    rw [List.getElem?_set_ne]
    omega

theorem cell_at_snoc (cs : List bf_instr_t) (x : bf_instr_t) (i : Nat) (h : i < cs.length) :
    cell_at (cs ++ [x]) i = cell_at cs i := by
  unfold cell_at
  rw [List.getElem?_append_left h]

theorem cell_at_fold_back (cs : List bf_instr_t) (v i : Nat) :
    cell_at (fold_back cs v) i = cell_at cs i := by
  unfold fold_back
  cases hb : cs.getLast? with
  | none => rfl
  | some b =>
    rw [List.getLast?_eq_getElem?] at hb
    simp only [cell_at, List.getElem?_set]
    split
    · subst_vars
      rw [hb]
      have := (List.getElem?_eq_some.1 hb).1
      simp [this]
    · rfl

theorem cell_at_patch_dest (cs : List bf_instr_t) (t i : Nat) :
    cell_at (patch_dest cs t) i = cell_at cs i := by
  unfold patch_dest
  rcases hb : (cs[t]?) with _ | b
  · simp [hb]
  · simp only [hb]
    simp only [cell_at, List.getElem?_set]
    split
    · subst_vars
      rw [hb]
      have := (List.getElem?_eq_some.1 hb).1
      simp [this]
    · rfl

theorem can_fold_last {code_ : List bf_instr_t} {off : Int} (h : can_fold code_ off = true) :
    ∃ x, code_.getLast? = some x ∧ x.op = .INC_CELL ∧ x.cell = off := by
  unfold can_fold at h
  rcases hb : code_.getLast? with _ | last
  · simp [hb] at h
  · simp only [hb, Bool.and_eq_true, decide_eq_true_eq] at h
    exact ⟨last, rfl, h.1, h.2⟩

theorem op_at_last {code_ : List bf_instr_t} {x : bf_instr_t} (h : code_.getLast? = some x) :
    0 < code_.length ∧ code_[code_.length - 1]? = some x := by
  rw [List.getLast?_eq_getElem?] at h
  exact ⟨by have := (List.getElem?_eq_some.1 h).1; omega, h⟩

/-- The operation and the cell of an emitted instruction never change: later rounds only
add to the amount of the last `INC_CELL` and fill in the target of a pending `JMP_FWD`. -/
theorem generate_loop_keeps (code : List Char) (i : Nat) (code_ : List bf_instr_t)
    (jmp_stack : List Nat) (cell_offset : Int) (k : Nat) (hk : k < code_.length) :
    op_at (generate_loop code i code_ jmp_stack cell_offset).code_ k = op_at code_ k ∧
    cell_at (generate_loop code i code_ jmp_stack cell_offset).code_ k = cell_at code_ k := by
  induction code, i, code_, jmp_stack, cell_offset using generate_loop.induct
  case case1 => simp [generate_loop_nil]
  case case2 => simp [generate_loop_nil]
  case case3 rest i code_ stk off ih =>
    rw [generate_loop_put]
    have := ih (by simp; omega)
    rw [op_at_snoc, if_pos hk, cell_at_snoc _ _ _ hk] at this
    exact this
  case case4 rest i code_ stk off _ ih =>
    rw [generate_loop_get]
    have := ih (by simp; omega)
    rw [op_at_snoc, if_pos hk, cell_at_snoc _ _ _ hk] at this
    exact this
  case case5 rest i code_ stk off _ _ ih =>
    rw [generate_loop_left]
    exact ih hk
  case case6 rest i code_ stk off _ _ _ ih =>
    rw [generate_loop_right]
    exact ih hk
  case case7 c rest i code_ stk off h1 h2 h3 h4 h5 h6 ih =>
    rw [generate_loop_inc_fold c h5 _ _ _ _ _ h6]
    have := ih (by rw [length_fold_back]; exact hk)
    rw [op_at_fold_back, cell_at_fold_back] at this
    exact this
  case case8 c rest i code_ stk off h1 h2 h3 h4 h5 h6 ih =>
    rw [generate_loop_inc_new c h5 _ _ _ _ _ (by simpa using h6)]
    have := ih (by simp; omega)
    rw [op_at_snoc, if_pos hk, cell_at_snoc _ _ _ hk] at this
    exact this
  case case9 i code_ stk off a b rest2 hz _ _ _ _ _ ih =>
    obtain ⟨ha, rfl⟩ := hz
    rw [generate_loop_zero_loop a ha]
    have := ih (by simp; omega)
    rw [op_at_snoc, if_pos hk, cell_at_snoc _ _ _ hk] at this
    exact this
  case case10 i code_ stk off a b rest2 hz _ _ _ _ _ ih =>
    rw [generate_loop_open _ (by rintro ⟨a2, r2, ha2, he⟩; simp only [List.cons.injEq] at he; exact hz ⟨he.1 ▸ ha2, he.2.1⟩)]
    have := ih (by simp; omega)
    rw [op_at_snoc, if_pos hk, cell_at_snoc _ _ _ hk] at this
    exact this
  case case11 i code_ stk off rest1 hz _ _ _ _ _ ih =>
    rw [generate_loop_cons]
    simp only [Char.reduceEq, if_false, if_true, or_self]
    have := ih (by simp; omega)
    rw [op_at_snoc, if_pos hk, cell_at_snoc _ _ _ hk] at this
    exact this
  case case12 rest i code_ off _ _ _ _ _ _ =>
    rw [generate_loop_cons]
    simp only [Char.reduceEq, if_false, if_true, or_self, and_self]
  case case13 rest i code_ off top tail _ _ _ _ _ _ ih =>
    rw [generate_loop_close]
    have := ih (by rw [length_patch_dest]; simp; omega)
    rw [op_at_patch_dest, cell_at_patch_dest, op_at_snoc, if_pos hk, cell_at_snoc _ _ _ hk]
      at this
    exact this
  case case14 c rest i code_ stk off h1 h2 h3 h4 h5 h6 h7 ih =>
    rw [generate_loop_cons]
    simp only [h1, h2, h3, h4, h5, h6, h7, if_false, if_true]
    exact ih hk

/-- An emitted instruction stays as it is, unless it is a pending `JMP_FWD` (its index is
on the stack) or the last instruction and an `INC_CELL` (a later `+` or `-` may fold into
it). -/
theorem generate_loop_stable (code : List Char) (i : Nat) (code_ : List bf_instr_t)
    (jmp_stack : List Nat) (cell_offset : Int) (k : Nat)
    (hL : code_.length + code.length < 4294967296) (hk : k < code_.length)
    (hs : k ∉ jmp_stack)
    (hlast : ¬ (k + 1 = code_.length ∧ op_at code_ k = some .INC_CELL)) :
    (generate_loop code i code_ jmp_stack cell_offset).code_[k]? = code_[k]? := by
  induction code, i, code_, jmp_stack, cell_offset using generate_loop.induct
  case case1 => simp [generate_loop_nil]
  case case2 => simp [generate_loop_nil]
  case case3 rest i code_ stk off ih =>
    rw [generate_loop_put]
    rw [ih (by simp at hL ⊢; omega) (by simp; omega) hs (by simp; omega),
      List.getElem?_append_left hk]
  case case4 rest i code_ stk off _ ih =>
    rw [generate_loop_get]
    rw [ih (by simp at hL ⊢; omega) (by simp; omega) hs (by simp; omega),
      List.getElem?_append_left hk]
  case case5 rest i code_ stk off _ _ ih =>
    rw [generate_loop_left]
    exact ih (by simp at hL ⊢; omega) hk hs hlast
  case case6 rest i code_ stk off _ _ _ ih =>
    rw [generate_loop_right]
    exact ih (by simp at hL ⊢; omega) hk hs hlast
  case case7 c rest i code_ stk off h1 h2 h3 h4 h5 h6 ih =>
    rw [generate_loop_inc_fold c h5 _ _ _ _ _ h6]
    obtain ⟨x, hx, hop, _⟩ := can_fold_last h6
    obtain ⟨hpos, hx2⟩ := op_at_last hx
    have hne : k + 1 ≠ code_.length := by
      intro he
      apply hlast
      refine ⟨he, ?_⟩
      have : k = code_.length - 1 := by omega
      rw [this, op_at_of_getElem? hx2, hop]
    rw [ih (by simp [length_fold_back] at hL ⊢; omega) (by rw [length_fold_back]; exact hk) hs
      (by rw [length_fold_back]; exact fun h => hne h.1), getElem?_fold_back_ne _ _ _ hne]
  case case8 c rest i code_ stk off h1 h2 h3 h4 h5 h6 ih =>
    rw [generate_loop_inc_new c h5 _ _ _ _ _ (by simpa using h6)]
    rw [ih (by simp at hL ⊢; omega) (by simp; omega) hs (by simp; omega),
      List.getElem?_append_left hk]
  case case9 i code_ stk off a b rest2 hz _ _ _ _ _ ih =>
    obtain ⟨ha, rfl⟩ := hz
    rw [generate_loop_zero_loop a ha]
    rw [ih (by simp at hL ⊢; omega) (by simp; omega) hs (by simp; omega),
      List.getElem?_append_left hk]
  case case10 i code_ stk off a b rest2 hz _ _ _ _ _ ih =>
    rw [generate_loop_open _ (by rintro ⟨a2, r2, ha2, he⟩; simp only [List.cons.injEq] at he; exact hz ⟨he.1 ▸ ha2, he.2.1⟩)]
    have hm : code_.length % 4294967296 = code_.length := Nat.mod_eq_of_lt (by omega)
    rw [ih (by simp at hL ⊢; omega) (by simp; omega)
      (by rw [hm]; simp only [List.mem_cons, not_or]; exact ⟨by omega, hs⟩) (by simp; omega),
      List.getElem?_append_left hk]
  case case11 i code_ stk off rest1 hz _ _ _ _ _ ih =>
    rw [generate_loop_cons]
    simp only [Char.reduceEq, if_false, if_true, or_self]
    have hm : code_.length % 4294967296 = code_.length := Nat.mod_eq_of_lt (by omega)
    rw [ih (by simp at hL ⊢; omega) (by simp; omega)
      (by rw [hm]; simp only [List.mem_cons, not_or]; exact ⟨by omega, hs⟩) (by simp; omega),
      List.getElem?_append_left hk]
  case case12 rest i code_ off _ _ _ _ _ _ =>
    rw [generate_loop_cons]
    simp only [Char.reduceEq, if_false, if_true, or_self]
  case case13 rest i code_ off top tail _ _ _ _ _ _ ih =>
    rw [generate_loop_close]
    simp only [List.mem_cons, not_or] at hs
    rw [ih (by simp [length_patch_dest] at hL ⊢; omega) (by rw [length_patch_dest]; simp; omega)
      hs.2 (by rw [length_patch_dest]; simp; omega), getElem?_patch_dest_ne _ _ _ hs.1,
      List.getElem?_append_left hk]
  case case14 c rest i code_ stk off h1 h2 h3 h4 h5 h6 h7 ih =>
    rw [generate_loop_cons]
    simp only [h1, h2, h3, h4, h5, h6, h7, if_false, if_true]
    exact ih (by simp at hL ⊢; omega) hk hs hlast

/-! ## States of the translator on the way to the final instruction sequence -/

theorem not_zero_ahead_cons {a b : Char} {rest2 : List Char}
    (hz : ¬ ((a = '-' ∨ a = '+') ∧ b = ']')) : ¬ zero_ahead (a :: b :: rest2) := by
  rintro ⟨a2, r2, ha2, he⟩
  simp only [List.cons.injEq] at he
  exact hz ⟨he.1 ▸ ha2, he.2.1⟩

theorem on_path_put {F : List bf_instr_t} {rest : List Char} {i : Nat}
    {code_ : List bf_instr_t} {stk : List Nat} {off : Int}
    (h : on_path F ('.' :: rest) i code_ stk off) :
    on_path F rest (i + 1) (code_ ++ [mk_put off]) stk off := by
  have e := generate_loop_put rest i code_ stk off
  exact ⟨e ▸ h.ok, e ▸ h.out,
    gen_inv_emit h.inv _ (by simp [mk_put]) (by simp [mk_put]) (by simp [mk_put]),
    by have := h.len; simp at this ⊢; omega⟩

theorem on_path_get {F : List bf_instr_t} {rest : List Char} {i : Nat}
    {code_ : List bf_instr_t} {stk : List Nat} {off : Int}
    (h : on_path F (',' :: rest) i code_ stk off) :
    on_path F rest (i + 1) (code_ ++ [mk_get off]) stk off := by
  have e := generate_loop_get rest i code_ stk off
  exact ⟨e ▸ h.ok, e ▸ h.out,
    gen_inv_emit h.inv _ (by simp [mk_get]) (by simp [mk_get]) (by simp [mk_get]),
    by have := h.len; simp at this ⊢; omega⟩

theorem on_path_left {F : List bf_instr_t} {rest : List Char} {i : Nat}
    {code_ : List bf_instr_t} {stk : List Nat} {off : Int}
    (h : on_path F ('<' :: rest) i code_ stk off) :
    on_path F rest (i + 1) code_ stk (wrap_int16 (off - 1)) := by
  have e := generate_loop_left rest i code_ stk off
  exact ⟨e ▸ h.ok, e ▸ h.out, h.inv, by have := h.len; simp at this ⊢; omega⟩

theorem on_path_right {F : List bf_instr_t} {rest : List Char} {i : Nat}
    {code_ : List bf_instr_t} {stk : List Nat} {off : Int}
    (h : on_path F ('>' :: rest) i code_ stk off) :
    on_path F rest (i + 1) code_ stk (wrap_int16 (off + 1)) := by
  have e := generate_loop_right rest i code_ stk off
  exact ⟨e ▸ h.ok, e ▸ h.out, h.inv, by have := h.len; simp at this ⊢; omega⟩

theorem on_path_inc_fold {F : List bf_instr_t} {c : Char} {rest : List Char} {i : Nat}
    {code_ : List bf_instr_t} {stk : List Nat} {off : Int} (hc : c = '+' ∨ c = '-')
    (hf : can_fold code_ off = true) (h : on_path F (c :: rest) i code_ stk off) :
    on_path F rest (i + 1) (fold_back code_ (delta_of c)) stk off := by
  have e := generate_loop_inc_fold c hc rest i code_ stk off hf
  exact ⟨e ▸ h.ok, e ▸ h.out, gen_inv_fold h.inv _,
    by have := h.len; simp [length_fold_back] at this ⊢; omega⟩

theorem on_path_inc_new {F : List bf_instr_t} {c : Char} {rest : List Char} {i : Nat}
    {code_ : List bf_instr_t} {stk : List Nat} {off : Int} (hc : c = '+' ∨ c = '-')
    (hf : can_fold code_ off = false) (h : on_path F (c :: rest) i code_ stk off) :
    on_path F rest (i + 1) (code_ ++ [mk_inc_cell (delta_of c) off]) stk off := by
  have e := generate_loop_inc_new c hc rest i code_ stk off hf
  exact ⟨e ▸ h.ok, e ▸ h.out,
    gen_inv_emit h.inv _ (by simp [mk_inc_cell]) (by simp [mk_inc_cell]) (by simp [mk_inc_cell]),
    by have := h.len; simp at this ⊢; omega⟩

theorem on_path_zero_loop {F : List bf_instr_t} {a : Char} {rest2 : List Char} {i : Nat}
    {code_ : List bf_instr_t} {stk : List Nat} {off : Int} (ha : a = '-' ∨ a = '+')
    (h : on_path F ('[' :: a :: ']' :: rest2) i code_ stk off) :
    on_path F rest2 (i + 3) (code_ ++ [mk_zero off]) stk off := by
  have e := generate_loop_zero_loop a ha rest2 i code_ stk off
  exact ⟨e ▸ h.ok, e ▸ h.out,
    gen_inv_emit h.inv _ (by simp [mk_zero]) (by simp [mk_zero]) (by simp [mk_zero]),
    by have := h.len; simp at this ⊢; omega⟩

theorem on_path_open {F : List bf_instr_t} {rest : List Char} {i : Nat}
    {code_ : List bf_instr_t} {stk : List Nat} {off : Int} (hz : ¬ zero_ahead rest)
    (h : on_path F ('[' :: rest) i code_ stk off) :
    on_path F rest (i + 1) (code_ ++ [mk_jmp_fwd off]) (code_.length :: stk) 0 := by
  have e := generate_loop_open rest hz i code_ stk off
  have hL : code_.length < 4294967296 := by have := h.len; omega
  have hi := gen_inv_open h.inv off hL
  rw [Nat.mod_eq_of_lt hL] at e hi
  exact ⟨e ▸ h.ok, e ▸ h.out, hi, by have := h.len; simp at this ⊢; omega⟩

theorem on_path_close {F : List bf_instr_t} {rest : List Char} {i : Nat}
    {code_ : List bf_instr_t} {t : Nat} {stk : List Nat} {off : Int}
    (h : on_path F (']' :: rest) i code_ (t :: stk) off) :
    on_path F rest (i + 1) (patch_dest (code_ ++ [mk_jmp_bwd off (t + 1)]) t) stk 0 := by
  have e := generate_loop_close rest i code_ t stk off
  have ht : t < code_.length := op_at_lt (h.inv.pending t (List.mem_cons_self _ _))
  have hL : code_.length + 1 < 4294967296 := by have := h.len; simp at this; omega
  have hi := gen_inv_close h.inv off hL
  rw [Nat.mod_eq_of_lt (by omega)] at e hi
  exact ⟨e ▸ h.ok, e ▸ h.out, hi, by have := h.len; simp [length_patch_dest] at this ⊢; omega⟩

theorem on_path_comment {F : List bf_instr_t} {c : Char} {rest : List Char} {i : Nat}
    {code_ : List bf_instr_t} {stk : List Nat} {off : Int} (hc : is_operator c = false)
    (h : on_path F (c :: rest) i code_ stk off) :
    on_path F rest (i + 1) code_ stk off := by
  have e := generate_loop_comment c hc rest i code_ stk off
  exact ⟨e ▸ h.ok, e ▸ h.out, h.inv, by have := h.len; simp at this ⊢; omega⟩

theorem on_path_nil {F : List bf_instr_t} {i : Nat} {code_ : List bf_instr_t}
    {stk : List Nat} {off : Int} (h : on_path F [] i code_ stk off) :
    stk = [] ∧ code_ = F := by
  have h1 := h.ok
  have h2 := h.out
  cases stk with
  | nil => exact ⟨rfl, by simpa [generate_loop_nil] using h2⟩
  | cons t stk => simp [generate_loop_nil] at h1

theorem on_path_stack_nonempty {F : List bf_instr_t} {rest : List Char} {i : Nat}
    {code_ : List bf_instr_t} {stk : List Nat} {off : Int}
    (h : on_path F (']' :: rest) i code_ stk off) : stk ≠ [] := by
  rintro rfl
  have h1 := h.ok
  rw [generate_loop_close_empty] at h1
  exact Bool.noConfusion h1

/-- An instruction of a state on the way is final, unless it is a `JMP_FWD` or the last
instruction and an `INC_CELL`. -/
theorem on_path_final {F : List bf_instr_t} {rest : List Char} {i : Nat}
    {code_ : List bf_instr_t} {stk : List Nat} {off : Int}
    (h : on_path F rest i code_ stk off) (k : Nat) (hk : k < code_.length)
    (hop : op_at code_ k ≠ some .JMP_FWD)
    (hlast : ¬ (k + 1 = code_.length ∧ op_at code_ k = some .INC_CELL)) :
    F[k]? = code_[k]? := by
  rw [← h.out]
  exact generate_loop_stable rest i code_ stk off k h.len hk
    (fun hs => hop (h.inv.pending k hs)) hlast

/-- The operation and the cell of an instruction of a state on the way are final. -/
theorem on_path_keeps {F : List bf_instr_t} {rest : List Char} {i : Nat}
    {code_ : List bf_instr_t} {stk : List Nat} {off : Int}
    (h : on_path F rest i code_ stk off) (k : Nat) (x : bf_instr_t)
    (hx : code_[k]? = some x) :
    ∃ y, F[k]? = some y ∧ y.op = x.op ∧ y.cell = x.cell := by
  have hk : k < code_.length := (List.getElem?_eq_some.1 hx).1
  have := generate_loop_keeps rest i code_ stk off k hk
  rw [h.out] at this
  obtain ⟨h1, h2⟩ := this
  simp only [op_at, cell_at, hx, Option.map_some'] at h1 h2
  rcases hy : F[k]? with _ | y
  · simp [hy] at h1
  · simp only [hy, Option.map_some', Option.some.injEq] at h1 h2
    exact ⟨y, rfl, h1, h2⟩

/-! ## Jumping over a loop -/

theorem skip_loop_open (rest : List Char) (d : Nat) :
    skip_loop ('[' :: rest) d = skip_loop rest (d + 1) := by
  simp [skip_loop]

theorem skip_loop_close_zero (rest : List Char) : skip_loop (']' :: rest) 0 = rest := by
  simp [skip_loop]

theorem skip_loop_close_succ (rest : List Char) (d : Nat) :
    skip_loop (']' :: rest) (d + 1) = skip_loop rest d := by
  simp [skip_loop]

theorem skip_loop_other (c : Char) (rest : List Char) (d : Nat) (h1 : c ≠ '[') (h2 : c ≠ ']') :
    skip_loop (c :: rest) d = skip_loop rest d := by
  simp [skip_loop, h1, h2]

theorem skip_loop_zero_loop (a : Char) (ha : a = '-' ∨ a = '+') (rest2 : List Char) (d : Nat) :
    skip_loop ('[' :: a :: ']' :: rest2) d = skip_loop rest2 d := by
  rw [skip_loop_open, skip_loop_other a _ _ (by rcases ha with rfl | rfl <;> decide)
    (by rcases ha with rfl | rfl <;> decide), skip_loop_close_succ]

theorem getLast?_patch_dest_snoc (cs : List bf_instr_t) (x : bf_instr_t) (t : Nat)
    (ht : t < cs.length) : (patch_dest (cs ++ [x]) t).getLast? = some x := by
  rw [List.getLast?_eq_getElem?, length_patch_dest, getElem?_patch_dest_ne]
  · simp
  · simp; omega

/-- The translator, started behind a `[` whose `JMP_FWD` has index `t`, comes to the text
behind the matching `]` with the stack as it was before the `[`, offset zero, the `JMP_BWD`
as the last instruction, and the target of the `JMP_FWD` at `t` set to the length of the
sequence at that point. -/
theorem on_path_skip (F : List bf_instr_t) (t : Nat) (stk : List Nat) (rest : List Char)
    (i : Nat) (code_ : List bf_instr_t) (js : List Nat) (off : Int) :
    ∀ extra : List Nat, js = extra ++ t :: stk → on_path F rest i code_ js off →
      ∃ i2 code2, on_path F (skip_loop rest extra.length) i2 code2 stk 0 ∧
        (∃ x, code2.getLast? = some x ∧ x.op = .JMP_BWD) ∧
        dest_at code2 t = some code2.length := by
  induction rest, i, code_, js, off using generate_loop.induct
  case case1 => intro extra he; simp at he
  case case2 =>
    intro extra he h
    have := h.ok
    simp [generate_loop_nil] at this
  case case3 rest i code_ js off ih =>
    intro extra he h
    rw [skip_loop_other _ _ _ (by decide) (by decide)]
    exact ih extra he (on_path_put h)
  case case4 rest i code_ js off _ ih =>
    intro extra he h
    rw [skip_loop_other _ _ _ (by decide) (by decide)]
    exact ih extra he (on_path_get h)
  case case5 rest i code_ js off _ _ ih =>
    intro extra he h
    rw [skip_loop_other _ _ _ (by decide) (by decide)]
    exact ih extra he (on_path_left h)
  case case6 rest i code_ js off _ _ _ ih =>
    intro extra he h
    rw [skip_loop_other _ _ _ (by decide) (by decide)]
    exact ih extra he (on_path_right h)
  case case7 c rest i code_ js off h1 h2 h3 h4 h5 h6 ih =>
    intro extra he h
    rw [skip_loop_other _ _ _ (by rcases h5 with rfl | rfl <;> decide)
      (by rcases h5 with rfl | rfl <;> decide)]
    exact ih extra he (on_path_inc_fold h5 h6 h)
  case case8 c rest i code_ js off h1 h2 h3 h4 h5 h6 ih =>
    intro extra he h
    rw [skip_loop_other _ _ _ (by rcases h5 with rfl | rfl <;> decide)
      (by rcases h5 with rfl | rfl <;> decide)]
    exact ih extra he (on_path_inc_new h5 (by simpa using h6) h)
  case case9 i code_ js off a b rest2 hz _ _ _ _ _ ih =>
    intro extra he h
    obtain ⟨ha, rfl⟩ := hz
    rw [skip_loop_zero_loop a ha]
    exact ih extra he (on_path_zero_loop ha h)
  case case10 i code_ js off a b rest2 hz _ _ _ _ _ ih =>
    intro extra he h
    rw [skip_loop_open]
    have hL : code_.length < 4294967296 := by have := h.len; omega
    have := ih (code_.length :: extra) (by rw [Nat.mod_eq_of_lt hL, he]; rfl)
      (by rw [Nat.mod_eq_of_lt hL]; exact on_path_open (not_zero_ahead_cons hz) h)
    exact this
  case case11 i code_ js off rest1 hz _ _ _ _ _ ih =>
    intro extra he h
    rw [skip_loop_open]
    have hL : code_.length < 4294967296 := by have := h.len; omega
    have hz2 : ¬ zero_ahead rest1 := by
      rintro ⟨a, r2, _, rfl⟩
      exact hz a ']' r2 rfl
    have := ih (code_.length :: extra) (by rw [Nat.mod_eq_of_lt hL, he]; rfl)
      (by rw [Nat.mod_eq_of_lt hL]; exact on_path_open hz2 h)
    exact this
  case case12 rest i code_ off _ _ _ _ _ _ =>
    intro extra he; simp at he
  case case13 rest i code_ off top tail _ _ _ _ _ _ ih =>
    intro extra he h
    have htop : top < code_.length := op_at_lt (h.inv.pending top (List.mem_cons_self _ _))
    have hL : code_.length + 1 < 4294967296 := by have := h.len; simp at this; omega
    have h2 := on_path_close h
    cases extra with
    | nil =>
      simp only [List.nil_append, List.cons.injEq] at he
      obtain ⟨rfl, rfl⟩ := he
      rw [List.length_nil, skip_loop_close_zero]
      refine ⟨_, _, h2, ⟨_, getLast?_patch_dest_snoc _ _ _ htop, rfl⟩, ?_⟩
      rw [dest_at_patch_dest, if_pos ⟨rfl, by simp; omega⟩, length_patch_dest]
      simp only [List.length_append, List.length_singleton]
      rw [Nat.mod_eq_of_lt hL]
    | cons e extra =>
      simp only [List.cons_append, List.cons.injEq] at he
      obtain ⟨rfl, rfl⟩ := he
      rw [List.length_cons, skip_loop_close_succ]
      have := ih extra rfl (by rw [Nat.mod_eq_of_lt (by omega)]; exact h2)
      exact this
  case case14 c rest i code_ js off h1 h2 h3 h4 h5 h6 h7 ih =>
    intro extra he h
    rw [skip_loop_other _ _ _ h6 h7]
    have hc : is_operator c = false := by
      simp only [is_operator, Bool.or_eq_false_iff, decide_eq_false_iff_not]
      simp only [not_or] at h5
      exact ⟨⟨⟨⟨⟨⟨⟨h5.1, h5.2⟩, h3⟩, h4⟩, h6⟩, h7⟩, h1⟩, h2⟩
    exact ih extra he (on_path_comment hc h)

/-! ## The machine catches up with the reference run -/

theorem num_cells_eq : NUM_CELLS = 3000 := rfl

theorem cell_index_eq (b : bf_t) (off : Int) (p : Nat) (h : (p : Int) = (b.cp : Int) + off)
    (hp : p < b.cells.length) : cell_index b off = some p := by
  unfold cell_index
  rw [← h, if_pos ⟨by omega, by omega⟩]
  simp

theorem move_cp_eq_ptr (b : bf_t) (off : Int) (p : Nat) (h : (p : Int) = (b.cp : Int) + off)
    (hp : p < 65536) : move_cp b off = p := by
  unfold move_cp
  rw [← h]
  omega

theorem run_steps_then_one (F : List bf_instr_t) (m : Nat) (b b1 b2 : bf_t) (c c1 c2 : Console)
    (h1 : run_steps F m b c = some (b1, c1)) (h2 : exec_one F b1 c1 = some (b2, c2)) :
    run_steps F (m + 1) b c = some (b2, c2) := by
  rw [run_steps_add F m 1 b b1 c c1 h1, run_steps_succ F 0 b1 b2 c1 c2 h2]
  rfl

/-- When the last emitted `INC_CELL` has its final amount in `F`, the machine gets level
with the reference state in at most one instruction. -/
theorem catch_up (F code_ : List bf_instr_t) (s : RefState) (b : bf_t) (c : Console)
    (hs : in_step code_ s b) (hL : code_.length < 4294967296)
    (hF : ∀ x, code_.getLast? = some x → x.op = .INC_CELL → F[code_.length - 1]? = some x) :
    ∃ m, run_steps F m b c = some ({ b with pc := code_.length, cells := s.tape }, c) := by
  rcases hs with ⟨hpc, hcells, _⟩ | ⟨x, k, hx, hop, hpc, hk, htape⟩
  · refine ⟨0, ?_⟩
    rw [← hpc, ← hcells]
    rfl
  · refine ⟨1, ?_⟩
    have hx2 : F[b.pc]? = some x := by
      have := hF x hx hop
      rwa [show code_.length - 1 = b.pc by omega] at this
    have he := exec_one_inc F b c x hx2 hop hk
    rw [run_steps_succ F 0 b _ c c he, htape, hpc, Nat.mod_eq_of_lt hL]
    rfl

theorem in_step_level (code_ : List bf_instr_t) (s : RefState) (b : bf_t)
    (hlast : ∀ x, code_.getLast? = some x → x.op ≠ .INC_CELL) (hpc : b.pc = code_.length)
    (hcells : b.cells = s.tape) : in_step code_ s b :=
  Or.inl ⟨hpc, hcells, hlast⟩

/-- The last `INC_CELL` of a state is final once the translator has emitted one more
instruction. -/
theorem on_path_flush {F : List bf_instr_t} {rest : List Char} {i : Nat}
    {code2 : List bf_instr_t} {stk : List Nat} {off : Int}
    (h2 : on_path F rest i code2 stk off) (code_ : List bf_instr_t)
    (hlen : code_.length < code2.length)
    (hpre : ∀ x, code_.getLast? = some x → x.op = .INC_CELL →
      code2[code_.length - 1]? = some x) :
    ∀ x, code_.getLast? = some x → x.op = .INC_CELL → F[code_.length - 1]? = some x := by
  intro x hx hop
  have hpos := (op_at_last hx).1
  have h3 := hpre x hx hop
  have h4 : op_at code2 (code_.length - 1) = some .INC_CELL := by
    rw [op_at_of_getElem? h3, hop]
  rw [on_path_final h2 (code_.length - 1) (by omega) (by rw [h4]; simp) (by omega), h3]

theorem flush_snoc {F : List bf_instr_t} {rest : List Char} {i : Nat}
    {code_ : List bf_instr_t} {y : bf_instr_t} {stk : List Nat} {off : Int}
    (h2 : on_path F rest i (code_ ++ [y]) stk off) :
    ∀ x, code_.getLast? = some x → x.op = .INC_CELL → F[code_.length - 1]? = some x := by
  apply on_path_flush h2 code_ (by simp)
  intro x hx _
  obtain ⟨hpos, hx2⟩ := op_at_last hx
  rw [List.getElem?_append_left (by omega), hx2]

theorem flush_close {F : List bf_instr_t} {rest : List Char} {i : Nat}
    {code_ : List bf_instr_t} {y : bf_instr_t} {t : Nat} {stk : List Nat} {off : Int}
    (ht : op_at code_ t = some .JMP_FWD)
    (h2 : on_path F rest i (patch_dest (code_ ++ [y]) t) stk off) :
    ∀ x, code_.getLast? = some x → x.op = .INC_CELL → F[code_.length - 1]? = some x := by
  apply on_path_flush h2 code_ (by rw [length_patch_dest]; simp)
  intro x hx hop
  obtain ⟨hpos, hx2⟩ := op_at_last hx
  have hne : code_.length - 1 ≠ t := by
    intro he
    rw [← he, op_at_of_getElem? hx2, hop] at ht
    simp at ht
  rw [getElem?_patch_dest_ne _ _ _ hne, List.getElem?_append_left (by omega), hx2]

/-- The instruction emitted last is final when it is neither a `JMP_FWD` nor an
`INC_CELL`. -/
theorem emitted_snoc {F : List bf_instr_t} {rest : List Char} {i : Nat}
    {code_ : List bf_instr_t} {y : bf_instr_t} {stk : List Nat} {off : Int}
    (h2 : on_path F rest i (code_ ++ [y]) stk off) (h1 : y.op ≠ .JMP_FWD)
    (h3 : y.op ≠ .INC_CELL) : F[code_.length]? = some y := by
  have hop : op_at (code_ ++ [y]) code_.length = some y.op := by
    rw [op_at_snoc, if_neg (lt_irrefl _), if_pos rfl]
  rw [on_path_final h2 code_.length (by simp) (by rw [hop]; simpa using h1)
    (by rw [hop]; rintro ⟨_, h⟩; exact h3 (Option.some.inj h))]
  simp

theorem emitted_close {F : List bf_instr_t} {rest : List Char} {i : Nat}
    {code_ : List bf_instr_t} {y : bf_instr_t} {t : Nat} {stk : List Nat} {off : Int}
    (ht : t < code_.length)
    (h2 : on_path F rest i (patch_dest (code_ ++ [y]) t) stk off) (h1 : y.op ≠ .JMP_FWD)
    (h3 : y.op ≠ .INC_CELL) : F[code_.length]? = some y := by
  have hop : op_at (patch_dest (code_ ++ [y]) t) code_.length = some y.op := by
    rw [op_at_patch_dest, op_at_snoc, if_neg (lt_irrefl _), if_pos rfl]
  rw [on_path_final h2 code_.length (by rw [length_patch_dest]; simp)
    (by rw [hop]; simpa using h1) (by rw [hop]; rintro ⟨_, h⟩; exact h3 (Option.some.inj h)),
    getElem?_patch_dest_ne _ _ _ (by omega)]
  simp

/-! ## One character of the reference run, simulated -/

theorem sim_put {F : List bf_instr_t} {rest : List Char} {loops : List (List Char)}
    {s : RefState} {b : bf_t} {c : Console} {i : Nat} {code_ : List bf_instr_t}
    {stk : List Nat} {off : Int} {rest2 : List Char} {loops2 : List (List Char)}
    {s2 : RefState}
    (h : on_path F ('.' :: rest) i code_ stk off) (hl : loops_rel F loops stk)
    (hio : in_sync s off b c) (hs : in_step code_ s b)
    (hr : ref_step '.' rest loops s = some (rest2, loops2, s2)) :
    ∃ m b2 c2, run_steps F m b c = some (b2, c2) ∧ sim F rest2 loops2 s2 b2 c2 := by
  simp only [ref_step, Char.reduceEq, if_false, if_true, Option.some.injEq,
    Prod.mk.injEq] at hr
  obtain ⟨rfl, rfl, rfl⟩ := hr
  have h2 := on_path_put h
  have hL : code_.length + 1 < 4294967296 := by have := h2.len; simp at this; omega
  obtain ⟨m, hm⟩ := catch_up F code_ s b c hs (by omega) (flush_snoc h2)
  have hF := emitted_snoc h2 (by simp [mk_put]) (by simp [mk_put])
  have hk : cell_index { b with pc := code_.length, cells := s.tape } (mk_put off).cell
      = some s.ptr :=
    cell_index_eq _ _ _ hio.ptr_eq (by rw [hio.tape_len]; exact hio.ptr_lt)
  have he := exec_one_put F { b with pc := code_.length, cells := s.tape } c (mk_put off)
    hF rfl hk
  refine ⟨m + 1, _, _, run_steps_then_one F m b _ _ c c _ hm he, ?_⟩
  refine sim.normal _ _ _ _ _ _ _ _ _ h2 hl
    ⟨hio.tape_len, hio.tape_len, hio.ptr_lt, hio.cp_lt, hio.ptr_eq, hio.stdin_eq, ?_⟩
    (in_step_level _ _ _ ?_ ?_ rfl)
  · simp only [hio.stdout_eq]
  · simp [mk_put]
  · simp only [List.length_append, List.length_singleton]
    exact Nat.mod_eq_of_lt hL

theorem sim_get {F : List bf_instr_t} {rest : List Char} {loops : List (List Char)}
    {s : RefState} {b : bf_t} {c : Console} {i : Nat} {code_ : List bf_instr_t}
    {stk : List Nat} {off : Int} {rest2 : List Char} {loops2 : List (List Char)}
    {s2 : RefState}
    (h : on_path F (',' :: rest) i code_ stk off) (hl : loops_rel F loops stk)
    (hio : in_sync s off b c) (hs : in_step code_ s b)
    (hr : ref_step ',' rest loops s = some (rest2, loops2, s2)) :
    ∃ m b2 c2, run_steps F m b c = some (b2, c2) ∧ sim F rest2 loops2 s2 b2 c2 := by
  have h2 := on_path_get h
  have hL : code_.length + 1 < 4294967296 := by have := h2.len; simp at this; omega
  obtain ⟨m, hm⟩ := catch_up F code_ s b c hs (by omega) (flush_snoc h2)
  have hF := emitted_snoc h2 (by simp [mk_get]) (by simp [mk_get])
  have hk : cell_index { b with pc := code_.length, cells := s.tape } (mk_get off).cell
      = some s.ptr :=
    cell_index_eq _ _ _ hio.ptr_eq (by rw [hio.tape_len]; exact hio.ptr_lt)
  have he := exec_one_get F { b with pc := code_.length, cells := s.tape } c (mk_get off)
    hF rfl hk
  refine ⟨m + 1, _, _, run_steps_then_one F m b _ _ c c _ hm he, ?_⟩
  have hpc : (code_.length + 1) % 4294967296 = (code_ ++ [mk_get off]).length := by
    simp only [List.length_append, List.length_singleton]
    exact Nat.mod_eq_of_lt hL
  have hin := hio.stdin_eq
  have hout := hio.stdout_eq
  rcases hi : s.input with _ | ⟨x, more⟩
  · simp only [ref_step, Char.reduceEq, if_false, if_true, hi, Option.some.injEq,
      Prod.mk.injEq] at hr
    obtain ⟨rfl, rfl, rfl⟩ := hr
    rw [hi] at hin
    refine sim.normal _ _ _ _ _ _ _ _ _ h2 hl
      ⟨by simp [hio.tape_len], by simp [hio.tape_len], hio.ptr_lt, hio.cp_lt, hio.ptr_eq,
        ?_, ?_⟩
      (in_step_level _ _ _ (by simp [mk_get]) hpc ?_)
    · simp [read_char, hin, hi]
    · simp [read_char, hin, hout]
    · simp [read_char, hin]
  · simp only [ref_step, Char.reduceEq, if_false, if_true, hi, Option.some.injEq,
      Prod.mk.injEq] at hr
    obtain ⟨rfl, rfl, rfl⟩ := hr
    rw [hi] at hin
    refine sim.normal _ _ _ _ _ _ _ _ _ h2 hl
      ⟨by simp [hio.tape_len], by simp [hio.tape_len], hio.ptr_lt, hio.cp_lt, hio.ptr_eq,
        ?_, ?_⟩
      (in_step_level _ _ _ (by simp [mk_get]) hpc ?_)
    · simp [read_char, hin]
    · simp [read_char, hin, hout]
    · simp [read_char, hin]

theorem sim_right {F : List bf_instr_t} {rest : List Char} {loops : List (List Char)}
    {s : RefState} {b : bf_t} {c : Console} {i : Nat} {code_ : List bf_instr_t}
    {stk : List Nat} {off : Int} {rest2 : List Char} {loops2 : List (List Char)}
    {s2 : RefState}
    (h : on_path F ('>' :: rest) i code_ stk off) (hl : loops_rel F loops stk)
    (hio : in_sync s off b c) (hs : in_step code_ s b)
    (hr : ref_step '>' rest loops s = some (rest2, loops2, s2)) :
    ∃ m b2 c2, run_steps F m b c = some (b2, c2) ∧ sim F rest2 loops2 s2 b2 c2 := by
  simp only [ref_step, Char.reduceEq, if_false, if_true] at hr
  by_cases hp : s.ptr + 1 < s.tape.length
  · rw [if_pos hp] at hr
    simp only [Option.some.injEq, Prod.mk.injEq] at hr
    obtain ⟨rfl, rfl, rfl⟩ := hr
    have h2 := on_path_right h
    have hN := num_cells_eq
    have h1 := hio.tape_len
    have h3 := hio.cp_lt
    have h4 := hio.ptr_eq
    rw [wrap_int16_id (by omega) (by omega)] at h2
    refine ⟨0, b, c, rfl, sim.normal _ _ _ _ _ _ _ _ _ h2 hl
      ⟨hio.tape_len, hio.cells_len, by simp only []; omega, hio.cp_lt, ?_, hio.stdin_eq,
        hio.stdout_eq⟩ hs⟩
    simp only []
    push_cast
    omega
  · rw [if_neg hp] at hr
    exact Option.noConfusion hr

theorem sim_left {F : List bf_instr_t} {rest : List Char} {loops : List (List Char)}
    {s : RefState} {b : bf_t} {c : Console} {i : Nat} {code_ : List bf_instr_t}
    {stk : List Nat} {off : Int} {rest2 : List Char} {loops2 : List (List Char)}
    {s2 : RefState}
    (h : on_path F ('<' :: rest) i code_ stk off) (hl : loops_rel F loops stk)
    (hio : in_sync s off b c) (hs : in_step code_ s b)
    (hr : ref_step '<' rest loops s = some (rest2, loops2, s2)) :
    ∃ m b2 c2, run_steps F m b c = some (b2, c2) ∧ sim F rest2 loops2 s2 b2 c2 := by
  simp only [ref_step, Char.reduceEq, if_false, if_true] at hr
  by_cases hp : 0 < s.ptr
  · rw [if_pos hp] at hr
    simp only [Option.some.injEq, Prod.mk.injEq] at hr
    obtain ⟨rfl, rfl, rfl⟩ := hr
    have h2 := on_path_left h
    have hN := num_cells_eq
    have h1 := hio.ptr_lt
    have h3 := hio.cp_lt
    have h4 := hio.ptr_eq
    rw [wrap_int16_id (by omega) (by omega)] at h2
    refine ⟨0, b, c, rfl, sim.normal _ _ _ _ _ _ _ _ _ h2 hl
      ⟨hio.tape_len, hio.cells_len, by simp only []; omega, hio.cp_lt, ?_, hio.stdin_eq,
        hio.stdout_eq⟩ hs⟩
    simp only []
    omega
  · rw [if_neg hp] at hr
    exact Option.noConfusion hr

theorem ref_step_comment (c : Char) (hc : is_operator c = false) (rest : List Char)
    (loops : List (List Char)) (s : RefState) :
    ref_step c rest loops s = some (rest, loops, s) := by
  simp only [is_operator, Bool.or_eq_false_iff, decide_eq_false_iff_not] at hc
  obtain ⟨⟨⟨⟨⟨⟨⟨h1, h2⟩, h3⟩, h4⟩, h5⟩, h6⟩, h7⟩, h8⟩ := hc
  simp only [ref_step, h1, h2, h3, h4, h5, h6, h7, h8, if_false]

theorem sim_comment {F : List bf_instr_t} {ch : Char} {rest : List Char}
    {loops : List (List Char)}
    {s : RefState} {b : bf_t} {c : Console} {i : Nat} {code_ : List bf_instr_t}
    {stk : List Nat} {off : Int} {rest2 : List Char} {loops2 : List (List Char)}
    {s2 : RefState} (hc : is_operator ch = false)
    (h : on_path F (ch :: rest) i code_ stk off) (hl : loops_rel F loops stk)
    (hio : in_sync s off b c) (hs : in_step code_ s b)
    (hr : ref_step ch rest loops s = some (rest2, loops2, s2)) :
    ∃ m b2 c2, run_steps F m b c = some (b2, c2) ∧ sim F rest2 loops2 s2 b2 c2 := by
  rw [ref_step_comment ch hc] at hr
  simp only [Option.some.injEq, Prod.mk.injEq] at hr
  obtain ⟨rfl, rfl, rfl⟩ := hr
  exact ⟨0, b, c, rfl, sim.normal _ _ _ _ _ _ _ _ _ (on_path_comment hc h) hl hio hs⟩

theorem ref_step_inc (ch : Char) (hc : ch = '+' ∨ ch = '-') (rest : List Char)
    (loops : List (List Char)) (s : RefState) :
    ref_step ch rest loops s = some (rest, loops,
      { s with tape := s.tape.set s.ptr ((s.tape.getD s.ptr 0 + delta_of ch) % 256) }) := by
  rcases hc with rfl | rfl <;>
    simp only [ref_step, delta_of, Char.reduceEq, if_false, if_true]

theorem getLast?_fold_back {cs : List bf_instr_t} {x : bf_instr_t} (v : Nat)
    (h : cs.getLast? = some x) :
    (fold_back cs v).getLast? = some { x with val := (x.val + v) % 256 } := by
  obtain ⟨hpos, _⟩ := op_at_last h
  rw [List.getLast?_eq_getElem?, length_fold_back]
  unfold fold_back
  rw [h]
  simp only []
  rw [List.getElem?_set_self (by omega)]

theorem set_inc_inc (t : List Nat) (p v d : Nat) (hp : p < t.length) :
    (t.set p ((t.getD p 0 + v) % 256)).set p
        (((t.set p ((t.getD p 0 + v) % 256)).getD p 0 + d) % 256) =
      t.set p ((t.getD p 0 + (v + d) % 256) % 256) := by
  simp only [List.set_set, List.getD_eq_getElem?_getD, List.getElem?_set_self hp,
    Option.getD_some]
  congr 1
  omega

theorem sim_inc {F : List bf_instr_t} {ch : Char} {rest : List Char}
    {loops : List (List Char)}
    {s : RefState} {b : bf_t} {c : Console} {i : Nat} {code_ : List bf_instr_t}
    {stk : List Nat} {off : Int} {rest2 : List Char} {loops2 : List (List Char)}
    {s2 : RefState} (hc : ch = '+' ∨ ch = '-')
    (h : on_path F (ch :: rest) i code_ stk off) (hl : loops_rel F loops stk)
    (hio : in_sync s off b c) (hs : in_step code_ s b)
    (hr : ref_step ch rest loops s = some (rest2, loops2, s2)) :
    ∃ m b2 c2, run_steps F m b c = some (b2, c2) ∧ sim F rest2 loops2 s2 b2 c2 := by
  rw [ref_step_inc ch hc] at hr
  simp only [Option.some.injEq, Prod.mk.injEq] at hr
  obtain ⟨rfl, rfl, rfl⟩ := hr
  have hptr : cell_index b off = some s.ptr :=
    cell_index_eq _ _ _ hio.ptr_eq (by rw [hio.cells_len]; exact hio.ptr_lt)
  by_cases hf : can_fold code_ off = true
  · obtain ⟨x, hx, hop, hcell⟩ := can_fold_last hf
    rcases hs with ⟨_, _, hno⟩ | ⟨x2, k, hx2, hop2, hpc, hk, htape⟩
    · exact absurd hop (hno x hx)
    · obtain rfl : x2 = x := Option.some.inj (hx2.symm.trans hx)
      rw [hcell, hptr] at hk
      obtain rfl : s.ptr = k := Option.some.inj hk
      have hp : s.ptr < b.cells.length := by rw [hio.cells_len]; exact hio.ptr_lt
      refine ⟨0, b, c, rfl, sim.normal _ _ _ _ _ _ _ _ _ (on_path_inc_fold hc hf h) hl
        ⟨by simp [hio.tape_len], hio.cells_len, hio.ptr_lt, hio.cp_lt, hio.ptr_eq,
          hio.stdin_eq, hio.stdout_eq⟩
        (Or.inr ⟨_, s.ptr, getLast?_fold_back _ hx, hop, by rw [length_fold_back]; exact hpc,
          by rw [hcell]; exact hptr, ?_⟩)⟩
      simp only []
      rw [htape]
      exact set_inc_inc b.cells s.ptr x2.val (delta_of ch) hp
  · have hf2 : can_fold code_ off = false := by simpa using hf
    have h2 := on_path_inc_new hc hf2 h
    have hL : code_.length + 1 < 4294967296 := by have := h2.len; simp at this; omega
    obtain ⟨m, hm⟩ := catch_up F code_ s b c hs (by omega) (flush_snoc h2)
    refine ⟨m, _, _, hm, sim.normal _ _ _ _ _ _ _ _ _ h2 hl
      ⟨by simp [hio.tape_len], hio.tape_len, hio.ptr_lt, hio.cp_lt, hio.ptr_eq,
        hio.stdin_eq, hio.stdout_eq⟩
      (Or.inr ⟨mk_inc_cell (delta_of ch) off, s.ptr, by simp, rfl, by simp,
        cell_index_eq _ _ _ hio.ptr_eq (by rw [hio.tape_len]; exact hio.ptr_lt), rfl⟩)⟩

theorem sim_open_zero {F : List bf_instr_t} {a : Char} {tail : List Char}
    {loops : List (List Char)}
    {s : RefState} {b : bf_t} {c : Console} {i : Nat} {code_ : List bf_instr_t}
    {stk : List Nat} {off : Int} {rest2 : List Char} {loops2 : List (List Char)}
    {s2 : RefState} (ha : a = '-' ∨ a = '+')
    (h : on_path F ('[' :: a :: ']' :: tail) i code_ stk off) (hl : loops_rel F loops stk)
    (hio : in_sync s off b c) (hs : in_step code_ s b)
    (hr : ref_step '[' (a :: ']' :: tail) loops s = some (rest2, loops2, s2)) :
    ∃ m b2 c2, run_steps F m b c = some (b2, c2) ∧ sim F rest2 loops2 s2 b2 c2 := by
  simp only [ref_step, Char.reduceEq, if_false, if_true] at hr
  have h2 := on_path_zero_loop ha h
  have hL : code_.length + 1 < 4294967296 := by have := h2.len; simp at this; omega
  obtain ⟨m, hm⟩ := catch_up F code_ s b c hs (by omega) (flush_snoc h2)
  by_cases h0 : s.tape.getD s.ptr 0 = 0
  · rw [if_pos h0, skip_loop_other a _ _ (by rcases ha with rfl | rfl <;> decide)
      (by rcases ha with rfl | rfl <;> decide), skip_loop_close_zero] at hr
    simp only [Option.some.injEq, Prod.mk.injEq] at hr
    obtain ⟨rfl, rfl, rfl⟩ := hr
    have hF := emitted_snoc h2 (by simp [mk_zero]) (by simp [mk_zero])
    have hk : cell_index { b with pc := code_.length, cells := s.tape } (mk_zero off).cell
        = some s.ptr :=
      cell_index_eq _ _ _ hio.ptr_eq (by rw [hio.tape_len]; exact hio.ptr_lt)
    have he := exec_one_zero F { b with pc := code_.length, cells := s.tape } c (mk_zero off)
      hF rfl hk
    refine ⟨m + 1, _, _, run_steps_then_one F m b _ _ c c _ hm he, ?_⟩
    refine sim.normal _ _ _ _ _ _ _ _ _ h2 hl
      ⟨hio.tape_len, by simp [hio.tape_len], hio.ptr_lt, hio.cp_lt, hio.ptr_eq, hio.stdin_eq,
        hio.stdout_eq⟩
      (in_step_level _ _ _ (by simp [mk_zero]) ?_ (list_set_getD_self _ _ h0))
    simp only [List.length_append, List.length_singleton]
    exact Nat.mod_eq_of_lt hL
  · rw [if_neg h0] at hr
    simp only [Option.some.injEq, Prod.mk.injEq] at hr
    obtain ⟨rfl, rfl, rfl⟩ := hr
    exact ⟨m, _, _, hm, sim.zero_body a tail loops s _ c i code_ stk off ha h hl
      ⟨hio.tape_len, hio.tape_len, hio.ptr_lt, hio.cp_lt, hio.ptr_eq, hio.stdin_eq,
        hio.stdout_eq⟩ rfl rfl⟩

theorem sim_open {F : List bf_instr_t} {rest : List Char} {loops : List (List Char)}
    {s : RefState} {b : bf_t} {c : Console} {i : Nat} {code_ : List bf_instr_t}
    {stk : List Nat} {off : Int} {rest2 : List Char} {loops2 : List (List Char)}
    {s2 : RefState} (hz : ¬ zero_ahead rest)
    (h : on_path F ('[' :: rest) i code_ stk off) (hl : loops_rel F loops stk)
    (hio : in_sync s off b c) (hs : in_step code_ s b)
    (hr : ref_step '[' rest loops s = some (rest2, loops2, s2)) :
    ∃ m b2 c2, run_steps F m b c = some (b2, c2) ∧ sim F rest2 loops2 s2 b2 c2 := by
  simp only [ref_step, Char.reduceEq, if_false, if_true] at hr
  have h2 := on_path_open hz h
  have hL : code_.length + 1 < 4294967296 := by have := h2.len; simp at this; omega
  have hN := num_cells_eq
  have hplt := hio.ptr_lt
  obtain ⟨m, hm⟩ := catch_up F code_ s b c hs (by omega) (flush_snoc h2)
  obtain ⟨y, hy, hyop, hycell⟩ := on_path_keeps h2 code_.length (mk_jmp_fwd off) (by simp)
  have hmv : move_cp { b with pc := code_.length, cells := s.tape } y.cell = s.ptr := by
    rw [hycell]
    exact move_cp_eq_ptr _ _ _ hio.ptr_eq (by omega)
  have he := exec_one_jmp_fwd F { b with pc := code_.length, cells := s.tape } c y hy hyop
    (by rw [hmv]; simp only []; rw [hio.tape_len]; exact hplt)
  rw [hmv] at he
  by_cases h0 : s.tape.getD s.ptr 0 = 0
  · rw [if_pos h0] at hr
    simp only [Option.some.injEq, Prod.mk.injEq] at hr
    obtain ⟨rfl, rfl, rfl⟩ := hr
    obtain ⟨i2, code2, h3, ⟨x, hx, hxop⟩, hdest⟩ := on_path_skip F code_.length stk rest
      (i + 1) (code_ ++ [mk_jmp_fwd off]) (code_.length :: stk) 0 [] rfl h2
    have hlt : code_.length < code2.length := by
      unfold dest_at at hdest
      by_contra hn
      rw [List.getElem?_eq_none (by omega)] at hdest
      simp at hdest
    have hns : code_.length ∉ stk := fun hmem => by
      have := op_at_lt (h.inv.pending _ hmem)
      omega
    have hfin : F[code_.length]? = code2[code_.length]? := by
      rw [← h3.out]
      refine generate_loop_stable _ _ _ _ _ _ h3.len hlt hns ?_
      rintro ⟨hk1, hk2⟩
      obtain ⟨_, hx2⟩ := op_at_last hx
      rw [show code2.length - 1 = code_.length by omega] at hx2
      rw [op_at_of_getElem? hx2, hxop] at hk2
      simp at hk2
    have hyd : y.dest = code2.length := by
      have h5 := dest_at_of_getElem? hy
      unfold dest_at at h5 hdest
      rw [hfin, hdest] at h5
      exact (Option.some.inj h5).symm
    have he2 : exec_one F { b with pc := code_.length, cells := s.tape } c =
        some ({ b with pc := code2.length, cells := s.tape, cp := s.ptr }, c) := by
      rw [he]
      simp only [h0, ne_eq, not_true_eq_false, if_false, hyd]
    refine ⟨m + 1, _, _, run_steps_then_one F m b _ _ c c _ hm he2, ?_⟩
    refine sim.normal _ _ _ _ _ i2 code2 stk 0 h3 hl
      ⟨hio.tape_len, hio.tape_len, hio.ptr_lt, hio.ptr_lt, by simp, hio.stdin_eq,
        hio.stdout_eq⟩
      (in_step_level _ _ _ ?_ rfl rfl)
    intro x2 hx2
    obtain rfl : x = x2 := Option.some.inj (hx.symm.trans hx2)
    rw [hxop]
    simp
  · rw [if_neg h0] at hr
    simp only [Option.some.injEq, Prod.mk.injEq] at hr
    obtain ⟨rfl, rfl, rfl⟩ := hr
    have he2 : exec_one F { b with pc := code_.length, cells := s.tape } c =
        some ({ b with pc := (code_ ++ [mk_jmp_fwd off]).length, cells := s.tape,
                       cp := s.ptr }, c) := by
      rw [he]
      simp only [h0, ne_eq, not_false_eq_true, if_true, List.length_append,
        List.length_singleton, Nat.mod_eq_of_lt hL]
    refine ⟨m + 1, _, _, run_steps_then_one F m b _ _ c c _ hm he2, ?_⟩
    exact sim.normal _ _ _ _ _ (i + 1) (code_ ++ [mk_jmp_fwd off]) (code_.length :: stk) 0 h2
      (loops_rel.cons _ _ (i + 1) code_ off code_.length stk rfl h2 hl)
      ⟨hio.tape_len, hio.tape_len, hio.ptr_lt, hio.ptr_lt, by simp, hio.stdin_eq,
        hio.stdout_eq⟩
      (in_step_level _ _ _ (by simp [mk_jmp_fwd]) rfl rfl)

theorem sim_close {F : List bf_instr_t} {rest : List Char} {loops : List (List Char)}
    {s : RefState} {b : bf_t} {c : Console} {i : Nat} {code_ : List bf_instr_t}
    {stk : List Nat} {off : Int} {rest2 : List Char} {loops2 : List (List Char)}
    {s2 : RefState}
    (h : on_path F (']' :: rest) i code_ stk off) (hl : loops_rel F loops stk)
    (hio : in_sync s off b c) (hs : in_step code_ s b)
    (hr : ref_step ']' rest loops s = some (rest2, loops2, s2)) :
    ∃ m b2 c2, run_steps F m b c = some (b2, c2) ∧ sim F rest2 loops2 s2 b2 c2 := by
  cases hl with
  | nil => exact absurd rfl (on_path_stack_nonempty h)
  | cons body outer ib codeb cellb t stk2 hlen hbody houter =>
    simp only [ref_step, Char.reduceEq, if_false, if_true] at hr
    have ht : op_at code_ t = some .JMP_FWD := h.inv.pending t (List.mem_cons_self _ _)
    have htlt := op_at_lt ht
    have h2 := on_path_close h
    have hL : code_.length + 1 < 4294967296 := by
      have := h2.len; simp [length_patch_dest] at this; omega
    have hN := num_cells_eq
    have hplt := hio.ptr_lt
    obtain ⟨m, hm⟩ := catch_up F code_ s b c hs (by omega) (flush_close ht h2)
    have hF := emitted_close htlt h2 (by simp [mk_jmp_bwd]) (by simp [mk_jmp_bwd])
    have hmv : move_cp { b with pc := code_.length, cells := s.tape }
        (mk_jmp_bwd off (t + 1)).cell = s.ptr :=
      move_cp_eq_ptr _ _ _ hio.ptr_eq (by omega)
    have he := exec_one_jmp_bwd F { b with pc := code_.length, cells := s.tape } c
      (mk_jmp_bwd off (t + 1)) hF rfl
      (by rw [hmv]; simp only []; rw [hio.tape_len]; exact hplt)
    rw [hmv] at he
    by_cases h0 : s.tape.getD s.ptr 0 = 0
    · rw [if_pos h0] at hr
      simp only [Option.some.injEq, Prod.mk.injEq] at hr
      obtain ⟨rfl, rfl, rfl⟩ := hr
      have he2 : exec_one F { b with pc := code_.length, cells := s.tape } c =
          some ({ b with pc := (patch_dest (code_ ++ [mk_jmp_bwd off (t + 1)]) t).length,
                         cells := s.tape, cp := s.ptr }, c) := by
        rw [he]
        simp only [h0, if_true, length_patch_dest, List.length_append,
          List.length_singleton, Nat.mod_eq_of_lt hL]
      refine ⟨m + 1, _, _, run_steps_then_one F m b _ _ c c _ hm he2, ?_⟩
      refine sim.normal _ _ _ _ _ (i + 1) _ stk2 0 h2 houter
        ⟨hio.tape_len, hio.tape_len, hio.ptr_lt, hio.ptr_lt, by simp, hio.stdin_eq,
          hio.stdout_eq⟩
        (in_step_level _ _ _ ?_ rfl rfl)
      intro x hx
      rw [getLast?_patch_dest_snoc _ _ _ htlt] at hx
      obtain rfl := Option.some.inj hx
      simp [mk_jmp_bwd]
    · rw [if_neg h0] at hr
      simp only [Option.some.injEq, Prod.mk.injEq] at hr
      obtain ⟨rfl, rfl, rfl⟩ := hr
      have he2 : exec_one F { b with pc := code_.length, cells := s.tape } c =
          some ({ b with pc := (codeb ++ [mk_jmp_fwd cellb]).length,
                         cells := s.tape, cp := s.ptr }, c) := by
        rw [he]
        simp only [h0, if_false, List.length_append, List.length_singleton, hlen, mk_jmp_bwd]
      refine ⟨m + 1, _, _, run_steps_then_one F m b _ _ c c _ hm he2, ?_⟩
      exact sim.normal _ _ _ _ _ ib (codeb ++ [mk_jmp_fwd cellb]) (t :: stk2) 0 hbody
        (loops_rel.cons _ _ ib codeb cellb t stk2 hlen hbody houter)
        ⟨hio.tape_len, hio.tape_len, hio.ptr_lt, hio.ptr_lt, by simp, hio.stdin_eq,
          hio.stdout_eq⟩
        (in_step_level _ _ _ (by simp [mk_jmp_fwd]) rfl rfl)

theorem sim_zero_body {F : List bf_instr_t} {a : Char} {tail : List Char}
    {outer : List (List Char)}
    {s : RefState} {b : bf_t} {c : Console} {i : Nat} {code_ : List bf_instr_t}
    {stk : List Nat} {off : Int} {rest2 : List Char} {loops2 : List (List Char)}
    {s2 : RefState} (ha : a = '-' ∨ a = '+')
    (h : on_path F ('[' :: a :: ']' :: tail) i code_ stk off) (hl : loops_rel F outer stk)
    (hio : in_sync s off b c) (hpc : b.pc = code_.length)
    (ht : b.cells.set s.ptr 0 = s.tape.set s.ptr 0)
    (hr : ref_step a (']' :: tail) ((a :: ']' :: tail) :: outer) s
      = some (rest2, loops2, s2)) :
    ∃ m b2 c2, run_steps F m b c = some (b2, c2) ∧ sim F rest2 loops2 s2 b2 c2 := by
  rw [ref_step_inc a ha.symm] at hr
  simp only [Option.some.injEq, Prod.mk.injEq] at hr
  obtain ⟨rfl, rfl, rfl⟩ := hr
  exact ⟨0, b, c, rfl, sim.zero_close a tail outer _ b c i code_ stk off ha h hl
    ⟨by simp [hio.tape_len], hio.cells_len, hio.ptr_lt, hio.cp_lt, hio.ptr_eq, hio.stdin_eq,
      hio.stdout_eq⟩ hpc (by simp only [List.set_set]; exact ht)⟩

theorem sim_zero_close {F : List bf_instr_t} {a : Char} {tail : List Char}
    {outer : List (List Char)}
    {s : RefState} {b : bf_t} {c : Console} {i : Nat} {code_ : List bf_instr_t}
    {stk : List Nat} {off : Int} {rest2 : List Char} {loops2 : List (List Char)}
    {s2 : RefState} (ha : a = '-' ∨ a = '+')
    (h : on_path F ('[' :: a :: ']' :: tail) i code_ stk off) (hl : loops_rel F outer stk)
    (hio : in_sync s off b c) (hpc : b.pc = code_.length)
    (ht : b.cells.set s.ptr 0 = s.tape.set s.ptr 0)
    (hr : ref_step ']' tail ((a :: ']' :: tail) :: outer) s = some (rest2, loops2, s2)) :
    ∃ m b2 c2, run_steps F m b c = some (b2, c2) ∧ sim F rest2 loops2 s2 b2 c2 := by
  simp only [ref_step, Char.reduceEq, if_false, if_true] at hr
  by_cases h0 : s.tape.getD s.ptr 0 = 0
  · rw [if_pos h0] at hr
    simp only [Option.some.injEq, Prod.mk.injEq] at hr
    obtain ⟨rfl, rfl, rfl⟩ := hr
    have h2 := on_path_zero_loop ha h
    have hL : code_.length + 1 < 4294967296 := by have := h2.len; simp at this; omega
    have hF := emitted_snoc h2 (by simp [mk_zero]) (by simp [mk_zero])
    rw [← hpc] at hF
    have hk : cell_index b (mk_zero off).cell = some s.ptr :=
      cell_index_eq _ _ _ hio.ptr_eq (by rw [hio.cells_len]; exact hio.ptr_lt)
    have he := exec_one_zero F b c (mk_zero off) hF rfl hk
    refine ⟨1, _, _, by rw [run_steps_succ F 0 b _ c c he]; rfl, ?_⟩
    refine sim.normal _ _ _ _ _ _ _ _ _ h2 hl
      ⟨hio.tape_len, by simp [hio.cells_len], hio.ptr_lt, hio.cp_lt, hio.ptr_eq,
        hio.stdin_eq, hio.stdout_eq⟩
      (in_step_level _ _ _ (by simp [mk_zero]) ?_ (ht.trans (list_set_getD_self _ _ h0)))
    simp only [List.length_append, List.length_singleton, hpc]
    exact Nat.mod_eq_of_lt hL
  · rw [if_neg h0] at hr
    simp only [Option.some.injEq, Prod.mk.injEq] at hr
    obtain ⟨rfl, rfl, rfl⟩ := hr
    exact ⟨0, b, c, rfl, sim.zero_body a tail outer s b c i code_ stk off ha h hl hio hpc ht⟩

/-- One step of the reference run is matched by at most two instructions of the machine,
and the simulation relation holds again afterwards. -/
theorem sim_step {F : List bf_instr_t} {ch : Char} {rest : List Char}
    {loops : List (List Char)} {s : RefState} {b : bf_t} {c : Console} {rest2 : List Char}
    {loops2 : List (List Char)} {s2 : RefState} (h : sim F (ch :: rest) loops s b c)
    (hr : ref_step ch rest loops s = some (rest2, loops2, s2)) :
    ∃ m b2 c2, run_steps F m b c = some (b2, c2) ∧ sim F rest2 loops2 s2 b2 c2 := by
  cases h with
  | normal _ _ _ _ _ i code_ stk off hp hl hio hs =>
    by_cases h1 : ch = '.'
    · subst h1; exact sim_put hp hl hio hs hr
    by_cases h2 : ch = ','
    · subst h2; exact sim_get hp hl hio hs hr
    by_cases h3 : ch = '<'
    · subst h3; exact sim_left hp hl hio hs hr
    by_cases h4 : ch = '>'
    · subst h4; exact sim_right hp hl hio hs hr
    by_cases h5 : ch = '+' ∨ ch = '-'
    · exact sim_inc h5 hp hl hio hs hr
    by_cases h6 : ch = '['
    · subst h6
      by_cases hz : zero_ahead rest
      · obtain ⟨a, tail, ha, rfl⟩ := hz
        exact sim_open_zero ha hp hl hio hs hr
      · exact sim_open hz hp hl hio hs hr
    by_cases h7 : ch = ']'
    · subst h7; exact sim_close hp hl hio hs hr
    · have hc : is_operator ch = false := by
        simp only [not_or] at h5
        simp only [is_operator, Bool.or_eq_false_iff, decide_eq_false_iff_not]
        exact ⟨⟨⟨⟨⟨⟨⟨h5.1, h5.2⟩, h3⟩, h4⟩, h6⟩, h7⟩, h1⟩, h2⟩
      exact sim_comment hc hp hl hio hs hr
  | zero_body a tail outer _ _ _ i code_ stk off ha hp hl hio hpc ht =>
    exact sim_zero_body ha hp hl hio hpc ht hr
  | zero_close a tail outer _ _ _ i code_ stk off ha hp hl hio hpc ht =>
    exact sim_zero_close ha hp hl hio hpc ht hr

/-! ## The whole reference run, simulated -/

theorem ref_run_nil (n : Nat) (loops : List (List Char)) (s : RefState) :
    ref_run n [] loops s = some s := by
  cases n <;> rfl

theorem ref_run_cons (n : Nat) (ch : Char) (rest : List Char) (loops : List (List Char))
    (s : RefState) :
    ref_run (n + 1) (ch :: rest) loops s =
      match ref_step ch rest loops s with
      | some (rest2, loops2, s2) => ref_run n rest2 loops2 s2
      | none => none := rfl

/-- At the end of the text the machine reaches the end of the instruction sequence with
the tape and the streams of the reference state. -/
theorem sim_end {F : List bf_instr_t} {loops : List (List Char)} {s : RefState} {b : bf_t}
    {c : Console} (h : sim F [] loops s b c) :
    ∃ m b2 c2, run_steps F m b c = some (b2, c2) ∧ b2.pc = F.length ∧ b2.cells = s.tape ∧
      c2.stdout = s.output ∧ c2.stdin = s.input := by
  cases h with
  | normal _ _ _ _ _ i code_ stk off hp hl hio hs =>
    obtain ⟨rfl, rfl⟩ := on_path_nil hp
    have hL : code_.length < 4294967296 := by have := hp.len; omega
    obtain ⟨m, hm⟩ := catch_up code_ code_ s b c hs hL (fun x hx _ => (op_at_last hx).2)
    exact ⟨m, _, _, hm, rfl, rfl, hio.stdout_eq, hio.stdin_eq⟩

theorem sim_run (F : List bf_instr_t) : ∀ (n : Nat) (rest : List Char)
    (loops : List (List Char)) (s : RefState) (b : bf_t) (c : Console) (r : RefState),
    ref_run n rest loops s = some r → sim F rest loops s b c →
    ∃ m b2 c2, run_steps F m b c = some (b2, c2) ∧ b2.pc = F.length ∧ b2.cells = r.tape ∧
      c2.stdout = r.output ∧ c2.stdin = r.input := by
  intro n
  induction n with
  | zero =>
    intro rest loops s b c r hr h
    cases rest with
    | nil =>
      rw [ref_run_nil] at hr
      obtain rfl := Option.some.inj hr
      exact sim_end h
    | cons ch rest => exact Option.noConfusion hr
  | succ n ih =>
    intro rest loops s b c r hr h
    cases rest with
    | nil =>
      rw [ref_run_nil] at hr
      obtain rfl := Option.some.inj hr
      exact sim_end h
    | cons ch rest =>
      rw [ref_run_cons] at hr
      rcases hst : ref_step ch rest loops s with _ | ⟨rest2, loops2, s2⟩
      · rw [hst] at hr
        exact Option.noConfusion hr
      · rw [hst] at hr
        obtain ⟨m1, b1, c1, hm1, hsim⟩ := sim_step h hst
        obtain ⟨m2, b2, c2, hm2, hres⟩ := ih rest2 loops2 s2 b1 c1 r hr hsim
        exact ⟨m1 + m2, b2, c2, by rw [run_steps_add F m1 m2 b b1 c c1 hm1]; exact hm2, hres⟩

/-! ## Comments do not change the reference run -/

theorem skip_loop_filter : ∀ (rest : List Char) (d : Nat),
    skip_loop (rest.filter is_operator) d = (skip_loop rest d).filter is_operator := by
  intro rest
  induction rest with
  | nil => intro d; rfl
  | cons ch rest ih =>
    intro d
    by_cases hc : is_operator ch = true
    · rw [List.filter_cons_of_pos hc]
      by_cases h1 : ch = '['
      · subst h1; rw [skip_loop_open, skip_loop_open, ih]
      · by_cases h2 : ch = ']'
        · subst h2
          cases d with
          | zero => rw [skip_loop_close_zero, skip_loop_close_zero]
          | succ d => rw [skip_loop_close_succ, skip_loop_close_succ, ih]
        · rw [skip_loop_other ch _ d h1 h2, skip_loop_other ch _ d h1 h2, ih]
    · rw [List.filter_cons_of_neg hc]
      have h1 : ch ≠ '[' := by rintro rfl; exact hc (by decide)
      have h2 : ch ≠ ']' := by rintro rfl; exact hc (by decide)
      rw [skip_loop_other ch _ d h1 h2, ih]

theorem ref_step_filter (ch : Char) (rest : List Char) (loops : List (List Char))
    (s : RefState) (rest2 : List Char) (loops2 : List (List Char)) (s2 : RefState)
    (h : ref_step ch rest loops s = some (rest2, loops2, s2)) :
    ref_step ch (rest.filter is_operator) (loops.map (List.filter is_operator)) s =
      some (rest2.filter is_operator, loops2.map (List.filter is_operator), s2) := by
  unfold ref_step at h ⊢
  by_cases h1 : ch = '+'
  · simp only [h1, if_true, Option.some.injEq, Prod.mk.injEq] at h ⊢
    obtain ⟨rfl, rfl, rfl⟩ := h
    exact ⟨rfl, rfl, rfl⟩
  simp only [h1, if_false] at h ⊢
  by_cases h2 : ch = '-'
  · simp only [h2, if_true, Option.some.injEq, Prod.mk.injEq] at h ⊢
    obtain ⟨rfl, rfl, rfl⟩ := h
    exact ⟨rfl, rfl, rfl⟩
  simp only [h2, if_false] at h ⊢
  by_cases h3 : ch = '>'
  · simp only [h3, if_true] at h ⊢
    by_cases hp : s.ptr + 1 < s.tape.length
    · simp only [hp, if_true, Option.some.injEq, Prod.mk.injEq] at h ⊢
      obtain ⟨rfl, rfl, rfl⟩ := h
      exact ⟨rfl, rfl, rfl⟩
    · simp only [hp, if_false] at h
      exact Option.noConfusion h
  simp only [h3, if_false] at h ⊢
  by_cases h4 : ch = '<'
  · simp only [h4, if_true] at h ⊢
    by_cases hp : 0 < s.ptr
    · simp only [hp, if_true, Option.some.injEq, Prod.mk.injEq] at h ⊢
      obtain ⟨rfl, rfl, rfl⟩ := h
      exact ⟨rfl, rfl, rfl⟩
    · simp only [hp, if_false] at h
      exact Option.noConfusion h
  simp only [h4, if_false] at h ⊢
  by_cases h5 : ch = '.'
  · simp only [h5, if_true, Option.some.injEq, Prod.mk.injEq] at h ⊢
    obtain ⟨rfl, rfl, rfl⟩ := h
    exact ⟨rfl, rfl, rfl⟩
  simp only [h5, if_false] at h ⊢
  by_cases h6 : ch = ','
  · simp only [h6, if_true] at h ⊢
    rcases hi : s.input with _ | ⟨x, more⟩
    · simp only [hi, Option.some.injEq, Prod.mk.injEq] at h ⊢
      obtain ⟨rfl, rfl, rfl⟩ := h
      exact ⟨rfl, rfl, rfl⟩
    · simp only [hi, Option.some.injEq, Prod.mk.injEq] at h ⊢
      obtain ⟨rfl, rfl, rfl⟩ := h
      exact ⟨rfl, rfl, rfl⟩
  simp only [h6, if_false] at h ⊢
  by_cases h7 : ch = '['
  · simp only [h7, if_true] at h ⊢
    by_cases h0 : s.tape.getD s.ptr 0 = 0
    · simp only [h0, if_true, Option.some.injEq, Prod.mk.injEq] at h ⊢
      obtain ⟨rfl, rfl, rfl⟩ := h
      exact ⟨skip_loop_filter rest 0, rfl, rfl⟩
    · simp only [h0, if_false, Option.some.injEq, Prod.mk.injEq] at h ⊢
      obtain ⟨rfl, rfl, rfl⟩ := h
      exact ⟨rfl, rfl, rfl⟩
  simp only [h7, if_false] at h ⊢
  by_cases h8 : ch = ']'
  · simp only [h8, if_true] at h ⊢
    cases loops with
    | nil => exact Option.noConfusion h
    | cons body outer =>
      simp only [List.map_cons] at h ⊢
      by_cases h0 : s.tape.getD s.ptr 0 = 0
      · simp only [h0, if_true, Option.some.injEq, Prod.mk.injEq] at h ⊢
        obtain ⟨rfl, rfl, rfl⟩ := h
        exact ⟨rfl, rfl, rfl⟩
      · simp only [h0, if_false, Option.some.injEq, Prod.mk.injEq] at h ⊢
        obtain ⟨rfl, rfl, rfl⟩ := h
        exact ⟨rfl, rfl, rfl⟩
  simp only [h8, if_false, Option.some.injEq, Prod.mk.injEq] at h ⊢
  obtain ⟨rfl, rfl, rfl⟩ := h
  exact ⟨rfl, rfl, rfl⟩

/-- A reference run of a text is also a reference run of the text without its comments. -/
theorem ref_run_filter : ∀ (n : Nat) (rest : List Char) (loops : List (List Char))
    (s r : RefState), ref_run n rest loops s = some r →
    ∃ m, ref_run m (rest.filter is_operator) (loops.map (List.filter is_operator)) s
      = some r := by
  intro n
  induction n with
  | zero =>
    intro rest loops s r hr
    cases rest with
    | nil => exact ⟨0, hr⟩
    | cons ch rest => exact Option.noConfusion hr
  | succ n ih =>
    intro rest loops s r hr
    cases rest with
    | nil =>
      rw [ref_run_nil] at hr
      exact ⟨0, by rw [List.filter_nil, ref_run_nil]; exact hr⟩
    | cons ch rest =>
      rw [ref_run_cons] at hr
      rcases hst : ref_step ch rest loops s with _ | ⟨rest2, loops2, s2⟩
      · rw [hst] at hr
        exact Option.noConfusion hr
      · rw [hst] at hr
        obtain ⟨m, hm⟩ := ih rest2 loops2 s2 r hr
        by_cases hc : is_operator ch = true
        · refine ⟨m + 1, ?_⟩
          rw [List.filter_cons_of_pos hc, ref_run_cons,
            ref_step_filter ch rest loops s rest2 loops2 s2 hst]
          exact hm
        · rw [ref_step_comment ch (by simpa using hc)] at hst
          simp only [Option.some.injEq, Prod.mk.injEq] at hst
          obtain ⟨rfl, rfl, rfl⟩ := hst
          exact ⟨m, by rw [List.filter_cons_of_neg hc]; exact hm⟩

/-! ## C19: translation preserves the meaning of the source -/

theorem resize_nil (n : Nat) : resize [] n = List.replicate n 0 := by
  simp [resize]

/-- Before the first character the freshly loaded machine and the reference state are in
the simulation relation. -/
theorem sim_init (code : List Char) (input : List Nat)
    (hlen : (code.filter is_operator).length < 4294967296)
    (hbal : balanced code = true) :
    sim (load_code BF_Interpreter.fresh code).2.1.code_ (code.filter is_operator) []
      (ref_init input) (load_code BF_Interpreter.fresh code).2.1.bf_
      { stdin := input, stdout := [] } := by
  have hok : (generate_loop (code.filter is_operator) 0 [] [] 0).ok = true := by
    rw [generate_loop_ok, List.length_nil, balanced_from_filter]
    exact hbal
  refine sim.normal _ _ _ _ _ 0 [] [] 0 ⟨hok, rfl, gen_inv_nil, by simpa using hlen⟩
    loops_rel.nil ⟨?_, ?_, ?_, ?_, ?_, rfl, rfl⟩ (Or.inl ⟨rfl, ?_, by simp⟩)
  · simp [ref_init]
  · simp only [load_code, BF_Interpreter.fresh]
    exact length_resize _ _
  · rw [num_cells_eq]; simp [ref_init]
  · rw [num_cells_eq]; simp [load_code, BF_Interpreter.fresh]
  · simp [ref_init, load_code, BF_Interpreter.fresh]
  · simp only [load_code, BF_Interpreter.fresh, ref_init]
    exact resize_nil _

/-- C19: translation preserves the meaning of the source.  For every source text with
balanced brackets (and fewer than `2^32` operator characters, the range of the 32-bit
indices of the translator), every input and every number of steps: if the reference run of
the text, started on a zeroed tape of `NUM_CELLS` cells, reaches the end of the text within
that many steps without moving the pointer off the tape, then `load_code` accepts the text,
and `execute_all` on the instruction sequence it produced, given enough fuel, returns
`true` at the end of the sequence with the same tape, the same output and the same
remaining input as the reference run.  The cell pointer is not compared: it may lag the
reference pointer by the moves not yet folded into an instruction. -/
theorem translation_preserves_meaning (code : List Char) (input : List Nat) (n : Nat)
    (r : RefState)
    (hlen : (code.filter is_operator).length < 4294967296)
    (hbal : balanced code = true)
    (href : ref_run n code [] (ref_init input) = some r) :
    (load_code BF_Interpreter.fresh code).1 = true ∧
    ∃ (m : Nat) (b : bf_t) (c : Console),
      (∀ fuel, m < fuel →
        execute_all (load_code BF_Interpreter.fresh code).2.1.code_ fuel
          (load_code BF_Interpreter.fresh code).2.1.bf_ { stdin := input, stdout := [] }
          = .returned true 0 b c) ∧
      finished { code_ := (load_code BF_Interpreter.fresh code).2.1.code_, bf_ := b } = true ∧
      b.cells = r.tape ∧ c.stdout = r.output ∧ c.stdin = r.input := by
  have hok : (load_code BF_Interpreter.fresh code).1 = true := by
    simp only [load_code, generate_code, BF_Interpreter.fresh]
    rw [generate_loop_ok, List.length_nil, balanced_from_filter]
    exact hbal
  refine ⟨hok, ?_⟩
  obtain ⟨n2, hn2⟩ := ref_run_filter n code [] (ref_init input) r href
  obtain ⟨m, b, c, hrun, hpc, hcells, hout, hin⟩ :=
    sim_run _ n2 _ _ _ _ _ r hn2 (sim_init code input hlen hbal)
  refine ⟨m, b, c, fun fuel hf => ?_, ?_, hcells, hout, hin⟩
  · exact execute_tmpl_true_of_finished _ 0 m fuel 0 _ _ b c hrun (by omega) hf
  · simp only [finished, ge_iff_le, decide_eq_true_eq]
    omega

/-- Witness for C19: the text `+ >,[.-] <[-]` (with two comment characters, a loop and a
zero loop) on the input byte 2; the reference run ends after 16 characters with a zeroed
tape and the output 2, 1. -/
theorem translation_preserves_meaning_witness :
    (("+ >,[.-] <[-]".toList).filter is_operator).length < 4294967296 ∧
    balanced "+ >,[.-] <[-]".toList = true ∧
    ref_run 16 "+ >,[.-] <[-]".toList [] (ref_init [2]) =
      some { ptr := 0, tape := List.replicate NUM_CELLS 0, input := [], output := [2, 1] } ∧
    ((load_code BF_Interpreter.fresh "+ >,[.-] <[-]".toList).1 = true ∧
    ∃ (m : Nat) (b : bf_t) (c : Console),
      (∀ fuel, m < fuel →
        execute_all (load_code BF_Interpreter.fresh "+ >,[.-] <[-]".toList).2.1.code_ fuel
          (load_code BF_Interpreter.fresh "+ >,[.-] <[-]".toList).2.1.bf_ { stdin := [2], stdout := [] }
          = .returned true 0 b c) ∧
      finished { code_ := (load_code BF_Interpreter.fresh "+ >,[.-] <[-]".toList).2.1.code_, bf_ := b } = true ∧
      b.cells = List.replicate NUM_CELLS 0 ∧ c.stdout = [2, 1] ∧ c.stdin = []) :=
  ⟨by decide, by decide, by decide!,
    translation_preserves_meaning "+ >,[.-] <[-]".toList [2] 16
      { ptr := 0, tape := List.replicate NUM_CELLS 0, input := [], output := [2, 1] }
      (by decide) (by decide) (by decide!)⟩

end BF
